import Mathlib

/-!
Verification of the line-number reconciliation engine of
`report_new_linter_errors.py`.

The Python source is shallowly embedded below.  Conventions of the embedding:

* Python exceptions are modelled with `Except PyError`: `ValueError` and
  `IndexError` are the two kinds the engine can raise.  A raised exception
  aborts the whole reconciliation, so the strict `Except` pipeline is
  observationally equivalent to the lazy Python generator pipeline on every
  input on which at most one kind of error can fire (all inputs used in the
  theorems below).
* Python `str` is Lean `String`; text is manipulated through `String.data`
  (`List Char`).  `\d` of the `re` module is modelled as ASCII digits and
  `int(...)` without the underscore-grouping extension; no input appearing in
  any theorem below contains non-ASCII digits or underscores.
* `pathlib.PurePath` (POSIX flavour) is modelled by the normalisation function
  `purePathNorm`: two `PurePath`s are equal iff their normalised renderings
  are equal, so entries store the normalised string.
* Python `dict` / `defaultdict` are association lists with insertion order,
  first-match lookup and in-place update (`alGet` / `alSet` / `alDel`).
* Python `list` indexing (negative indices count from the end, out-of-range
  raises `IndexError`) is modelled by `pyListAddAt`.
-/

namespace RNLE

/-- The two exception kinds the engine can raise: `ValueError` (malformed diff
input, `int()` failure) and `IndexError` (list index out of range). -/
inductive PyError where
  | valueError (msg : String)
  | indexError
deriving Repr, DecidableEq

abbrev PyResult (α : Type) := Except PyError α

instance {ε α : Type} [DecidableEq ε] [DecidableEq α] : DecidableEq (Except ε α) := fun a b =>
  match a, b with
  | .ok x, .ok y => decidable_of_iff (x = y) (by simp)
  | .error e, .error f => decidable_of_iff (e = f) (by simp)
  | .ok _, .error _ => isFalse (by simp)
  | .error _, .ok _ => isFalse (by simp)

/-- `s.rstrip("\n")`: drop every trailing newline character. -/
def pyRstripNl (s : String) : String :=
  ((s.data.reverse.dropWhile (fun c => c == '\n')).reverse).asString

/-- Characters stripped by Python `int(...)` (ASCII whitespace). -/
def isPySpace (c : Char) : Bool :=
  c == ' ' || c == '\t' || c == '\n' || c == '\r' || c == '\x0b' || c == '\x0c'

/-- Value of a list of ASCII digit characters, most significant first. -/
def digitsToNat (cs : List Char) : Nat :=
  cs.foldl (fun a c => 10 * a + (c.toNat - 48)) 0

/-- Python `int(s)`: strip whitespace, optional sign, then a nonempty run of
digits; anything else raises `ValueError`. -/
def pyInt (s : String) : PyResult Int :=
  let cs := ((s.data.dropWhile isPySpace).reverse.dropWhile isPySpace).reverse
  let signDigits : Int × List Char :=
    match cs with
    | c :: r => if c = '-' then (-1, r) else if c = '+' then (1, r) else (1, c :: r)
    | [] => (1, [])
  if signDigits.2 ≠ [] ∧ signDigits.2.all Char.isDigit then
    .ok (signDigits.1 * (digitsToNat signDigits.2 : Int))
  else
    .error (.valueError ("invalid literal for int with base 10: " ++ s))

/-- Split a character list at every occurrence of `sep` (like `str.split`). -/
def splitChar (sep : Char) : List Char → List (List Char)
  | [] => [[]]
  | c :: cs =>
    match splitChar sep cs with
    | [] => [[]]
    | g :: gs => if c = sep then [] :: g :: gs else (c :: g) :: gs

/-- The root marker of a POSIX `PurePath`: `//` is kept when the path starts
with exactly two slashes, a single `/` otherwise. -/
def purePathRoot (cs : List Char) : List Char :=
  if cs.take 3 = ['/', '/', '/'] then ['/']
  else if cs.take 2 = ['/', '/'] then ['/', '/']
  else if cs.take 1 = ['/'] then ['/']
  else []

/-- The non-root components of a POSIX `PurePath`: empty components and `.`
are dropped. -/
def purePathParts (cs : List Char) : List (List Char) :=
  (splitChar '/' cs).filter (fun p => !(p.isEmpty || p == ['.']))

/-- Join components with `/` separators. -/
def joinSlash : List (List Char) → List Char
  | [] => []
  | [p] => p
  | p :: ps => p ++ '/' :: joinSlash ps

/-- `str(PurePath(s))` for the POSIX flavour: collapse repeated slashes, drop
`.` components and trailing slashes; the empty path renders as `.`. -/
def purePathNorm (s : String) : String :=
  let root := purePathRoot s.data
  let parts := purePathParts s.data
  if root = [] ∧ parts = [] then "." else (root ++ joinSlash parts).asString

/-- Association-list lookup, modelling `dict.get` (keys of a Python dict are
unique, so first-occurrence lookup is exact). -/
def alGet {κ α : Type} [DecidableEq κ] : List (κ × α) → κ → Option α
  | [], _ => none
  | (k0, v0) :: t, k => if k0 = k then some v0 else alGet t k

/-- Association-list insert-or-update, modelling `d[k] = v` (an existing key
keeps its position, a new key is appended). -/
def alSet {κ α : Type} [DecidableEq κ] : List (κ × α) → κ → α → List (κ × α)
  | [], k, v => [(k, v)]
  | (k0, v0) :: t, k, v => if k0 = k then (k, v) :: t else (k0, v0) :: alSet t k v

/-- Association-list deletion, modelling `del d[k]`. -/
def alDel {κ α : Type} [DecidableEq κ] : List (κ × α) → κ → List (κ × α)
  | [], _ => []
  | (k0, v0) :: t, k => if k0 = k then t else (k0, v0) :: alDel t k

/-! ## Diff data model (`DiffLine`, `GitDiffHunk`) -/

/-- One payload line of a hunk.  The source represents this as
`Union[Literal[" "], DiffLine]` with `DiffLine.line_type ∈ {"+", "-"}`;
the three cases are the three constructors. -/
inductive DiffPayloadLine where
  | context
  | added (content : String)
  | removed (content : String)
deriving Repr, DecidableEq

structure GitDiffHunk where
  path_minus : String
  path_plus : String
  initial_line_number : Int
  diffs : List DiffPayloadLine
deriving Repr, DecidableEq

/-- `re.sub(r"^[ab]/", "", path)`. -/
def drop_git_diff_marker (path : List Char) : List Char :=
  match path with
  | 'a' :: '/' :: r => r
  | 'b' :: '/' :: r => r
  | _ => path

/-- `parse_git_diff_file_path`: drop the 4-character `--- ` / `+++ ` prefix,
strip a leading `a/` or `b/`, and normalise as a `PurePath`. -/
def parse_git_diff_file_path (l : List Char) : String :=
  purePathNorm (drop_git_diff_marker (l.drop 4)).asString

/-- `parse_diff_current_initial_line_number`:
`int(line[len("@@ -"):].split(",", 1)[0])`. -/
def parse_diff_current_initial_line_number (l : String) : PyResult Int :=
  pyInt ((l.data.drop 4).takeWhile (fun c => !(c == ','))).asString

/-- The loop state of the `parse_git_diff_hunks` generator; `acc` collects the
hunks yielded so far. -/
structure HunkState where
  path_minus : Option String
  path_plus : Option String
  initial : Option Int
  diffs : List DiffPayloadLine
  is_empty : Bool
  acc : List GitDiffHunk
deriving Repr, DecidableEq

def initHunkState : HunkState := ⟨none, none, none, [], true, []⟩

def startsW (pre : List Char) (cs : List Char) : Bool := pre.isPrefixOf cs

/-- One iteration of the `parse_git_diff_hunks` loop body. -/
def hunkStep (s0 : HunkState) (line : String) : PyResult HunkState :=
  let l := (pyRstripNl line).data
  let s : HunkState := { s0 with is_empty := false }
  if startsW "--- ".data l then
    match s.path_minus with
    | none => .ok { s with path_minus := some (parse_git_diff_file_path l) }
    | some pm =>
      match s.path_plus with
      | none => .error (.valueError "Malformed diff hunk: missing +++ line")
      | some pp =>
        match s.initial with
        | none => .error (.valueError "Malformed diff hunk: missing @@ line")
        | some ini =>
          .ok { s with
                acc := s.acc ++ [⟨pm, pp, ini, s.diffs⟩],
                diffs := [],
                path_minus := some (parse_git_diff_file_path l) }
  else if startsW "+++ ".data l then
    .ok { s with path_plus := some (parse_git_diff_file_path l) }
  else if startsW "@@ ".data l then
    let flushed : PyResult HunkState :=
      if s.diffs = [] then .ok s
      else
        match s.path_minus, s.path_plus, s.initial with
        | none, _, _ => .error (.valueError "Malformed diff hunk: missing --- line")
        | some _, none, _ => .error (.valueError "Malformed diff hunk: missing +++ line")
        | some _, some _, none => .error (.valueError "Malformed diff hunk: missing @@ line")
        | some pm, some pp, some ini =>
          .ok { s with acc := s.acc ++ [⟨pm, pp, ini, s.diffs⟩], diffs := [] }
    match flushed with
    | .error e => .error e
    | .ok s1 =>
      match parse_diff_current_initial_line_number l.asString with
      | .error e => .error e
      | .ok n => .ok { s1 with initial := some n }
  else if startsW " ".data l then
    .ok { s with diffs := s.diffs ++ [.context] }
  else if startsW "+".data l then
    .ok { s with diffs := s.diffs ++ [.added (l.drop 1).asString] }
  else if startsW "-".data l then
    .ok { s with diffs := s.diffs ++ [.removed (l.drop 1).asString] }
  else
    .ok s

/-- The code after the `parse_git_diff_hunks` loop: flush the final hunk, or
raise when one of its components was never established. -/
def hunkFinish (s : HunkState) : PyResult (List GitDiffHunk) :=
  if s.is_empty then .ok s.acc
  else
    match s.path_minus, s.path_plus, s.initial with
    | none, _, _ => .error (.valueError "Malformed diff hunk: missing --- line")
    | some _, none, _ => .error (.valueError "Malformed diff hunk: missing +++ line")
    | some _, some _, none => .error (.valueError "Malformed diff hunk: missing @@ line")
    | some pm, some pp, some ini => .ok (s.acc ++ [⟨pm, pp, ini, s.diffs⟩])

def parse_git_diff_hunks (lines : List String) : PyResult (List GitDiffHunk) := do
  let s ← lines.foldlM hunkStep initHunkState
  hunkFinish s

/-! ## Snapshot data model (`SnapshotEntry`, `SnapshotLine`) -/

structure SnapshotEntry where
  path : String
  line_number : Int
  other_contents : String
deriving Repr, DecidableEq

/-- `SnapshotLine = Union[str, SnapshotEntry]`. -/
inductive SnapshotLine where
  | text (s : String)
  | entry (e : SnapshotEntry)
deriving Repr, DecidableEq

/-- Is `i` a position at which the regex `^(.+):(\d+)(.*)` may split: a colon
with a nonempty prefix before it and a digit right after it? -/
def splitOk (cs : List Char) (i : Nat) : Bool :=
  decide (1 ≤ i) && (cs.get? i == some ':') &&
    (match cs.get? (i + 1) with
     | some c => c.isDigit
     | none => false)

/-- Position of the match of `^(.+):(\d+)(.*)`: the greedy `(.+)` makes the
engine pick the largest valid split position. -/
def findSplit (cs : List Char) : Option Nat :=
  (List.range cs.length).reverse.find? (splitOk cs)

/-- One iteration of `parse_snapshot_lines`: match `^(.+):(\d+)(.*)` against
the rstripped line.  `.` never matches `\n`, so the match is confined to the
segment before the first interior newline (and everything after it is
dropped by the non-anchored groups); lines without a match pass through. -/
def parse_snapshot_line (line : String) : SnapshotLine :=
  let s := pyRstripNl line
  let seg := s.data.takeWhile (fun c => !(c == '\n'))
  match findSplit seg with
  | none => .text s
  | some i =>
    let path := seg.take i
    let after := seg.drop (i + 1)
    let ds := after.takeWhile Char.isDigit
    let rest := after.dropWhile Char.isDigit
    .entry ⟨purePathNorm path.asString, (digitsToNat ds : Int), rest.asString⟩

def parse_snapshot_lines (lines : List String) : List SnapshotLine :=
  lines.map parse_snapshot_line

def format_snapshot_line : SnapshotLine → String
  | .text s => s
  | .entry e => e.path ++ ":" ++ toString e.line_number ++ e.other_contents

/-! ## `AdjustmentTable` -/

/-- `AdjustmentTable._contents`: per path, a growable list indexed by
(line number − 1) holding per-line offsets. -/
abbrev AdjustmentTable := List (String × List Int)

/-- `lst[idx] += off` with Python list-index semantics: a negative index
counts from the end, and an out-of-range index raises `IndexError`. -/
def pyListAddAt (lst : List Int) (idx : Int) (off : Int) : PyResult (List Int) :=
  let real : Int := if idx < 0 then (lst.length : Int) + idx else idx
  if 0 ≤ real ∧ real < (lst.length : Int) then
    .ok (lst.set real.toNat (lst.getD real.toNat 0 + off))
  else
    .error .indexError

/-- `AdjustmentTable.add_offset_of`: extend the per-path list with zeros up to
the line's index when needed, then add the offset at that index.  (The
`defaultdict` also materialises the key on the failing path; an exception
aborts the whole reconciliation, so that difference is unobservable.) -/
def add_offset_of (t : AdjustmentTable) (path : String) (line_number : Int) (offset : Int) :
    PyResult AdjustmentTable :=
  let cur := (alGet t path).getD []
  let line_index : Int := line_number - 1
  let padded :=
    if (cur.length : Int) ≤ line_index then
      cur ++ List.replicate (line_index + 1 - (cur.length : Int)).toNat 0
    else cur
  (pyListAddAt padded line_index offset).map (fun l => alSet t path l)

/-- `itertools.accumulate` with a running total starting at `a`. -/
def pyAccumulateFrom (a : Int) : List Int → List Int
  | [] => []
  | x :: xs => (a + x) :: pyAccumulateFrom (a + x) xs

/-- `list(itertools.accumulate(l))`. -/
def pyAccumulate (l : List Int) : List Int := pyAccumulateFrom 0 l

/-- `AccumulatedOffsets.__getitem__`: 0 before the recorded range, the last
accumulated total past its end (`IndexError` on an empty list), the
accumulated total at the line's index otherwise. -/
def accumulated_getitem (offsets : List Int) (line_number : Int) : PyResult Int :=
  let line_index : Int := line_number - 1
  if line_index < 0 then .ok 0
  else if (offsets.length : Int) ≤ line_index then
    match offsets.getLast? with
    | some v => .ok v
    | none => .error .indexError
  else .ok (offsets.getD line_index.toNat 0)

/-- `AdjustmentTable.lines_and_total_offsets`. -/
def lines_and_total_offsets (t : AdjustmentTable) : List (String × List Int) :=
  t.map (fun kv => (kv.1, pyAccumulate kv.2))

/-! ## `CollectedSnapshotEntries` -/

/-- `_snapshot_lines` (a tombstoned slot is `none`) plus the
`path → line_number → slot` index. -/
structure CollectedSnapshotEntries where
  snapshot_lines : List (Option SnapshotLine)
  index : List (String × List (Int × Nat))
deriving Repr, DecidableEq

/-- One iteration of `CollectedSnapshotEntries.__init__`. -/
def collectStep (c : CollectedSnapshotEntries) (sl : SnapshotLine) : CollectedSnapshotEntries :=
  let i := c.snapshot_lines.length
  { snapshot_lines := c.snapshot_lines ++ [some sl],
    index :=
      match sl with
      | .text _ => c.index
      | .entry e =>
        alSet c.index e.path (alSet ((alGet c.index e.path).getD []) e.line_number i) }

def collectSnapshotEntries (lines : List String) : CollectedSnapshotEntries :=
  (parse_snapshot_lines lines).foldl collectStep ⟨[], []⟩

/-- `self._index.get(path, {}).get(line_number)`. -/
def idxGet (c : CollectedSnapshotEntries) (path : String) (line_number : Int) : Option Nat :=
  (alGet c.index path).bind (fun d => alGet d line_number)

/-- `CollectedSnapshotEntries.get_entry`. -/
def get_entry (c : CollectedSnapshotEntries) (path_minus : String) (line_number : Int) :
    Option SnapshotEntry :=
  match idxGet c path_minus line_number with
  | none => none
  | some i =>
    match c.snapshot_lines.get? i with
    | some (some (.entry e)) => some e
    | _ => none

/-- `CollectedSnapshotEntries.delete_entry`: tombstone the slot and remove the
index key. -/
def delete_entry (c : CollectedSnapshotEntries) (path_minus : String) (line_number : Int) :
    CollectedSnapshotEntries :=
  match alGet c.index path_minus with
  | none => c
  | some d =>
    match alGet d line_number with
    | none => c
    | some i =>
      { snapshot_lines := c.snapshot_lines.set i none,
        index := alSet c.index path_minus (alDel d line_number) }

/-- Inner loop of `adjust_entry_line_numbers`: relocate each indexed entry of
one path by its accumulated offset. -/
def adjustPathEntries (lines : List (Option SnapshotLine)) (offsets : List Int) :
    List (Int × Nat) → PyResult (List (Option SnapshotLine))
  | [] => .ok lines
  | (ln, slot) :: rest =>
    match lines.get? slot with
    | some (some (.entry e)) =>
      match accumulated_getitem offsets ln with
      | .error err => .error err
      | .ok off =>
        adjustPathEntries
          (lines.set slot (some (.entry ⟨e.path, e.line_number + off, e.other_contents⟩)))
          offsets rest
    | _ => adjustPathEntries lines offsets rest

/-- Outer loop of `adjust_entry_line_numbers` over the table's rows. -/
def adjustAllPaths (idx : List (String × List (Int × Nat))) :
    List (String × List Int) → List (Option SnapshotLine) → PyResult (List (Option SnapshotLine))
  | [], lines => .ok lines
  | (p, offs) :: rest, lines =>
    match alGet idx p with
    | none => adjustAllPaths idx rest lines
    | some d =>
      match adjustPathEntries lines offs d with
      | .error e => .error e
      | .ok lines1 => adjustAllPaths idx rest lines1

/-- `CollectedSnapshotEntries.adjust_entry_line_numbers` (does not update the
index, mirroring the source's NOTE). -/
def adjust_entry_line_numbers (c : CollectedSnapshotEntries) (t : AdjustmentTable) :
    PyResult CollectedSnapshotEntries :=
  (adjustAllPaths c.index (lines_and_total_offsets t) c.snapshot_lines).map
    (fun ls => { c with snapshot_lines := ls })

/-- `CollectedSnapshotEntries.to_formatted_snapshot_lines`. -/
def to_formatted_snapshot_lines (c : CollectedSnapshotEntries) : List String :=
  (c.snapshot_lines.filterMap id).map format_snapshot_line

/-! ## The reconciliation walk (`adjust_line_numbers`) -/

/-- The body of the per-hunk loop of `adjust_line_numbers`.  `base` is
`original_line_number_offset` (decremented on every added line) and `i` the
`enumerate` counter, so the current old-file line is `base + i`. -/
def processPayload (path : String) (base : Int) (i : Nat) :
    List DiffPayloadLine → AdjustmentTable → CollectedSnapshotEntries →
    PyResult (AdjustmentTable × CollectedSnapshotEntries)
  | [], t, c => .ok (t, c)
  | d :: rest, t, c =>
    let ln : Int := base + i
    match get_entry c path ln, d with
    | none, .context =>
      match add_offset_of t path ln 0 with
      | .error e => .error e
      | .ok t1 => processPayload path base (i + 1) rest t1 c
    | none, .removed _ =>
      match add_offset_of t path ln (-1) with
      | .error e => .error e
      | .ok t1 => processPayload path base (i + 1) rest t1 c
    | none, .added _ =>
      match add_offset_of t path ln 1 with
      | .error e => .error e
      | .ok t1 => processPayload path (base - 1) (i + 1) rest t1 c
    | some _, .context =>
      match add_offset_of t path ln 0 with
      | .error e => .error e
      | .ok t1 => processPayload path base (i + 1) rest t1 c
    | some _, .removed _ =>
      match add_offset_of (t) path ln (-1) with
      | .error e => .error e
      | .ok t1 => processPayload path base (i + 1) rest t1 (delete_entry c path ln)
    | some _, .added _ =>
      match add_offset_of t path ln 1 with
      | .error e => .error e
      | .ok t1 => processPayload path (base - 1) (i + 1) rest t1 c

/-- Walk every hunk in order, threading the table and the snapshot state. -/
def processHunks (t : AdjustmentTable) (c : CollectedSnapshotEntries) :
    List GitDiffHunk → PyResult (AdjustmentTable × CollectedSnapshotEntries)
  | [] => .ok (t, c)
  | h :: rest =>
    match processPayload h.path_minus h.initial_line_number 0 h.diffs t c with
    | .error e => .error e
    | .ok (t1, c1) => processHunks t1 c1 rest

/-- `adjust_line_numbers`: parse the diff, walk its hunks building the
adjustment table (deleting entries whose anchor line was removed), relocate
the surviving entries, and serialize. -/
def adjust_line_numbers (iter_diff_lines iter_snapshot_lines : List String) :
    PyResult (List String) :=
  let snapshot_entries := collectSnapshotEntries iter_snapshot_lines
  match parse_git_diff_hunks iter_diff_lines with
  | .error e => .error e
  | .ok hunks =>
    match processHunks [] snapshot_entries hunks with
    | .error e => .error e
    | .ok (t, c1) =>
      match adjust_entry_line_numbers c1 t with
      | .error e => .error e
      | .ok c2 => .ok (to_formatted_snapshot_lines c2)

/-! ## Derived notions used by the statements below -/

/-- The success branch of `add_offset_of` for one per-path offset list: pad
with zeros up to the line's index, then add `o` there. -/
def bumpAt (l : List Int) (line_number o : Int) : List Int :=
  let idx := line_number - 1
  let padded :=
    if (l.length : Int) ≤ idx then l ++ List.replicate (idx + 1 - (l.length : Int)).toNat 0
    else l
  padded.set idx.toNat (padded.getD idx.toNat 0 + o)

def isAddedLine : DiffPayloadLine → Bool
  | .added _ => true
  | _ => false

def isRemovedLine : DiffPayloadLine → Bool
  | .removed _ => true
  | _ => false

def countAdded (l : List DiffPayloadLine) : Nat := (l.filter isAddedLine).length

def countRemoved (l : List DiffPayloadLine) : Nat := (l.filter isRemovedLine).length

/-- The old-file line number at which payload item `i` of a hunk starting at
`initial` is processed: `Added` items do not advance the old-file cursor. -/
def oldLineAt (initial : Int) (diffs : List DiffPayloadLine) (i : Nat) : Int :=
  initial + i - countAdded (diffs.take i)

/-- Position discipline of a payload walked from old-file cursor `s`, for an
anchor at line `L`: every item sits at a positive old-file line, `Added`
items sit at old lines `≤ L` (inserted strictly above the anchor's content)
and `Removed` items at old lines `< L` (never the anchor itself). -/
def payloadPos (L : Int) : Int → List DiffPayloadLine → Bool
  | _, [] => true
  | s, .context :: r => decide (1 ≤ s) && payloadPos L (s + 1) r
  | s, .added _ :: r => decide (1 ≤ s) && decide (s ≤ L) && payloadPos L s r
  | s, .removed _ :: r => decide (1 ≤ s) && decide (s < L) && payloadPos L (s + 1) r

/-- Index-to-slot soundness: every index key points at a live entry slot whose
entry carries exactly that path and line number. -/
def slotSpec (c : CollectedSnapshotEntries) : Prop :=
  ∀ p ln slot, idxGet c p ln = some slot →
    ∃ suf, c.snapshot_lines.get? slot = some (some (.entry ⟨p, ln, suf⟩))

/-- Well-formedness of the two-level index: outer keys (paths) and each inner
key set (line numbers) are duplicate-free — automatic for Python dicts. -/
def keysWF (c : CollectedSnapshotEntries) : Prop :=
  (c.index.map Prod.fst).Nodup ∧ ∀ kv ∈ c.index, (kv.2.map Prod.fst).Nodup

/-- Shape of the adjustment table built by a walk that only ever touches path
`P` with contributions at old lines `≤ L`: a single row for `P` whose cells
sum to `k` and vanish past index `L`. -/
def tableSums (P : String) (L : Int) (t : AdjustmentTable) (k : Int) : Prop :=
  (t = [] ∧ k = 0) ∨ ∃ l, t = [(P, l)] ∧ l ≠ [] ∧ l.sum = k ∧ ∀ x ∈ l.drop L.toNat, x = 0

/-- The opaque (non-entry) lines of a slot list, in order. -/
def filterTexts (lines : List (Option SnapshotLine)) : List String :=
  lines.filterMap (fun o =>
    match o with
    | some (.text s) => some s
    | _ => none)

/-- Is there a colon-followed-by-digit pair at position `j`? -/
def colonDigitAt (cs : List Char) (j : Nat) : Bool :=
  (cs.get? j == some ':') &&
    (match cs.get? (j + 1) with
     | some c => c.isDigit
     | none => false)

/-- No colon-followed-by-digit pair anywhere (so a suffix satisfying this can
never host the regex split of `^(.+):(\d+)(.*)`). -/
def noColonDigit (cs : List Char) : Bool :=
  (List.range cs.length).all (fun j => !colonDigitAt cs j)

/-- Does the rstripped line match the `^(.+):(\d+)(.*)` entry shape? -/
def matchesEntryShape (l : String) : Bool :=
  (findSplit ((pyRstripNl l).data.takeWhile (fun c => !(c == '\n')))).isSome

/-- Decimal digits of `n`, most significant first (reference rendering used to
reason about `Nat.repr`). -/
def natDigits : Nat → List Char
  | n =>
    if h : n < 10 then [Nat.digitChar n]
    else natDigits (n / 10) ++ [Nat.digitChar (n % 10)]
  decreasing_by exact Nat.div_lt_self (by omega) (by omega)

/-! ## Association-list lemmas -/

theorem alGet_alSet_self {κ α : Type} [DecidableEq κ] (t : List (κ × α)) (k : κ) (v : α) :
    alGet (alSet t k v) k = some v := by
  induction t with
  | nil => simp [alGet, alSet]
  | cons kv rest ih =>
    obtain ⟨k0, v0⟩ := kv
    by_cases h : k0 = k <;> simp [alGet, alSet, h, ih]

theorem alGet_eq_none_of_not_mem {κ α : Type} [DecidableEq κ] (t : List (κ × α)) (k : κ)
    (h : k ∉ t.map Prod.fst) : alGet t k = none := by
  induction t with
  | nil => rfl
  | cons kv rest ih =>
    obtain ⟨k0, v0⟩ := kv
    simp only [List.map_cons, List.mem_cons, not_or] at h
    rw [alGet, if_neg (fun hc => h.1 hc.symm)]
    exact ih h.2

theorem alGet_alSet_ne {κ α : Type} [DecidableEq κ] (t : List (κ × α)) (k k' : κ) (v : α)
    (h : k' ≠ k) : alGet (alSet t k v) k' = alGet t k' := by
  have h' : ¬k = k' := fun hc => h hc.symm
  induction t with
  | nil => simp [alGet, alSet, h']
  | cons kv rest ih =>
    obtain ⟨k0, v0⟩ := kv
    by_cases h0 : k0 = k
    · subst h0
      simp [alGet, alSet, h']
    · simp [alGet, alSet, h0, ih]

theorem alGet_alDel_self {κ α : Type} [DecidableEq κ] (t : List (κ × α)) (k : κ)
    (hnd : (t.map Prod.fst).Nodup) : alGet (alDel t k) k = none := by
  induction t with
  | nil => rfl
  | cons kv rest ih =>
    obtain ⟨k0, v0⟩ := kv
    simp only [List.map_cons, List.nodup_cons] at hnd
    by_cases h : k0 = k
    · subst h
      rw [alDel, if_pos rfl]
      exact alGet_eq_none_of_not_mem rest k0 hnd.1
    · rw [alDel, if_neg h, alGet, if_neg h]
      exact ih hnd.2

theorem alGet_alDel_ne {κ α : Type} [DecidableEq κ] (t : List (κ × α)) (k k' : κ) (h : k' ≠ k) :
    alGet (alDel t k) k' = alGet t k' := by
  have h' : ¬k = k' := fun hc => h hc.symm
  induction t with
  | nil => rfl
  | cons kv rest ih =>
    obtain ⟨k0, v0⟩ := kv
    by_cases h0 : k0 = k
    · subst h0
      simp [alDel, alGet, h']
    · simp [alDel, alGet, h0, ih]

/-- `alSet` never removes keys: a present key stays present. -/
theorem alGet_alSet_isSome {κ α : Type} [DecidableEq κ] (t : List (κ × α)) (k k' : κ) (v : α)
    (h : (alGet t k').isSome) : (alGet (alSet t k v) k').isSome := by
  by_cases hk : k' = k
  · rw [hk, alGet_alSet_self]; rfl
  · rw [alGet_alSet_ne _ _ _ _ hk]; exact h

/-- Keys of `alSet`. -/
theorem alSet_map_fst {κ α : Type} [DecidableEq κ] (t : List (κ × α)) (k : κ) (v : α) :
    ((alSet t k v).map Prod.fst) = if k ∈ t.map Prod.fst then t.map Prod.fst
      else t.map Prod.fst ++ [k] := by
  induction t with
  | nil => simp [alSet]
  | cons kv rest ih =>
    obtain ⟨k0, v0⟩ := kv
    by_cases h : k0 = k
    · subst h
      simp [alSet]
    · simp only [alSet, if_neg h, List.map_cons, ih, List.mem_cons]
      have : ¬k = k0 := fun hc => h hc.symm
      by_cases hm : k ∈ rest.map Prod.fst <;> simp [hm, this]

theorem alSet_nodup_keys {κ α : Type} [DecidableEq κ] (t : List (κ × α)) (k : κ) (v : α)
    (hnd : (t.map Prod.fst).Nodup) : ((alSet t k v).map Prod.fst).Nodup := by
  rw [alSet_map_fst]
  by_cases hm : k ∈ t.map Prod.fst
  · simpa [hm] using hnd
  · simp only [hm, if_false]
    exact List.Nodup.append hnd (List.nodup_singleton k) (by simpa using hm)

/-- Keys of `alDel t k` are keys of `t`. -/
theorem alDel_keys_sub {κ α : Type} [DecidableEq κ] (t : List (κ × α)) (k k0 : κ)
    (hc : k0 ∈ (alDel t k).map Prod.fst) : k0 ∈ t.map Prod.fst := by
  induction t with
  | nil => exact absurd hc (by rw [show alDel ([] : List (κ × α)) k = [] from rfl]; simp)
  | cons kv rest ih =>
    obtain ⟨k2, v2⟩ := kv
    by_cases h2 : k2 = k
    · subst h2
      rw [alDel, if_pos rfl] at hc
      simp only [List.map_cons, List.mem_cons]
      exact Or.inr hc
    · simp only [alDel, if_neg h2, List.map_cons, List.mem_cons] at hc ⊢
      rcases hc with hc | hc
      · exact Or.inl hc
      · exact Or.inr (ih hc)

theorem alDel_nodup_keys {κ α : Type} [DecidableEq κ] (t : List (κ × α)) (k : κ)
    (hnd : (t.map Prod.fst).Nodup) : ((alDel t k).map Prod.fst).Nodup := by
  induction t with
  | nil => exact hnd
  | cons kv rest ih =>
    obtain ⟨k0, v0⟩ := kv
    simp only [List.map_cons, List.nodup_cons] at hnd
    by_cases h : k0 = k
    · simpa [alDel, h] using hnd.2
    · simp only [alDel, if_neg h, List.map_cons, List.nodup_cons]
      exact ⟨fun hc => hnd.1 (alDel_keys_sub rest k k0 hc), ih hnd.2⟩

/-- A present key of `alDel t k` was present in `t` with the same value
(keys must be unique, which every Python dict guarantees). -/
theorem alGet_alDel_sub {κ α : Type} [DecidableEq κ] (t : List (κ × α)) (k k' : κ) (v : α)
    (hnd : (t.map Prod.fst).Nodup) (h : alGet (alDel t k) k' = some v) : alGet t k' = some v := by
  by_cases hk : k' = k
  · subst hk
    rw [alGet_alDel_self t k' hnd] at h
    cases h
  · rw [alGet_alDel_ne _ _ _ hk] at h
    exact h

/-! ## Accumulated-offset lemmas -/

theorem pyAccumulateFrom_length (a : Int) (l : List Int) :
    (pyAccumulateFrom a l).length = l.length := by
  induction l generalizing a with
  | nil => rfl
  | cons x xs ih => simp [pyAccumulateFrom, ih]

theorem pyAccumulateFrom_getLast? (a : Int) (l : List Int) (h : l ≠ []) :
    (pyAccumulateFrom a l).getLast? = some (a + l.sum) := by
  induction l generalizing a with
  | nil => exact absurd rfl h
  | cons x xs ih =>
    cases xs with
    | nil => simp [pyAccumulateFrom]
    | cons y ys =>
      have hih := ih (a + x) (by simp)
      rw [pyAccumulateFrom]
      cases hys : pyAccumulateFrom (a + x) (y :: ys) with
      | nil => simp [pyAccumulateFrom] at hys
      | cons z zs =>
        rw [hys] at hih
        rw [List.getLast?_cons_cons, hih]
        congr 1
        simp only [List.sum_cons]
        ring

theorem pyAccumulateFrom_get? (a : Int) (l : List Int) (i : Nat) (h : i < l.length) :
    (pyAccumulateFrom a l).get? i = some (a + (l.take (i + 1)).sum) := by
  induction l generalizing a i with
  | nil => simp at h
  | cons x xs ih =>
    cases i with
    | zero => simp [pyAccumulateFrom]
    | succ j =>
      rw [pyAccumulateFrom, List.get?_cons_succ, ih (a + x) j (by simpa using h)]
      simp only [List.take_succ_cons, List.sum_cons]
      congr 1
      ring

/-- Effective-offset lookup: when every recorded contribution past line `ln`
is zero, the accumulated lookup at `ln` is the grand total (saturating past
the end of the recorded range). -/
theorem accumulated_getitem_total (l : List Int) (ln : Int) (hne : l ≠ []) (h1 : 1 ≤ ln)
    (hz : ∀ x ∈ l.drop ln.toNat, x = 0) :
    accumulated_getitem (pyAccumulate l) ln = .ok l.sum := by
  have hlen : (pyAccumulate l).length = l.length := pyAccumulateFrom_length 0 l
  rw [accumulated_getitem]
  have hidx : ¬(ln - 1 < 0) := by omega
  rw [if_neg hidx]
  have hlast : (pyAccumulate l).getLast? = some (0 + l.sum) := by
    rw [pyAccumulate]
    exact pyAccumulateFrom_getLast? 0 l hne
  by_cases hsat : ((pyAccumulate l).length : Int) ≤ ln - 1
  · rw [if_pos hsat, hlast]
    simp
  · rw [if_neg hsat]
    have hlt : (ln - 1).toNat < l.length := by omega
    have hget := pyAccumulateFrom_get? 0 l (ln - 1).toNat hlt
    have : (pyAccumulate l).getD (ln - 1).toNat 0 = (l.take ((ln - 1).toNat + 1)).sum := by
      rw [List.getD_eq_get?]
      rw [pyAccumulate] at *
      rw [hget]
      simp
    rw [this]
    have htake : (ln - 1).toNat + 1 = ln.toNat := by omega
    rw [htake]
    have hsplit := List.sum_take_add_sum_drop l ln.toNat
    have hdrop : (l.drop ln.toNat).sum = 0 := List.sum_eq_zero hz
    congr 1
    omega

/-- Saturation: past the recorded range the lookup returns the final
cumulative total. -/
theorem accumulated_getitem_saturates (l : List Int) (ln : Int) (hne : l ≠ [])
    (hpast : (l.length : Int) ≤ ln - 1) :
    accumulated_getitem (pyAccumulate l) ln = .ok l.sum := by
  have hlen : (pyAccumulate l).length = l.length := pyAccumulateFrom_length 0 l
  rw [accumulated_getitem]
  have h0 : (0 : Int) ≤ (l.length : Int) := by positivity
  have hlast : (pyAccumulate l).getLast? = some (0 + l.sum) := by
    rw [pyAccumulate]
    exact pyAccumulateFrom_getLast? 0 l hne
  rw [if_neg (by omega : ¬(ln - 1 < 0)), if_pos (by omega : ((pyAccumulate l).length : Int) ≤ ln - 1),
    hlast]
  simp

/-! ## `add_offset_of` lemmas -/

/-- For a positive line number `add_offset_of` cannot fail, and its effect on
the path's row is `bumpAt`. -/
theorem add_offset_of_eq (t : AdjustmentTable) (p : String) (ln o : Int) (h1 : 1 ≤ ln) :
    add_offset_of t p ln o = .ok (alSet t p (bumpAt ((alGet t p).getD []) ln o)) := by
  rw [add_offset_of, bumpAt]
  set cur := (alGet t p).getD [] with hcur
  set padded :=
    if (cur.length : Int) ≤ ln - 1 then cur ++ List.replicate (ln - 1 + 1 - (cur.length : Int)).toNat 0
    else cur with hpadded
  have hplen : ln - 1 < (padded.length : Int) := by
    rw [hpadded]
    by_cases hc : (cur.length : Int) ≤ ln - 1
    · rw [if_pos hc]
      simp only [List.length_append, List.length_replicate]
      omega
    · rw [if_neg hc]
      omega
  rw [pyListAddAt]
  have hreal : ¬(ln - 1 < 0) := by omega
  simp only [if_neg hreal]
  rw [if_pos ⟨by omega, hplen⟩]
  rfl

theorem bumpAt_length (l : List Int) (ln o : Int) (h1 : 1 ≤ ln) :
    (bumpAt l ln o).length = max l.length ln.toNat := by
  rw [bumpAt]
  by_cases hc : ((l.length : Int) ≤ ln - 1)
  · simp only [if_pos hc, List.length_set, List.length_append, List.length_replicate]
    omega
  · simp only [if_neg hc, List.length_set]
    omega

theorem bumpAt_ne_nil (l : List Int) (ln o : Int) (h1 : 1 ≤ ln) : bumpAt l ln o ≠ [] := by
  have := bumpAt_length l ln o h1
  intro hc
  rw [hc] at this
  simp only [List.length_nil] at this
  omega

/-- Splitting a list at a valid index. -/
theorem sum_take_getD_drop (l : List Int) (n : Nat) (h : n < l.length) :
    l.sum = (l.take n).sum + l.getD n 0 + (l.drop (n + 1)).sum := by
  have hsplit := List.sum_take_add_sum_drop l n
  have hdrop : l.drop n = l.getD n 0 :: l.drop (n + 1) := by
    rw [List.drop_eq_getElem_cons h]
    congr 1
    rw [List.getD_eq_getElem?_getD]
    simp [List.getElem?_eq_getElem h]
  rw [hdrop, List.sum_cons] at hsplit
  omega

theorem bumpAt_sum (l : List Int) (ln o : Int) (h1 : 1 ≤ ln) :
    (bumpAt l ln o).sum = l.sum + o := by
  rw [bumpAt]
  set idx := ln - 1 with hidx
  set padded :=
    if (l.length : Int) ≤ idx then l ++ List.replicate (idx + 1 - (l.length : Int)).toNat 0
    else l with hpadded
  have hplen : idx.toNat < padded.length := by
    rw [hpadded]
    by_cases hc : (l.length : Int) ≤ idx
    · simp only [if_pos hc, List.length_append, List.length_replicate]
      omega
    · simp only [if_neg hc]
      omega
  have hpsum : padded.sum = l.sum := by
    rw [hpadded]
    by_cases hc : (l.length : Int) ≤ idx
    · simp [if_pos hc]
    · simp [if_neg hc]
  rw [List.sum_set]
  have hval := sum_take_getD_drop padded idx.toNat hplen
  rw [if_pos hplen]
  omega

/-- Membership in a dropped suffix, through `get?`. -/
theorem mem_drop_iff_get? (l : List Int) (n : Nat) (x : Int) :
    x ∈ l.drop n ↔ ∃ j, l.get? (n + j) = some x := by
  rw [List.mem_iff_get?]
  constructor
  · rintro ⟨j, hj⟩
    exact ⟨j, by rw [← List.get?_drop]; exact hj⟩
  · rintro ⟨j, hj⟩
    exact ⟨j, by rw [List.get?_drop]; exact hj⟩

/-- `bumpAt` keeps the tail past index `M` all-zero, provided the bump lands
strictly below `M` or adds zero. -/
theorem bumpAt_zero_tail (l : List Int) (ln o : Int) (M : Nat) (h1 : 1 ≤ ln)
    (hM : ln ≤ (M : Int) ∨ o = 0) (hz : ∀ x ∈ l.drop M, x = 0) :
    ∀ x ∈ (bumpAt l ln o).drop M, x = 0 := by
  rw [bumpAt]
  set idx := ln - 1 with hidx
  set padded :=
    if (l.length : Int) ≤ idx then l ++ List.replicate (idx + 1 - (l.length : Int)).toNat 0
    else l with hpadded
  have hpz : ∀ x ∈ padded.drop M, x = 0 := by
    rw [hpadded]
    by_cases hc : (l.length : Int) ≤ idx
    · rw [if_pos hc]
      intro x hx
      rw [mem_drop_iff_get?] at hx
      obtain ⟨j, hj⟩ := hx
      by_cases hlt : M + j < l.length
      · rw [List.get?_append hlt] at hj
        exact hz x (by rw [mem_drop_iff_get?]; exact ⟨j, hj⟩)
      · rw [List.get?_append_right (by omega)] at hj
        have hx : x ∈ List.replicate (idx + 1 - (l.length : Int)).toNat (0 : Int) :=
          List.get?_mem hj
        exact List.eq_of_mem_replicate hx
    · rw [if_neg hc]
      exact hz
  have hplen : idx.toNat < padded.length := by
    rw [hpadded]
    by_cases hc : (l.length : Int) ≤ idx
    · simp only [if_pos hc, List.length_append, List.length_replicate]
      omega
    · simp only [if_neg hc]
      omega
  intro x hx
  rw [mem_drop_iff_get?] at hx
  obtain ⟨j, hj⟩ := hx
  by_cases heq : idx.toNat = M + j
  · rw [← heq] at hj
    rw [List.get?_set_eq, List.get?_eq_get hplen] at hj
    simp only [Option.map_some] at hj
    rcases hM with hM | hM
    · omega
    · have hgd : padded.getD idx.toNat 0 = padded.get ⟨idx.toNat, hplen⟩ := by
        rw [List.getD_eq_getElem?_getD, List.getElem?_eq_getElem hplen]
        rfl
      have hxv : x = padded.getD idx.toNat 0 + o := by
        have hj2 : some (padded.getD idx.toNat 0 + o) = some x := hj
        exact (Option.some.injEq _ _ ▸ hj2).symm
      rw [hxv, hM]
      have : padded.getD idx.toNat 0 = 0 := by
        apply hpz
        rw [mem_drop_iff_get?]
        refine ⟨j, ?_⟩
        rw [← heq, List.get?_eq_get hplen, List.getD_eq_getElem?_getD,
          List.getElem?_eq_getElem hplen]
        rfl
      omega
  · rw [List.get?_set_ne _ _ heq] at hj
    exact hpz x (by rw [mem_drop_iff_get?]; exact ⟨j, hj⟩)

/-! ## More association-list lemmas -/

theorem mem_alSet {κ α : Type} [DecidableEq κ] (t : List (κ × α)) (k : κ) (v : α) (kv : κ × α)
    (h : kv ∈ alSet t k v) : kv ∈ t ∨ kv = (k, v) := by
  induction t with
  | nil => simpa [alSet] using h
  | cons kv0 rest ih =>
    obtain ⟨k0, v0⟩ := kv0
    by_cases h0 : k0 = k
    · rw [alSet, if_pos h0] at h
      rcases List.mem_cons.mp h with h | h
      · exact Or.inr h
      · exact Or.inl (List.mem_cons_of_mem _ h)
    · rw [alSet, if_neg h0] at h
      rcases List.mem_cons.mp h with h | h
      · exact Or.inl (by rw [h]; exact List.mem_cons_self _ _)
      · rcases ih h with h | h
        · exact Or.inl (List.mem_cons_of_mem _ h)
        · exact Or.inr h

theorem mem_alDel {κ α : Type} [DecidableEq κ] (t : List (κ × α)) (k : κ) (kv : κ × α)
    (h : kv ∈ alDel t k) : kv ∈ t := by
  induction t with
  | nil => simpa [alDel] using h
  | cons kv0 rest ih =>
    obtain ⟨k0, v0⟩ := kv0
    by_cases h0 : k0 = k
    · rw [alDel, if_pos h0] at h
      exact List.mem_cons_of_mem _ h
    · rw [alDel, if_neg h0] at h
      rcases List.mem_cons.mp h with h | h
      · exact List.mem_cons.mpr (Or.inl h)
      · exact List.mem_cons_of_mem _ (ih h)

theorem alGet_mem {κ α : Type} [DecidableEq κ] (t : List (κ × α)) (k : κ) (v : α)
    (h : alGet t k = some v) : (k, v) ∈ t := by
  induction t with
  | nil => cases h
  | cons kv0 rest ih =>
    obtain ⟨k0, v0⟩ := kv0
    by_cases h0 : k0 = k
    · rw [alGet, if_pos h0] at h
      cases h
      rw [h0]
      exact List.mem_cons_self _ _
    · rw [alGet, if_neg h0] at h
      exact List.mem_cons_of_mem _ (ih h)

theorem alGet_of_mem_nodup {κ α : Type} [DecidableEq κ] (t : List (κ × α)) (k : κ) (v : α)
    (hnd : (t.map Prod.fst).Nodup) (h : (k, v) ∈ t) : alGet t k = some v := by
  induction t with
  | nil => cases h
  | cons kv0 rest ih =>
    obtain ⟨k0, v0⟩ := kv0
    simp only [List.map_cons, List.nodup_cons] at hnd
    rcases List.mem_cons.mp h with h | h
    · cases h
      rw [alGet, if_pos rfl]
    · have hne : k0 ≠ k := by
        intro hc
        subst hc
        exact hnd.1 (List.mem_map.mpr ⟨(k0, v), h, rfl⟩)
      rw [alGet, if_neg hne]
      exact ih hnd.2 h

theorem alGet_isSome_of_mem_keys {κ α : Type} [DecidableEq κ] (t : List (κ × α)) (k : κ)
    (h : k ∈ t.map Prod.fst) : (alGet t k).isSome := by
  induction t with
  | nil => simp at h
  | cons kv0 rest ih =>
    obtain ⟨k0, v0⟩ := kv0
    by_cases h0 : k0 = k
    · rw [alGet, if_pos h0]; rfl
    · rw [alGet, if_neg h0]
      simp only [List.map_cons, List.mem_cons] at h
      rcases h with h | h
      · exact absurd h.symm h0
      · exact ih h

/-! ## `filterTexts` frame lemmas -/

/-- Overwriting a slot that holds no opaque text with a value that is no
opaque text leaves the opaque lines untouched. -/
theorem filterTexts_set (lines : List (Option SnapshotLine)) (i : Nat)
    (x y : Option SnapshotLine)
    (hx : lines.get? i = some x)
    (hxt : ∀ s, x ≠ some (.text s)) (hyt : ∀ s, y ≠ some (.text s)) :
    filterTexts (lines.set i y) = filterTexts lines := by
  induction lines generalizing i with
  | nil => cases hx
  | cons a rest ih =>
    cases i with
    | zero =>
      cases hx
      cases x with
      | none =>
        cases y with
        | none => rfl
        | some sl =>
          cases sl with
          | text s => exact absurd rfl (hyt s)
          | entry e => rfl
      | some sl =>
        cases sl with
        | text s => exact absurd rfl (hxt s)
        | entry e =>
          cases y with
          | none => rfl
          | some sl2 =>
            cases sl2 with
            | text s => exact absurd rfl (hyt s)
            | entry e2 => rfl
    | succ j =>
      rw [List.set_cons_succ]
      have := ih j (by simpa using hx)
      cases a with
      | none => simpa [filterTexts] using this
      | some sl =>
        cases sl with
        | text s => simpa [filterTexts] using this
        | entry e => simpa [filterTexts] using this

/-! ## `CollectedSnapshotEntries` construction lemmas -/

theorem collectStep_snapshot_lines (c : CollectedSnapshotEntries) (sl : SnapshotLine) :
    (collectStep c sl).snapshot_lines = c.snapshot_lines ++ [some sl] := by
  cases sl <;> rfl

theorem collect_foldl_lines (sls : List SnapshotLine) (c : CollectedSnapshotEntries) :
    (sls.foldl collectStep c).snapshot_lines = c.snapshot_lines ++ sls.map some := by
  induction sls generalizing c with
  | nil => simp
  | cons sl rest ih =>
    rw [List.foldl_cons, ih, collectStep_snapshot_lines]
    simp

theorem idxGet_collectStep_text (c : CollectedSnapshotEntries) (s : String) (p : String)
    (ln : Int) : idxGet (collectStep c (.text s)) p ln = idxGet c p ln := rfl

theorem idxGet_collectStep_entry (c : CollectedSnapshotEntries) (e : SnapshotEntry) (p : String)
    (ln : Int) :
    idxGet (collectStep c (.entry e)) p ln =
      if p = e.path ∧ ln = e.line_number then some c.snapshot_lines.length
      else idxGet c p ln := by
  have hstep : (collectStep c (.entry e)).index
      = alSet c.index e.path
          (alSet ((alGet c.index e.path).getD []) e.line_number c.snapshot_lines.length) := rfl
  rw [idxGet, hstep]
  by_cases hp : p = e.path
  · rw [hp, alGet_alSet_self, Option.some_bind]
    by_cases hln : ln = e.line_number
    · rw [hln, alGet_alSet_self, if_pos ⟨rfl, rfl⟩]
    · rw [alGet_alSet_ne _ _ _ _ hln, if_neg (fun hc => hln hc.2)]
      cases halG : alGet c.index e.path with
      | none => simp [idxGet, halG, alGet]
      | some d => simp [idxGet, halG]
  · rw [alGet_alSet_ne _ _ _ _ hp, if_neg (fun hc => hp hc.1), idxGet]

theorem keysWF_collectStep (c : CollectedSnapshotEntries) (sl : SnapshotLine)
    (h : keysWF c) : keysWF (collectStep c sl) := by
  cases sl with
  | text s => exact h
  | entry e =>
    constructor
    · show ((alSet c.index e.path _).map Prod.fst).Nodup
      exact alSet_nodup_keys _ _ _ h.1
    · intro kv hkv
      rcases mem_alSet _ _ _ _ hkv with hkv | hkv
      · exact h.2 kv hkv
      · subst hkv
        show ((alSet ((alGet c.index e.path).getD []) e.line_number _).map Prod.fst).Nodup
        apply alSet_nodup_keys
        cases halG : alGet c.index e.path with
        | none => simp
        | some d =>
          simp only [halG, Option.getD_some]
          exact h.2 (e.path, d) (alGet_mem _ _ _ halG)

theorem slotSpec_collectStep (c : CollectedSnapshotEntries) (sl : SnapshotLine)
    (h : slotSpec c) : slotSpec (collectStep c sl) := by
  intro p ln slot hidx
  cases sl with
  | text s =>
    rw [idxGet_collectStep_text] at hidx
    obtain ⟨suf, hsuf⟩ := h p ln slot hidx
    refine ⟨suf, ?_⟩
    rw [collectStep_snapshot_lines, List.get?_append
      (List.get?_eq_some.mp hsuf).choose]
    exact hsuf
  | entry e =>
    rw [idxGet_collectStep_entry] at hidx
    by_cases hkey : p = e.path ∧ ln = e.line_number
    · rw [if_pos hkey] at hidx
      cases hidx
      refine ⟨e.other_contents, ?_⟩
      rw [collectStep_snapshot_lines, List.get?_concat_length]
      rw [hkey.1, hkey.2]
    · rw [if_neg hkey] at hidx
      obtain ⟨suf, hsuf⟩ := h p ln slot hidx
      refine ⟨suf, ?_⟩
      rw [collectStep_snapshot_lines, List.get?_append
        (List.get?_eq_some.mp hsuf).choose]
      exact hsuf

theorem keysWF_collect_foldl (sls : List SnapshotLine) (c : CollectedSnapshotEntries)
    (h : keysWF c) : keysWF (sls.foldl collectStep c) := by
  induction sls generalizing c with
  | nil => exact h
  | cons sl rest ih => exact ih _ (keysWF_collectStep c sl h)

theorem slotSpec_collect_foldl (sls : List SnapshotLine) (c : CollectedSnapshotEntries)
    (h : slotSpec c) : slotSpec (sls.foldl collectStep c) := by
  induction sls generalizing c with
  | nil => exact h
  | cons sl rest ih => exact ih _ (slotSpec_collectStep c sl h)

theorem keysWF_collect (lines : List String) : keysWF (collectSnapshotEntries lines) :=
  keysWF_collect_foldl _ _ ⟨List.nodup_nil, by intro kv hkv; cases hkv⟩

theorem slotSpec_collect (lines : List String) : slotSpec (collectSnapshotEntries lines) :=
  slotSpec_collect_foldl _ _ (by intro p ln slot hidx; cases hidx)

theorem collect_snapshot_lines (lines : List String) :
    (collectSnapshotEntries lines).snapshot_lines = (parse_snapshot_lines lines).map some := by
  rw [collectSnapshotEntries, collect_foldl_lines]
  rfl

/-- Slot-injectivity of a sound index: two index keys pointing at the same
slot coincide. -/
theorem idxGet_inj (c : CollectedSnapshotEntries) (h : slotSpec c)
    {p p' : String} {ln ln' : Int} {s : Nat}
    (h1 : idxGet c p ln = some s) (h2 : idxGet c p' ln' = some s) : p = p' ∧ ln = ln' := by
  obtain ⟨suf, hsuf⟩ := h p ln s h1
  obtain ⟨suf', hsuf'⟩ := h p' ln' s h2
  rw [hsuf] at hsuf'
  cases hsuf'
  exact ⟨rfl, rfl⟩

theorem collect_foldl_length (sls : List SnapshotLine) :
    (sls.foldl collectStep ⟨[], []⟩).snapshot_lines.length = sls.length := by
  rw [collect_foldl_lines]
  simp

theorem idxGet_lt_length (c : CollectedSnapshotEntries) (h : slotSpec c) {p : String} {ln : Int}
    {j : Nat} (hj : idxGet c p ln = some j) : j < c.snapshot_lines.length := by
  obtain ⟨suf, hsuf⟩ := h p ln j hj
  exact (List.get?_eq_some.mp hsuf).choose

/-- The index of the collected snapshot maps a key to the position of the
**last** entry with that `(path, line_number)` key, and to nothing else. -/
theorem collect_idxGet_last (sls : List SnapshotLine) (p : String) (ln : Int) (j : Nat) :
    idxGet (sls.foldl collectStep ⟨[], []⟩) p ln = some j ↔
      (∃ suf, sls.get? j = some (.entry ⟨p, ln, suf⟩)) ∧
      ∀ m, j < m → ∀ suf, sls.get? m ≠ some (.entry ⟨p, ln, suf⟩) := by
  induction sls using List.reverseRecOn with
  | nil =>
    constructor
    · intro h
      cases h
    · rintro ⟨⟨suf, hsuf⟩, -⟩
      cases hsuf
  | append_singleton ls sl ih =>
    rw [List.foldl_append, List.foldl_cons, List.foldl_nil]
    have hlen : (ls.foldl collectStep ⟨[], []⟩).snapshot_lines.length = ls.length :=
      collect_foldl_length ls
    have hspec : slotSpec (ls.foldl collectStep ⟨[], []⟩) :=
      slotSpec_collect_foldl _ _ (by intro p' ln' s' h'; cases h')
    cases sl with
    | text s =>
      rw [idxGet_collectStep_text, ih]
      constructor
      · rintro ⟨⟨suf, hsuf⟩, hlast⟩
        have hjlt : j < ls.length := (List.get?_eq_some.mp hsuf).choose
        constructor
        · exact ⟨suf, by rw [List.get?_append hjlt]; exact hsuf⟩
        · intro m hm suf' hc
          by_cases hmlt : m < ls.length
          · rw [List.get?_append hmlt] at hc
            exact hlast m hm suf' hc
          · by_cases hmeq : m = ls.length
            · subst hmeq
              rw [List.get?_concat_length] at hc
              cases hc
            · rw [List.get?_len_le (by simp; omega)] at hc
              cases hc
      · rintro ⟨⟨suf, hsuf⟩, hlast⟩
        have hjlt : j < ls.length + 1 := by
          have := (List.get?_eq_some.mp hsuf).choose
          simpa using this
        have hjne : j ≠ ls.length := by
          intro hc
          subst hc
          rw [List.get?_concat_length] at hsuf
          cases hsuf
        have hjlt' : j < ls.length := by omega
        constructor
        · exact ⟨suf, by rw [List.get?_append hjlt'] at hsuf; exact hsuf⟩
        · intro m hm suf' hc
          by_cases hmlt : m < ls.length
          · exact hlast m hm suf' (by rw [List.get?_append hmlt]; exact hc)
          · rw [List.get?_len_le (by omega)] at hc
            cases hc
    | entry e =>
      rw [idxGet_collectStep_entry, hlen]
      by_cases hkey : p = e.path ∧ ln = e.line_number
      · rw [if_pos hkey]
        obtain ⟨hk1, hk2⟩ := hkey
        subst hk1
        subst hk2
        constructor
        · intro h
          cases h
          constructor
          · exact ⟨e.other_contents, by rw [List.get?_concat_length]⟩
          · intro m hm suf hc
            rw [List.get?_len_le (by simp; omega)] at hc
            cases hc
        · rintro ⟨⟨suf, hsuf⟩, hlast⟩
          by_cases hjeq : j = ls.length
          · rw [hjeq]
          · exfalso
            have hjlt : j < ls.length + 1 := by
              have := (List.get?_eq_some.mp hsuf).choose
              simpa using this
            have hjlt' : j < ls.length := by omega
            exact hlast ls.length hjlt' e.other_contents
              (by rw [List.get?_concat_length])
      · rw [if_neg hkey, ih]
        have hkey' : ∀ suf, SnapshotLine.entry e ≠ SnapshotLine.entry ⟨p, ln, suf⟩ := by
          intro suf hc
          injection hc with hc2
          subst hc2
          exact hkey ⟨rfl, rfl⟩
        constructor
        · rintro ⟨⟨suf, hsuf⟩, hlast⟩
          have hjlt : j < ls.length := (List.get?_eq_some.mp hsuf).choose
          constructor
          · exact ⟨suf, by rw [List.get?_append hjlt]; exact hsuf⟩
          · intro m hm suf' hc
            by_cases hmlt : m < ls.length
            · rw [List.get?_append hmlt] at hc
              exact hlast m hm suf' hc
            · by_cases hmeq : m = ls.length
              · subst hmeq
                rw [List.get?_concat_length] at hc
                exact hkey' suf' (Option.some.inj hc)
              · rw [List.get?_len_le (by simp; omega)] at hc
                cases hc
        · rintro ⟨⟨suf, hsuf⟩, hlast⟩
          have hjlt : j < ls.length + 1 := by
            have := (List.get?_eq_some.mp hsuf).choose
            simpa using this
          have hjne : j ≠ ls.length := by
            intro hc
            subst hc
            rw [List.get?_concat_length] at hsuf
            exact hkey' suf (Option.some.inj hsuf)
          have hjlt' : j < ls.length := by omega
          constructor
          · exact ⟨suf, by rw [List.get?_append hjlt'] at hsuf; exact hsuf⟩
          · intro m hm suf' hc
            by_cases hmlt : m < ls.length
            · exact hlast m hm suf' (by rw [List.get?_append hmlt]; exact hc)
            · rw [List.get?_len_le (by omega)] at hc
              cases hc

/-! ## `get_entry` / `delete_entry` lemmas -/

theorem get_entry_none (c : CollectedSnapshotEntries) (p : String) (ln : Int)
    (h : idxGet c p ln = none) : get_entry c p ln = none := by
  rw [get_entry, h]

theorem get_entry_of_idx (c : CollectedSnapshotEntries) (h : slotSpec c) {p : String} {ln : Int}
    {s : Nat} (hs : idxGet c p ln = some s) :
    ∃ suf, get_entry c p ln = some ⟨p, ln, suf⟩ := by
  obtain ⟨suf, hsuf⟩ := h p ln s hs
  exact ⟨suf, by simp [get_entry, hs, ← List.get?_eq_getElem?, hsuf]⟩

/-- `delete_entry` at an unindexed key is the identity. -/
theorem delete_entry_of_idx_none (c : CollectedSnapshotEntries) (p : String) (ln : Int)
    (h : idxGet c p ln = none) : delete_entry c p ln = c := by
  cases ho : alGet c.index p with
  | none => simp [delete_entry, ho]
  | some d =>
    rw [idxGet, ho, Option.some_bind] at h
    simp [delete_entry, ho, h]

/-- `delete_entry` at an indexed key tombstones exactly that slot and removes
the key. -/
theorem delete_entry_of_idx_some (c : CollectedSnapshotEntries) (p : String) (ln : Int)
    (d : List (Int × Nat)) (s : Nat) (ho : alGet c.index p = some d)
    (hi : alGet d ln = some s) :
    delete_entry c p ln =
      ⟨c.snapshot_lines.set s none, alSet c.index p (alDel d ln)⟩ := by
  simp [delete_entry, ho, hi]

theorem idxGet_delete_self (c : CollectedSnapshotEntries) (p : String) (ln : Int)
    (hWF : keysWF c) : idxGet (delete_entry c p ln) p ln = none := by
  cases ho : alGet c.index p with
  | none =>
    have : delete_entry c p ln = c := by simp [delete_entry, ho]
    rw [this, idxGet, ho, Option.none_bind]
  | some d =>
    cases hi : alGet d ln with
    | none =>
      have : delete_entry c p ln = c := by simp [delete_entry, ho, hi]
      rw [this, idxGet, ho, Option.some_bind, hi]
    | some s =>
      rw [delete_entry_of_idx_some c p ln d s ho hi, idxGet]
      show (alGet (alSet c.index p (alDel d ln)) p).bind _ = none
      rw [alGet_alSet_self, Option.some_bind]
      exact alGet_alDel_self d ln (hWF.2 (p, d) (alGet_mem _ _ _ ho))

theorem idxGet_delete_other (c : CollectedSnapshotEntries) (p : String) (ln : Int)
    (p' : String) (ln' : Int) (hne : ¬(p' = p ∧ ln' = ln)) :
    idxGet (delete_entry c p ln) p' ln' = idxGet c p' ln' := by
  cases ho : alGet c.index p with
  | none =>
    have : delete_entry c p ln = c := by simp [delete_entry, ho]
    rw [this]
  | some d =>
    cases hi : alGet d ln with
    | none =>
      have : delete_entry c p ln = c := by simp [delete_entry, ho, hi]
      rw [this]
    | some s =>
      rw [delete_entry_of_idx_some c p ln d s ho hi, idxGet, idxGet]
      by_cases hp : p' = p
      · subst hp
        show (alGet (alSet c.index p' (alDel d ln)) p').bind _ = _
        rw [alGet_alSet_self, Option.some_bind, ho, Option.some_bind]
        have hln : ln' ≠ ln := fun hc => hne ⟨rfl, hc⟩
        exact alGet_alDel_ne d ln ln' hln
      · show (alGet (alSet c.index p (alDel d ln)) p').bind _ = _
        rw [alGet_alSet_ne _ _ _ _ hp]

/-- `delete_entry` preserves all the structural invariants and touches only
the deleted slot (which it tombstones). -/
theorem delete_entry_pres (c : CollectedSnapshotEntries) (p : String) (ln : Int)
    (h : slotSpec c) (hWF : keysWF c) :
    slotSpec (delete_entry c p ln) ∧ keysWF (delete_entry c p ln) ∧
    (∀ p' ln' s', idxGet (delete_entry c p ln) p' ln' = some s' → idxGet c p' ln' = some s') ∧
    (∀ i, c.snapshot_lines.get? i = some none →
      (delete_entry c p ln).snapshot_lines.get? i = some none) ∧
    (∀ i, (∀ q lm, idxGet c q lm ≠ some i) →
      (delete_entry c p ln).snapshot_lines.get? i = c.snapshot_lines.get? i) ∧
    filterTexts (delete_entry c p ln).snapshot_lines = filterTexts c.snapshot_lines ∧
    (delete_entry c p ln).snapshot_lines.length = c.snapshot_lines.length := by
  cases hidx : idxGet c p ln with
  | none =>
    rw [delete_entry_of_idx_none c p ln hidx]
    exact ⟨h, hWF, fun _ _ _ hx => hx, fun _ hx => hx, fun _ _ => rfl, rfl, rfl⟩
  | some s =>
    have ho : ∃ d, alGet c.index p = some d ∧ alGet d ln = some s := by
      rw [idxGet] at hidx
      cases hog : alGet c.index p with
      | none => rw [hog] at hidx; cases hidx
      | some d =>
        rw [hog, Option.some_bind] at hidx
        exact ⟨d, rfl, hidx⟩
    obtain ⟨d, hog, hig⟩ := ho
    have heq := delete_entry_of_idx_some c p ln d s hog hig
    obtain ⟨suf0, hsuf0⟩ := h p ln s hidx
    refine ⟨?_, ?_, ?_, ?_, ?_, ?_, ?_⟩
    · -- slotSpec
      intro p' ln' s' hs'
      by_cases hkey : p' = p ∧ ln' = ln
      · rw [hkey.1, hkey.2, idxGet_delete_self c p ln hWF] at hs'
        cases hs'
      · rw [idxGet_delete_other c p ln p' ln' hkey] at hs'
        obtain ⟨suf, hsuf⟩ := h p' ln' s' hs'
        have hne : s' ≠ s := by
          intro hc
          subst hc
          obtain ⟨he1, he2⟩ := idxGet_inj c h hs' hidx
          exact hkey ⟨he1, he2⟩
        refine ⟨suf, ?_⟩
        rw [heq]
        show (c.snapshot_lines.set s none).get? s' = _
        rw [List.get?_set_ne _ _ (fun hc => hne hc.symm)]
        exact hsuf
    · -- keysWF
      rw [heq]
      constructor
      · exact alSet_nodup_keys _ _ _ hWF.1
      · intro kv hkv
        rcases mem_alSet _ _ _ _ hkv with hkv | hkv
        · exact hWF.2 kv hkv
        · subst hkv
          exact alDel_nodup_keys _ _ (hWF.2 (p, d) (alGet_mem _ _ _ hog))
    · -- index shrinks
      intro p' ln' s' hs'
      by_cases hkey : p' = p ∧ ln' = ln
      · rw [hkey.1, hkey.2, idxGet_delete_self c p ln hWF] at hs'
        cases hs'
      · rw [idxGet_delete_other c p ln p' ln' hkey] at hs'
        exact hs'
    · -- tombstones persist
      intro i hi
      rw [heq]
      show (c.snapshot_lines.set s none).get? i = _
      by_cases hieq : s = i
      · subst hieq
        rw [List.get?_set_eq]
        rw [hsuf0]
        rfl
      · rw [List.get?_set_ne _ _ hieq]
        exact hi
    · -- unindexed slots are untouched
      intro i hfree
      rw [heq]
      show (c.snapshot_lines.set s none).get? i = _
      have : s ≠ i := by
        intro hc
        subst hc
        exact hfree p ln hidx
      rw [List.get?_set_ne _ _ this]
    · -- opaque lines survive
      rw [heq]
      show filterTexts (c.snapshot_lines.set s none) = _
      exact filterTexts_set c.snapshot_lines s _ none hsuf0
        (by intro t hc; cases hc) (by intro t hc; cases hc)
    · rw [heq]
      exact List.length_set _ _ _

theorem get_entry_some_inv (c : CollectedSnapshotEntries) (p : String) (ln : Int)
    (e : SnapshotEntry) (h : get_entry c p ln = some e) :
    ∃ s, idxGet c p ln = some s ∧ c.snapshot_lines.get? s = some (some (.entry e)) := by
  cases hidx : idxGet c p ln with
  | none => rw [get_entry, hidx] at h; cases h
  | some s =>
    rw [get_entry, hidx] at h
    refine ⟨s, rfl, ?_⟩
    cases hline : c.snapshot_lines.get? s with
    | none => simp [← List.get?_eq_getElem?, hline] at h
    | some o =>
      cases o with
      | none => simp [← List.get?_eq_getElem?, hline] at h
      | some sl =>
        cases sl with
        | text tx => simp [← List.get?_eq_getElem?, hline] at h
        | entry e2 =>
          simp only [← List.get?_eq_getElem?, hline] at h
          cases h
          simp [hline]

/-! ## Walk preservation lemmas -/

/-- One unfolding step of `processPayload`. -/
theorem processPayload_cons (path : String) (base : Int) (i : Nat) (d : DiffPayloadLine)
    (rest : List DiffPayloadLine) (t : AdjustmentTable) (c : CollectedSnapshotEntries) :
    processPayload path base i (d :: rest) t c =
      (match get_entry c path (base + i), d with
       | none, .context =>
         match add_offset_of t path (base + i) 0 with
         | .error e => .error e
         | .ok t1 => processPayload path base (i + 1) rest t1 c
       | none, .removed _ =>
         match add_offset_of t path (base + i) (-1) with
         | .error e => .error e
         | .ok t1 => processPayload path base (i + 1) rest t1 c
       | none, .added _ =>
         match add_offset_of t path (base + i) 1 with
         | .error e => .error e
         | .ok t1 => processPayload path (base - 1) (i + 1) rest t1 c
       | some _, .context =>
         match add_offset_of t path (base + i) 0 with
         | .error e => .error e
         | .ok t1 => processPayload path base (i + 1) rest t1 c
       | some _, .removed _ =>
         match add_offset_of t path (base + i) (-1) with
         | .error e => .error e
         | .ok t1 => processPayload path base (i + 1) rest t1 (delete_entry c path (base + i))
       | some _, .added _ =>
         match add_offset_of t path (base + i) 1 with
         | .error e => .error e
         | .ok t1 => processPayload path (base - 1) (i + 1) rest t1 c) := rfl

/-- Invariants preserved by walking one hunk's payload: index soundness and
key well-formedness survive, the index only shrinks, tombstones persist,
unindexed slots are untouched, and opaque lines survive verbatim. -/
theorem processPayload_pres (path : String) (t' : AdjustmentTable)
    (c' : CollectedSnapshotEntries) (diffs : List DiffPayloadLine) :
    ∀ (base : Int) (i : Nat) (t : AdjustmentTable) (c : CollectedSnapshotEntries),
    processPayload path base i diffs t c = .ok (t', c') → slotSpec c → keysWF c →
    slotSpec c' ∧ keysWF c' ∧
    (∀ p' ln' s', idxGet c' p' ln' = some s' → idxGet c p' ln' = some s') ∧
    (∀ j, c.snapshot_lines.get? j = some none → c'.snapshot_lines.get? j = some none) ∧
    (∀ j, (∀ q lm, idxGet c q lm ≠ some j) →
      c'.snapshot_lines.get? j = c.snapshot_lines.get? j) ∧
    filterTexts c'.snapshot_lines = filterTexts c.snapshot_lines ∧
    c'.snapshot_lines.length = c.snapshot_lines.length := by
  induction diffs with
  | nil =>
    intro base i t c hok hs hWF
    cases hok
    exact ⟨hs, hWF, fun _ _ _ hx => hx, fun _ hx => hx, fun _ _ => rfl, rfl, rfl⟩
  | cons d rest ih =>
    intro base i t c hok hs hWF
    rw [processPayload_cons] at hok
    cases hge : get_entry c path (base + i) with
    | none =>
      rw [hge] at hok
      cases d with
      | context =>
        cases hadd : add_offset_of t path (base + i) 0 with
        | error e => rw [hadd] at hok; cases hok
        | ok t1 =>
          rw [hadd] at hok
          exact ih _ _ _ _ hok hs hWF
      | removed s =>
        cases hadd : add_offset_of t path (base + i) (-1) with
        | error e => rw [hadd] at hok; cases hok
        | ok t1 =>
          rw [hadd] at hok
          exact ih _ _ _ _ hok hs hWF
      | added s =>
        cases hadd : add_offset_of t path (base + i) 1 with
        | error e => rw [hadd] at hok; cases hok
        | ok t1 =>
          rw [hadd] at hok
          exact ih _ _ _ _ hok hs hWF
    | some e0 =>
      rw [hge] at hok
      cases d with
      | context =>
        cases hadd : add_offset_of t path (base + i) 0 with
        | error e => rw [hadd] at hok; cases hok
        | ok t1 =>
          rw [hadd] at hok
          exact ih _ _ _ _ hok hs hWF
      | added s =>
        cases hadd : add_offset_of t path (base + i) 1 with
        | error e => rw [hadd] at hok; cases hok
        | ok t1 =>
          rw [hadd] at hok
          exact ih _ _ _ _ hok hs hWF
      | removed s =>
        cases hadd : add_offset_of t path (base + i) (-1) with
        | error e => rw [hadd] at hok; cases hok
        | ok t1 =>
          rw [hadd] at hok
          obtain ⟨hdS, hdWF, hdSub, hdNone, hdFrame, hdTexts, hdLen⟩ :=
            delete_entry_pres c path (base + i) hs hWF
          obtain ⟨ihS, ihWF, ihSub, ihNone, ihFrame, ihTexts, ihLen⟩ :=
            ih _ _ _ _ hok hdS hdWF
          refine ⟨ihS, ihWF, ?_, ?_, ?_, ?_, ?_⟩
          · intro p' ln' s' hs'
            exact hdSub p' ln' s' (ihSub p' ln' s' hs')
          · intro j hj
            exact ihNone j (hdNone j hj)
          · intro j hfree
            have hfree' : ∀ q lm, idxGet (delete_entry c path (base + i)) q lm ≠ some j := by
              intro q lm hc
              exact hfree q lm (hdSub q lm j hc)
            rw [ihFrame j hfree', hdFrame j hfree]
          · rw [ihTexts, hdTexts]
          · rw [ihLen, hdLen]

theorem processHunks_pres (t' : AdjustmentTable) (c' : CollectedSnapshotEntries)
    (hunks : List GitDiffHunk) :
    ∀ (t : AdjustmentTable) (c : CollectedSnapshotEntries),
    processHunks t c hunks = .ok (t', c') → slotSpec c → keysWF c →
    slotSpec c' ∧ keysWF c' ∧
    (∀ p' ln' s', idxGet c' p' ln' = some s' → idxGet c p' ln' = some s') ∧
    (∀ j, c.snapshot_lines.get? j = some none → c'.snapshot_lines.get? j = some none) ∧
    (∀ j, (∀ q lm, idxGet c q lm ≠ some j) →
      c'.snapshot_lines.get? j = c.snapshot_lines.get? j) ∧
    filterTexts c'.snapshot_lines = filterTexts c.snapshot_lines ∧
    c'.snapshot_lines.length = c.snapshot_lines.length := by
  induction hunks with
  | nil =>
    intro t c hok hs hWF
    cases hok
    exact ⟨hs, hWF, fun _ _ _ hx => hx, fun _ hx => hx, fun _ _ => rfl, rfl, rfl⟩
  | cons h rest ih =>
    intro t c hok hs hWF
    rw [processHunks] at hok
    cases hstep : processPayload h.path_minus h.initial_line_number 0 h.diffs t c with
    | error e => rw [hstep] at hok; cases hok
    | ok r =>
      obtain ⟨t1, c1⟩ := r
      rw [hstep] at hok
      obtain ⟨hpS, hpWF, hpSub, hpNone, hpFrame, hpTexts, hpLen⟩ :=
        processPayload_pres h.path_minus t1 c1 h.diffs h.initial_line_number 0 t c hstep hs hWF
      obtain ⟨ihS, ihWF, ihSub, ihNone, ihFrame, ihTexts, ihLen⟩ :=
        ih t1 c1 hok hpS hpWF
      refine ⟨ihS, ihWF, ?_, ?_, ?_, ?_, ?_⟩
      · intro p' ln' s' hs'
        exact hpSub p' ln' s' (ihSub p' ln' s' hs')
      · intro j hj
        exact ihNone j (hpNone j hj)
      · intro j hfree
        have hfree' : ∀ q lm, idxGet c1 q lm ≠ some j := by
          intro q lm hc
          exact hfree q lm (hpSub q lm j hc)
        rw [ihFrame j hfree', hpFrame j hfree]
      · rw [ihTexts, hpTexts]
      · rw [ihLen, hpLen]

theorem countAdded_nil : countAdded [] = 0 := rfl

theorem countAdded_context (r : List DiffPayloadLine) :
    countAdded (.context :: r) = countAdded r := rfl

theorem countAdded_added (s : String) (r : List DiffPayloadLine) :
    countAdded (.added s :: r) = countAdded r + 1 := by
  simp [countAdded, isAddedLine, List.filter_cons]

theorem countAdded_removed (s : String) (r : List DiffPayloadLine) :
    countAdded (.removed s :: r) = countAdded r := rfl

theorem countRemoved_nil : countRemoved [] = 0 := rfl

theorem countRemoved_context (r : List DiffPayloadLine) :
    countRemoved (.context :: r) = countRemoved r := rfl

theorem countRemoved_added (s : String) (r : List DiffPayloadLine) :
    countRemoved (.added s :: r) = countRemoved r := rfl

theorem countRemoved_removed (s : String) (r : List DiffPayloadLine) :
    countRemoved (.removed s :: r) = countRemoved r + 1 := by
  simp [countRemoved, isRemovedLine, List.filter_cons]

theorem idxGet_decomp (c : CollectedSnapshotEntries) (p : String) (ln : Int) (s : Nat)
    (h : idxGet c p ln = some s) :
    ∃ d, alGet c.index p = some d ∧ alGet d ln = some s := by
  rw [idxGet] at h
  cases ho : alGet c.index p with
  | none => rw [ho] at h; cases h
  | some d =>
    rw [ho, Option.some_bind] at h
    exact ⟨d, rfl, h⟩

theorem get?_set_of_lt {α : Type} (l : List α) (n : Nat) (a : α) (h : n < l.length) :
    (l.set n a).get? n = some a := by
  rw [List.get?_set_eq, List.get?_eq_get h]
  rfl

/-- The disjunction `(P, L) still points at slot s0` or `slot s0 is already
tombstoned` is an invariant of the walk. -/
theorem processPayload_Q (path P : String) (L : Int) (s0 : Nat) (t' : AdjustmentTable)
    (c' : CollectedSnapshotEntries) (diffs : List DiffPayloadLine) :
    ∀ (base : Int) (i : Nat) (t : AdjustmentTable) (c : CollectedSnapshotEntries),
    processPayload path base i diffs t c = .ok (t', c') → slotSpec c → keysWF c →
    (idxGet c P L = some s0 ∨ c.snapshot_lines.get? s0 = some none) →
    (idxGet c' P L = some s0 ∨ c'.snapshot_lines.get? s0 = some none) := by
  induction diffs with
  | nil =>
    intro base i t c hok _ _ hQ
    cases hok
    exact hQ
  | cons d rest ih =>
    intro base i t c hok hs hWF hQ
    rw [processPayload_cons] at hok
    cases hge : get_entry c path (base + i) with
    | none =>
      rw [hge] at hok
      cases d with
      | context =>
        cases hadd : add_offset_of t path (base + i) 0 with
        | error e => rw [hadd] at hok; cases hok
        | ok t1 => rw [hadd] at hok; exact ih _ _ _ _ hok hs hWF hQ
      | removed s =>
        cases hadd : add_offset_of t path (base + i) (-1) with
        | error e => rw [hadd] at hok; cases hok
        | ok t1 => rw [hadd] at hok; exact ih _ _ _ _ hok hs hWF hQ
      | added s =>
        cases hadd : add_offset_of t path (base + i) 1 with
        | error e => rw [hadd] at hok; cases hok
        | ok t1 => rw [hadd] at hok; exact ih _ _ _ _ hok hs hWF hQ
    | some e0 =>
      rw [hge] at hok
      cases d with
      | context =>
        cases hadd : add_offset_of t path (base + i) 0 with
        | error e => rw [hadd] at hok; cases hok
        | ok t1 => rw [hadd] at hok; exact ih _ _ _ _ hok hs hWF hQ
      | added s =>
        cases hadd : add_offset_of t path (base + i) 1 with
        | error e => rw [hadd] at hok; cases hok
        | ok t1 => rw [hadd] at hok; exact ih _ _ _ _ hok hs hWF hQ
      | removed s =>
        cases hadd : add_offset_of t path (base + i) (-1) with
        | error e => rw [hadd] at hok; cases hok
        | ok t1 =>
          rw [hadd] at hok
          obtain ⟨hdS, hdWF, _, hdNone, _, _, _⟩ :=
            delete_entry_pres c path (base + i) hs hWF
          have hQ2 : idxGet (delete_entry c path (base + i)) P L = some s0 ∨
              (delete_entry c path (base + i)).snapshot_lines.get? s0 = some none := by
            rcases hQ with hA | hB
            · by_cases hkey : P = path ∧ L = base + i
              · right
                obtain ⟨d0, hd0, hs0⟩ := idxGet_decomp c P L s0 hA
                have heq := delete_entry_of_idx_some c P L d0 s0 hd0 hs0
                rw [hkey.1, hkey.2] at heq
                rw [heq]
                show (c.snapshot_lines.set s0 none).get? s0 = some none
                exact get?_set_of_lt _ _ _ (idxGet_lt_length c hs hA)
              · left
                rw [idxGet_delete_other c path (base + i) P L hkey]
                exact hA
            · right
              exact hdNone s0 hB
          exact ih _ _ _ _ hok hdS hdWF hQ2

theorem processPayload_append (path : String) (d1 d2 : List DiffPayloadLine) :
    ∀ (base : Int) (i : Nat) (t : AdjustmentTable) (c : CollectedSnapshotEntries),
    processPayload path base i (d1 ++ d2) t c =
      (match processPayload path base i d1 t c with
       | .error e => .error e
       | .ok (t1, c1) =>
         processPayload path (base - countAdded d1) (i + d1.length) d2 t1 c1) := by
  induction d1 with
  | nil =>
    intro base i t c
    show processPayload path base i d2 t c =
      processPayload path (base - countAdded []) (i + 0) d2 t c
    rw [countAdded_nil]
    norm_num
  | cons d rest ih =>
    intro base i t c
    rw [List.cons_append, processPayload_cons, processPayload_cons]
    cases hge : get_entry c path (base + i) with
    | none =>
      cases d with
      | context =>
        cases hadd : add_offset_of t path (base + i) 0 with
        | error e => dsimp only
        | ok t1 =>
          dsimp only
          rw [ih, countAdded_context, List.length_cons,
            show i + (rest.length + 1) = i + 1 + rest.length from by omega]
      | removed s =>
        cases hadd : add_offset_of t path (base + i) (-1) with
        | error e => dsimp only
        | ok t1 =>
          dsimp only
          rw [ih, countAdded_removed, List.length_cons,
            show i + (rest.length + 1) = i + 1 + rest.length from by omega]
      | added s =>
        cases hadd : add_offset_of t path (base + i) 1 with
        | error e => dsimp only
        | ok t1 =>
          dsimp only
          rw [ih, countAdded_added, List.length_cons,
            show i + (rest.length + 1) = i + 1 + rest.length from by omega,
            show base - ((countAdded rest + 1 : Nat) : Int) = base - 1 - countAdded rest from by
              push_cast
              ring]
    | some e0 =>
      cases d with
      | context =>
        cases hadd : add_offset_of t path (base + i) 0 with
        | error e => dsimp only
        | ok t1 =>
          dsimp only
          rw [ih, countAdded_context, List.length_cons,
            show i + (rest.length + 1) = i + 1 + rest.length from by omega]
      | removed s =>
        cases hadd : add_offset_of t path (base + i) (-1) with
        | error e => dsimp only
        | ok t1 =>
          dsimp only
          rw [ih, countAdded_removed, List.length_cons,
            show i + (rest.length + 1) = i + 1 + rest.length from by omega]
      | added s =>
        cases hadd : add_offset_of t path (base + i) 1 with
        | error e => dsimp only
        | ok t1 =>
          dsimp only
          rw [ih, countAdded_added, List.length_cons,
            show i + (rest.length + 1) = i + 1 + rest.length from by omega,
            show base - ((countAdded rest + 1 : Nat) : Int) = base - 1 - countAdded rest from by
              push_cast
              ring]

/-- When the payload of a hunk for path `P` reaches a `Removed` item whose
old-file line is `L`, the slot the index originally assigned to `(P, L)` is
tombstoned from then on. -/
theorem processPayload_hits (P : String) (L : Int) (s0 : Nat) (t' : AdjustmentTable)
    (c' : CollectedSnapshotEntries) (d1 d2 : List DiffPayloadLine) (sContent : String) :
    ∀ (base : Int) (i : Nat) (t : AdjustmentTable) (c : CollectedSnapshotEntries),
    processPayload P base i (d1 ++ .removed sContent :: d2) t c = .ok (t', c') →
    slotSpec c → keysWF c →
    (idxGet c P L = some s0 ∨ c.snapshot_lines.get? s0 = some none) →
    base + i + d1.length - countAdded d1 = L →
    c'.snapshot_lines.get? s0 = some none := by
  intro base i t c hok hs hWF hQ hL
  rw [processPayload_append] at hok
  cases hmid : processPayload P base i d1 t c with
  | error e => rw [hmid] at hok; cases hok
  | ok r =>
    obtain ⟨t1, c1⟩ := r
    rw [hmid] at hok
    dsimp only at hok
    obtain ⟨h1S, h1WF, _, _, _, _, _⟩ :=
      processPayload_pres P t1 c1 d1 base i t c hmid hs hWF
    have hQ1 := processPayload_Q P P L s0 t1 c1 d1 base i t c hmid hs hWF hQ
    rw [processPayload_cons] at hok
    have hlnL : base - (countAdded d1 : Int) + ((i + d1.length : Nat) : Int) = L := by
      push_cast
      push_cast at hL
      omega
    rw [hlnL] at hok
    cases hge : get_entry c1 P L with
    | none =>
      rw [hge] at hok
      cases hadd : add_offset_of t1 P L (-1) with
      | error e => rw [hadd] at hok; cases hok
      | ok t2 =>
        rw [hadd] at hok
        have hB : c1.snapshot_lines.get? s0 = some none := by
          rcases hQ1 with hA | hB
          · obtain ⟨suf, hgeS⟩ := get_entry_of_idx c1 h1S hA
            rw [hgeS] at hge
            cases hge
          · exact hB
        obtain ⟨_, _, _, h2None, _, _, _⟩ :=
          processPayload_pres P t' c' d2 _ _ t2 c1 hok h1S h1WF
        exact h2None s0 hB
    | some e0 =>
      rw [hge] at hok
      cases hadd : add_offset_of t1 P L (-1) with
      | error e => rw [hadd] at hok; cases hok
      | ok t2 =>
        rw [hadd] at hok
        obtain ⟨hdS, hdWF, _, hdNone, _, _, _⟩ := delete_entry_pres c1 P L h1S h1WF
        have hB2 : (delete_entry c1 P L).snapshot_lines.get? s0 = some none := by
          rcases hQ1 with hA | hB
          · obtain ⟨d0, hd0, hs0⟩ := idxGet_decomp c1 P L s0 hA
            rw [delete_entry_of_idx_some c1 P L d0 s0 hd0 hs0]
            show (c1.snapshot_lines.set s0 none).get? s0 = some none
            exact get?_set_of_lt _ _ _ (idxGet_lt_length c1 h1S hA)
          · exact hdNone s0 hB
        obtain ⟨_, _, _, h2None, _, _, _⟩ :=
          processPayload_pres P t' c' d2 _ _ t2 (delete_entry c1 P L) hok hdS hdWF
        exact h2None s0 hB2

theorem processHunks_Q (P : String) (L : Int) (s0 : Nat) (t' : AdjustmentTable)
    (c' : CollectedSnapshotEntries) (hunks : List GitDiffHunk) :
    ∀ (t : AdjustmentTable) (c : CollectedSnapshotEntries),
    processHunks t c hunks = .ok (t', c') → slotSpec c → keysWF c →
    (idxGet c P L = some s0 ∨ c.snapshot_lines.get? s0 = some none) →
    (idxGet c' P L = some s0 ∨ c'.snapshot_lines.get? s0 = some none) := by
  induction hunks with
  | nil =>
    intro t c hok _ _ hQ
    cases hok
    exact hQ
  | cons h rest ih =>
    intro t c hok hs hWF hQ
    rw [processHunks] at hok
    cases hstep : processPayload h.path_minus h.initial_line_number 0 h.diffs t c with
    | error e => rw [hstep] at hok; cases hok
    | ok r =>
      obtain ⟨t1, c1⟩ := r
      rw [hstep] at hok
      obtain ⟨h1S, h1WF, _, _, _, _, _⟩ :=
        processPayload_pres h.path_minus t1 c1 h.diffs h.initial_line_number 0 t c hstep hs hWF
      exact ih t1 c1 hok h1S h1WF
        (processPayload_Q h.path_minus P L s0 t1 c1 h.diffs h.initial_line_number 0 t c
          hstep hs hWF hQ)

/-- Walking hunks that somewhere remove old line `L` of path `P` leaves the
slot the index originally assigned to `(P, L)` tombstoned. -/
theorem processHunks_hits (P : String) (L : Int) (s0 : Nat) (t' : AdjustmentTable)
    (c' : CollectedSnapshotEntries) (hunks : List GitDiffHunk) :
    ∀ (t : AdjustmentTable) (c : CollectedSnapshotEntries),
    processHunks t c hunks = .ok (t', c') → slotSpec c → keysWF c →
    (idxGet c P L = some s0 ∨ c.snapshot_lines.get? s0 = some none) →
    (∃ h ∈ hunks, h.path_minus = P ∧ ∃ i, i < h.diffs.length ∧
      isRemovedLine (h.diffs.getD i .context) = true ∧
      oldLineAt h.initial_line_number h.diffs i = L) →
    c'.snapshot_lines.get? s0 = some none := by
  induction hunks with
  | nil =>
    intro t c _ _ _ _ hev
    obtain ⟨h, hmem, -⟩ := hev
    cases hmem
  | cons h rest ih =>
    intro t c hok hs hWF hQ hev
    rw [processHunks] at hok
    cases hstep : processPayload h.path_minus h.initial_line_number 0 h.diffs t c with
    | error e => rw [hstep] at hok; cases hok
    | ok r =>
      obtain ⟨t1, c1⟩ := r
      rw [hstep] at hok
      obtain ⟨h1S, h1WF, _, h1None, _, _, _⟩ :=
        processPayload_pres h.path_minus t1 c1 h.diffs h.initial_line_number 0 t c hstep hs hWF
      obtain ⟨h0, hmem, hpath, i, hilt, hrem, hline⟩ := hev
      rcases List.mem_cons.mp hmem with hmem | hmem
      · -- the event is inside this hunk's payload
        subst hmem
        -- decompose the payload at position i
        have hdiffs : h0.diffs = h0.diffs.take i ++ h0.diffs.get ⟨i, hilt⟩ :: h0.diffs.drop (i + 1) := by
          conv_lhs => rw [← List.take_append_drop i h0.diffs]
          rw [List.drop_eq_getElem_cons hilt]
          rfl
        have hgetrem : ∃ sContent, h0.diffs.get ⟨i, hilt⟩ = .removed sContent := by
          cases hg : h0.diffs.get ⟨i, hilt⟩ with
          | context =>
            rw [List.getD_eq_getElem?_getD, List.getElem?_eq_getElem hilt] at hrem
            have : h0.diffs[i] = DiffPayloadLine.context := hg
            rw [this] at hrem
            cases hrem
          | added s =>
            rw [List.getD_eq_getElem?_getD, List.getElem?_eq_getElem hilt] at hrem
            have : h0.diffs[i] = DiffPayloadLine.added s := hg
            rw [this] at hrem
            cases hrem
          | removed s => exact ⟨s, rfl⟩
        obtain ⟨sContent, hsc⟩ := hgetrem
        rw [hdiffs, hsc] at hstep
        have htake_len : (h0.diffs.take i).length = i := by
          rw [List.length_take]
          omega
        have hLeq : h0.initial_line_number + (0 : Nat) + (h0.diffs.take i).length
            - countAdded (h0.diffs.take i) = L := by
          rw [htake_len]
          rw [oldLineAt] at hline
          push_cast
          push_cast at hline
          omega
        have hc1 : c1.snapshot_lines.get? s0 = some none := by
          rw [hpath] at hstep
          exact processPayload_hits P L s0 t1 c1 (h0.diffs.take i) (h0.diffs.drop (i + 1))
            sContent h0.initial_line_number 0 t c hstep hs hWF hQ hLeq
        obtain ⟨_, _, _, hrNone, _, _, _⟩ := processHunks_pres t' c' rest t1 c1 hok h1S h1WF
        exact hrNone s0 hc1
      · -- the event is in a later hunk
        exact ih t1 c1 hok h1S h1WF
          (processPayload_Q h.path_minus P L s0 t1 c1 h.diffs h.initial_line_number 0 t c
            hstep hs hWF hQ)
          ⟨h0, hmem, hpath, i, hilt, hrem, hline⟩

/-! ## `adjust_entry_line_numbers` lemmas -/

theorem adjustPathEntries_cons (lines : List (Option SnapshotLine)) (offs : List Int)
    (ln : Int) (slot : Nat) (rest : List (Int × Nat)) :
    adjustPathEntries lines offs ((ln, slot) :: rest) =
      (match lines.get? slot with
       | some (some (.entry e)) =>
         match accumulated_getitem offs ln with
         | .error err => .error err
         | .ok off =>
           adjustPathEntries
             (lines.set slot (some (.entry ⟨e.path, e.line_number + off, e.other_contents⟩)))
             offs rest
       | _ => adjustPathEntries lines offs rest) := rfl

theorem adjustPathEntries_none_pres (offs : List Int) (d : List (Int × Nat)) :
    ∀ (lines lines' : List (Option SnapshotLine)),
    adjustPathEntries lines offs d = .ok lines' →
    ∀ j, lines.get? j = some none → lines'.get? j = some none := by
  induction d with
  | nil =>
    intro lines lines' hok j hj
    cases hok
    exact hj
  | cons p rest ih =>
    obtain ⟨ln, slot⟩ := p
    intro lines lines' hok j hj
    rw [adjustPathEntries_cons] at hok
    cases hget : lines.get? slot with
    | none => rw [hget] at hok; exact ih _ _ hok j hj
    | some o =>
      cases o with
      | none => rw [hget] at hok; exact ih _ _ hok j hj
      | some sl =>
        cases sl with
        | text s => rw [hget] at hok; exact ih _ _ hok j hj
        | entry e =>
          rw [hget] at hok
          cases hacc : accumulated_getitem offs ln with
          | error err => rw [hacc] at hok; cases hok
          | ok off =>
            rw [hacc] at hok
            have hne : slot ≠ j := by
              intro hc
              subst hc
              rw [hget] at hj
              cases hj
            exact ih _ _ hok j (by rw [List.get?_set_ne _ _ hne]; exact hj)

theorem adjustPathEntries_frame (offs : List Int) (d : List (Int × Nat)) :
    ∀ (lines lines' : List (Option SnapshotLine)),
    adjustPathEntries lines offs d = .ok lines' →
    ∀ j, (∀ pr ∈ d, pr.2 ≠ j) → lines'.get? j = lines.get? j := by
  induction d with
  | nil =>
    intro lines lines' hok j _
    cases hok
    rfl
  | cons p rest ih =>
    obtain ⟨ln, slot⟩ := p
    intro lines lines' hok j hfree
    rw [adjustPathEntries_cons] at hok
    have hslot : slot ≠ j := hfree (ln, slot) (List.mem_cons_self _ _)
    have hfree' : ∀ pr ∈ rest, pr.2 ≠ j := fun pr hpr => hfree pr (List.mem_cons_of_mem _ hpr)
    cases hget : lines.get? slot with
    | none => rw [hget] at hok; exact ih _ _ hok j hfree'
    | some o =>
      cases o with
      | none => rw [hget] at hok; exact ih _ _ hok j hfree'
      | some sl =>
        cases sl with
        | text s => rw [hget] at hok; exact ih _ _ hok j hfree'
        | entry e =>
          rw [hget] at hok
          cases hacc : accumulated_getitem offs ln with
          | error err => rw [hacc] at hok; cases hok
          | ok off =>
            rw [hacc] at hok
            rw [ih _ _ hok j hfree', List.get?_set_ne _ _ hslot]

theorem adjustPathEntries_texts (offs : List Int) (d : List (Int × Nat)) :
    ∀ (lines lines' : List (Option SnapshotLine)),
    adjustPathEntries lines offs d = .ok lines' →
    filterTexts lines' = filterTexts lines := by
  induction d with
  | nil =>
    intro lines lines' hok
    cases hok
    rfl
  | cons p rest ih =>
    obtain ⟨ln, slot⟩ := p
    intro lines lines' hok
    rw [adjustPathEntries_cons] at hok
    cases hget : lines.get? slot with
    | none => rw [hget] at hok; exact ih _ _ hok
    | some o =>
      cases o with
      | none => rw [hget] at hok; exact ih _ _ hok
      | some sl =>
        cases sl with
        | text s => rw [hget] at hok; exact ih _ _ hok
        | entry e =>
          rw [hget] at hok
          cases hacc : accumulated_getitem offs ln with
          | error err => rw [hacc] at hok; cases hok
          | ok off =>
            rw [hacc] at hok
            rw [ih _ _ hok]
            exact filterTexts_set lines slot _ _ hget
              (by intro s2 hc; cases hc) (by intro s2 hc; cases hc)

theorem adjustPathEntries_length (offs : List Int) (d : List (Int × Nat)) :
    ∀ (lines lines' : List (Option SnapshotLine)),
    adjustPathEntries lines offs d = .ok lines' →
    lines'.length = lines.length := by
  induction d with
  | nil =>
    intro lines lines' hok
    cases hok
    rfl
  | cons p rest ih =>
    obtain ⟨ln, slot⟩ := p
    intro lines lines' hok
    rw [adjustPathEntries_cons] at hok
    cases hget : lines.get? slot with
    | none => rw [hget] at hok; exact ih _ _ hok
    | some o =>
      cases o with
      | none => rw [hget] at hok; exact ih _ _ hok
      | some sl =>
        cases sl with
        | text s => rw [hget] at hok; exact ih _ _ hok
        | entry e =>
          rw [hget] at hok
          cases hacc : accumulated_getitem offs ln with
          | error err => rw [hacc] at hok; cases hok
          | ok off =>
            rw [hacc] at hok
            rw [ih _ _ hok, List.length_set]

/-- Functional behaviour of `adjustPathEntries` on an indexed entry slot. -/
theorem adjustPathEntries_spec (offs : List Int) (d : List (Int × Nat)) :
    ∀ (lines lines' : List (Option SnapshotLine)),
    adjustPathEntries lines offs d = .ok lines' →
    (d.map Prod.fst).Nodup →
    (∀ a ∈ d, ∀ b ∈ d, a.2 = b.2 → a.1 = b.1) →
    ∀ (ln : Int) (slot : Nat) (e : SnapshotEntry),
    alGet d ln = some slot →
    lines.get? slot = some (some (.entry e)) →
    ∃ off, accumulated_getitem offs ln = .ok off ∧
      lines'.get? slot = some (some (.entry ⟨e.path, e.line_number + off, e.other_contents⟩)) := by
  induction d with
  | nil =>
    intro lines lines' _ _ _ ln slot e hget _
    cases hget
  | cons p rest ih =>
    obtain ⟨ln0, s0⟩ := p
    intro lines lines' hok hnd hinj ln slot e halG hline
    simp only [List.map_cons, List.nodup_cons] at hnd
    rw [adjustPathEntries_cons] at hok
    by_cases hln : ln0 = ln
    · subst hln
      rw [alGet, if_pos rfl] at halG
      cases halG
      rw [hline] at hok
      cases hacc : accumulated_getitem offs ln0 with
      | error err => rw [hacc] at hok; cases hok
      | ok off =>
        rw [hacc] at hok
        dsimp only at hok
        refine ⟨off, rfl, ?_⟩
        have hfree : ∀ pr ∈ rest, pr.2 ≠ s0 := by
          intro pr hpr hc
          have hpr1 := hinj pr (List.mem_cons_of_mem _ hpr) (ln0, s0) (List.mem_cons_self _ _) hc
          exact hnd.1 (List.mem_map.mpr ⟨pr, hpr, hpr1⟩)
        rw [adjustPathEntries_frame offs rest _ _ hok s0 hfree]
        have hlt : s0 < lines.length := (List.get?_eq_some.mp hline).choose
        exact get?_set_of_lt _ _ _ hlt
    · rw [alGet, if_neg hln] at halG
      -- the head pair touches a different slot
      have hs0ne : s0 ≠ slot := by
        intro hc
        have := hinj (ln0, s0) (List.mem_cons_self _ _)
          (ln, slot) (List.mem_cons_of_mem _ (alGet_mem rest ln slot halG)) hc
        exact hln this
      have hinj' : ∀ a ∈ rest, ∀ b ∈ rest, a.2 = b.2 → a.1 = b.1 := by
        intro a ha b hb hab
        exact hinj a (List.mem_cons_of_mem _ ha) b (List.mem_cons_of_mem _ hb) hab
      cases hget : lines.get? s0 with
      | none =>
        rw [hget] at hok
        exact ih _ _ hok hnd.2 hinj' ln slot e halG hline
      | some o =>
        cases o with
        | none =>
          rw [hget] at hok
          exact ih _ _ hok hnd.2 hinj' ln slot e halG hline
        | some sl =>
          cases sl with
          | text s =>
            rw [hget] at hok
            exact ih _ _ hok hnd.2 hinj' ln slot e halG hline
          | entry e0 =>
            rw [hget] at hok
            cases hacc : accumulated_getitem offs ln0 with
            | error err => rw [hacc] at hok; cases hok
            | ok off0 =>
              rw [hacc] at hok
              dsimp only at hok
              exact ih _ _ hok hnd.2 hinj' ln slot e halG
                (by rw [List.get?_set_ne _ _ hs0ne]; exact hline)

theorem alGet_lines_and_total_offsets (t : AdjustmentTable) (p : String) :
    alGet (lines_and_total_offsets t) p = (alGet t p).map pyAccumulate := by
  induction t with
  | nil => rfl
  | cons kv rest ih =>
    obtain ⟨p0, offs⟩ := kv
    by_cases h : p0 = p
    · subst h
      simp [lines_and_total_offsets, alGet]
    · simp only [lines_and_total_offsets, List.map_cons] at ih ⊢
      rw [alGet, if_neg h, alGet, if_neg h]
      exact ih

theorem lines_and_total_offsets_keys (t : AdjustmentTable) :
    (lines_and_total_offsets t).map Prod.fst = t.map Prod.fst := by
  induction t with
  | nil => rfl
  | cons kv rest ih =>
    obtain ⟨p0, offs⟩ := kv
    simp only [lines_and_total_offsets, List.map_cons] at ih ⊢
    rw [ih]

theorem adjustAllPaths_cons (idx : List (String × List (Int × Nat))) (p : String)
    (offs : List Int) (rest : List (String × List Int)) (lines : List (Option SnapshotLine)) :
    adjustAllPaths idx ((p, offs) :: rest) lines =
      (match alGet idx p with
       | none => adjustAllPaths idx rest lines
       | some d =>
         match adjustPathEntries lines offs d with
         | .error e => .error e
         | .ok lines1 => adjustAllPaths idx rest lines1) := rfl

/-- Full functional behaviour of the outer relocation loop. -/
theorem adjustAllPaths_spec (idx : List (String × List (Int × Nat)))
    (rows : List (String × List Int)) :
    ∀ (lines lines' : List (Option SnapshotLine)),
    adjustAllPaths idx rows lines = .ok lines' →
    (rows.map Prod.fst).Nodup →
    (∀ p d, alGet idx p = some d → (d.map Prod.fst).Nodup) →
    (∀ p ln slot p' ln' slot',
      (alGet idx p).bind (fun d => alGet d ln) = some slot →
      (alGet idx p').bind (fun d => alGet d ln') = some slot' →
      slot = slot' → p = p' ∧ ln = ln') →
    (∀ (p : String) (row : List Int) (d : List (Int × Nat)) (ln : Int) (slot : Nat)
        (e : SnapshotEntry),
      alGet rows p = some row → alGet idx p = some d → alGet d ln = some slot →
      lines.get? slot = some (some (.entry e)) →
      ∃ off, accumulated_getitem row ln = .ok off ∧
        lines'.get? slot = some (some (.entry ⟨e.path, e.line_number + off, e.other_contents⟩)))
    ∧ (∀ j, (∀ p d ln, p ∈ rows.map Prod.fst → alGet idx p = some d →
        alGet d ln ≠ some j) → lines'.get? j = lines.get? j)
    ∧ (∀ j, lines.get? j = some none → lines'.get? j = some none)
    ∧ filterTexts lines' = filterTexts lines
    ∧ lines'.length = lines.length := by
  induction rows with
  | nil =>
    intro lines lines' hok _ _ _
    cases hok
    refine ⟨?_, fun _ _ => rfl, fun _ hx => hx, rfl, rfl⟩
    intro p row d ln slot e hrow
    exact absurd hrow (by rw [show alGet ([] : List (String × List Int)) p = none from rfl]; simp)
  | cons rw0 rest ih =>
    obtain ⟨p0, row0⟩ := rw0
    intro lines lines' hok hrownd hinnernd hinj
    simp only [List.map_cons, List.nodup_cons] at hrownd
    rw [adjustAllPaths_cons] at hok
    cases halG : alGet idx p0 with
    | none =>
      rw [halG] at hok
      obtain ⟨ihMain, ihFrame, ihNone, ihTexts, ihLen⟩ :=
        ih lines lines' hok hrownd.2 hinnernd hinj
      refine ⟨?_, ?_, ihNone, ihTexts, ihLen⟩
      · intro p row d ln slot e hrow hd hds hline
        have hp0 : p0 ≠ p := by
          intro hc
          subst hc
          rw [halG] at hd
          cases hd
        rw [alGet, if_neg hp0] at hrow
        exact ihMain p row d ln slot e hrow hd hds hline
      · intro j hfree
        refine ihFrame j ?_
        intro p d ln hp hd
        exact hfree p d ln (List.mem_cons_of_mem _ hp) hd
    | some d0 =>
      rw [halG] at hok
      dsimp only at hok
      cases hpe : adjustPathEntries lines row0 d0 with
      | error e => rw [hpe] at hok; cases hok
      | ok lines1 =>
        rw [hpe] at hok
        have hd0nd : (d0.map Prod.fst).Nodup := hinnernd p0 d0 halG
        have hd0inj : ∀ a ∈ d0, ∀ b ∈ d0, a.2 = b.2 → a.1 = b.1 := by
          intro a ha b hb hab
          have hga : (alGet idx p0).bind (fun d => alGet d a.1) = some a.2 := by
            rw [halG, Option.some_bind]
            exact alGet_of_mem_nodup d0 a.1 a.2 hd0nd (by rw [show (a.1, a.2) = a from rfl]; exact ha)
          have hgb : (alGet idx p0).bind (fun d => alGet d b.1) = some b.2 := by
            rw [halG, Option.some_bind]
            exact alGet_of_mem_nodup d0 b.1 b.2 hd0nd (by rw [show (b.1, b.2) = b from rfl]; exact hb)
          exact (hinj p0 a.1 a.2 p0 b.1 b.2 hga hgb hab).2
        obtain ⟨ihMain, ihFrame, ihNone, ihTexts, ihLen⟩ :=
          ih lines1 lines' hok hrownd.2 hinnernd hinj
        refine ⟨?_, ?_, ?_, ?_, ?_⟩
        · intro p row d ln slot e hrow hd hds hline
          by_cases hp : p = p0
          · subst hp
            rw [alGet, if_pos rfl] at hrow
            cases hrow
            rw [halG] at hd
            cases hd
            obtain ⟨off, hoff, hline1⟩ :=
              adjustPathEntries_spec row0 d0 lines lines1 hpe hd0nd hd0inj ln slot e hds hline
            refine ⟨off, hoff, ?_⟩
            have hfree : ∀ p' d' ln', p' ∈ rest.map Prod.fst → alGet idx p' = some d' →
                alGet d' ln' ≠ some slot := by
              intro p' d' ln' hp' hd' hc
              have hg1 : (alGet idx p).bind (fun d2 => alGet d2 ln) = some slot := by
                rw [halG, Option.some_bind]
                exact hds
              have hg2 : (alGet idx p').bind (fun d2 => alGet d2 ln') = some slot := by
                rw [hd', Option.some_bind]
                exact hc
              have hpp := (hinj p ln slot p' ln' slot hg1 hg2 rfl).1
              rw [← hpp] at hp'
              exact hrownd.1 hp'
            rw [ihFrame slot hfree]
            exact hline1
          · rw [alGet, if_neg (fun hc => hp hc.symm)] at hrow
            have hs0free : ∀ pr ∈ d0, pr.2 ≠ slot := by
              intro pr hpr hc
              have hg1 : (alGet idx p0).bind (fun d2 => alGet d2 pr.1) = some slot := by
                rw [halG, Option.some_bind, alGet_of_mem_nodup d0 pr.1 pr.2 hd0nd
                  (by rw [show (pr.1, pr.2) = pr from rfl]; exact hpr), hc]
              have hg2 : (alGet idx p).bind (fun d2 => alGet d2 ln) = some slot := by
                rw [hd, Option.some_bind]
                exact hds
              exact hp (hinj p0 pr.1 slot p ln slot hg1 hg2 rfl).1.symm
            have hline1 : lines1.get? slot = lines.get? slot :=
              adjustPathEntries_frame row0 d0 lines lines1 hpe slot hs0free
            exact ihMain p row d ln slot e hrow hd hds (by rw [hline1]; exact hline)
        · intro j hfree
          have hd0free : ∀ pr ∈ d0, pr.2 ≠ j := by
            intro pr hpr hc
            refine hfree p0 d0 pr.1 (by simp) halG ?_
            rw [alGet_of_mem_nodup d0 pr.1 pr.2 hd0nd
              (by rw [show (pr.1, pr.2) = pr from rfl]; exact hpr), hc]
          have h1 : lines1.get? j = lines.get? j :=
            adjustPathEntries_frame row0 d0 lines lines1 hpe j hd0free
          rw [ihFrame j (fun p d ln hp hd => hfree p d ln (by
            simp only [List.map_cons, List.mem_cons]
            exact Or.inr hp) hd), h1]
        · intro j hj
          exact ihNone j (adjustPathEntries_none_pres row0 d0 lines lines1 hpe j hj)
        · rw [ihTexts, adjustPathEntries_texts row0 d0 lines lines1 hpe]
        · rw [ihLen, adjustPathEntries_length row0 d0 lines lines1 hpe]

/-- Functional specification of `adjust_entry_line_numbers`: every indexed
entry of a path with a table row is relocated by its accumulated offset,
everything else (untouched paths, unindexed slots, tombstones, opaque lines)
is left exactly as it was, and the index is not updated. -/
theorem adjust_entry_spec (c : CollectedSnapshotEntries) (t : AdjustmentTable)
    (c2 : CollectedSnapshotEntries)
    (hok : adjust_entry_line_numbers c t = .ok c2)
    (hs : slotSpec c) (hWF : keysWF c) (htnd : (t.map Prod.fst).Nodup) :
    c2.index = c.index ∧
    (∀ p ln slot row, idxGet c p ln = some slot → alGet t p = some row →
      ∃ suf off, accumulated_getitem (pyAccumulate row) ln = .ok off ∧
        c.snapshot_lines.get? slot = some (some (.entry ⟨p, ln, suf⟩)) ∧
        c2.snapshot_lines.get? slot = some (some (.entry ⟨p, ln + off, suf⟩))) ∧
    (∀ p ln slot, idxGet c p ln = some slot → alGet t p = none →
      c2.snapshot_lines.get? slot = c.snapshot_lines.get? slot) ∧
    (∀ j, (∀ q lm, idxGet c q lm ≠ some j) →
      c2.snapshot_lines.get? j = c.snapshot_lines.get? j) ∧
    (∀ j, c.snapshot_lines.get? j = some none → c2.snapshot_lines.get? j = some none) ∧
    filterTexts c2.snapshot_lines = filterTexts c.snapshot_lines ∧
    c2.snapshot_lines.length = c.snapshot_lines.length := by
  rw [adjust_entry_line_numbers] at hok
  cases hap : adjustAllPaths c.index (lines_and_total_offsets t) c.snapshot_lines with
  | error e => rw [hap] at hok; cases hok
  | ok lines' =>
    rw [hap] at hok
    cases hok
    have hrownd : ((lines_and_total_offsets t).map Prod.fst).Nodup := by
      rw [lines_and_total_offsets_keys]
      exact htnd
    have hinnernd : ∀ p d, alGet c.index p = some d → (d.map Prod.fst).Nodup := by
      intro p d hd
      exact hWF.2 (p, d) (alGet_mem _ _ _ hd)
    have hinj : ∀ p ln slot p' ln' slot',
        (alGet c.index p).bind (fun d => alGet d ln) = some slot →
        (alGet c.index p').bind (fun d => alGet d ln') = some slot' →
        slot = slot' → p = p' ∧ ln = ln' := by
      intro p ln slot p' ln' slot' h1 h2 heq
      subst heq
      exact idxGet_inj c hs h1 h2
    obtain ⟨hMain, hFrame, hNone, hTexts, hLen⟩ :=
      adjustAllPaths_spec c.index (lines_and_total_offsets t) c.snapshot_lines lines'
        hap hrownd hinnernd hinj
    refine ⟨rfl, ?_, ?_, ?_, hNone, hTexts, hLen⟩
    · intro p ln slot row hidx htp
      obtain ⟨suf, hsuf⟩ := hs p ln slot hidx
      obtain ⟨d, hd, hds⟩ := idxGet_decomp c p ln slot hidx
      have hrow : alGet (lines_and_total_offsets t) p = some (pyAccumulate row) := by
        rw [alGet_lines_and_total_offsets, htp]
        rfl
      obtain ⟨off, hoff, hline'⟩ :=
        hMain p (pyAccumulate row) d ln slot ⟨p, ln, suf⟩ hrow hd hds hsuf
      exact ⟨suf, off, hoff, hsuf, hline'⟩
    · intro p ln slot hidx htp
      have hpnot : p ∉ t.map Prod.fst := by
        intro hc
        have := alGet_isSome_of_mem_keys t p hc
        rw [htp] at this
        cases this
      refine hFrame slot ?_
      intro p' d' ln' hp' hd' hc
      have hg2 : (alGet c.index p').bind (fun d2 => alGet d2 ln') = some slot := by
        rw [hd', Option.some_bind]
        exact hc
      have hpp := (idxGet_inj c hs hidx hg2).1
      rw [lines_and_total_offsets_keys] at hp'
      rw [← hpp] at hp'
      exact hpnot hp'
    · intro j hfree
      refine hFrame j ?_
      intro p' d' ln' hp' hd' hc
      refine hfree p' ln' ?_
      rw [idxGet, hd', Option.some_bind]
      exact hc

/-! ## Table characterization for pure-insertion / pure-deletion diffs -/

theorem tableSums_bump (P : String) (L : Int) (t : AdjustmentTable) (k ln o : Int)
    (h : tableSums P L t k) (h1 : 1 ≤ ln) (hM : ln ≤ L ∨ o = 0) :
    tableSums P L (alSet t P (bumpAt ((alGet t P).getD []) ln o)) (k + o) := by
  have hM' : ln ≤ ((L.toNat : Int)) ∨ o = 0 := by
    rcases hM with hM | hM
    · left
      omega
    · right
      exact hM
  rcases h with ⟨ht, hk⟩ | ⟨l, ht, hne, hsum, hz⟩
  · subst ht
    subst hk
    right
    refine ⟨bumpAt [] ln o, rfl, bumpAt_ne_nil [] ln o h1, ?_, ?_⟩
    · rw [bumpAt_sum [] ln o h1]
      simp
    · exact bumpAt_zero_tail [] ln o L.toNat h1 hM' (by intro x hx; simp at hx)
  · subst ht
    have hget : ((alGet [(P, l)] P).getD []) = l := by simp [alGet]
    right
    refine ⟨bumpAt l ln o, ?_, bumpAt_ne_nil l ln o h1, ?_, ?_⟩
    · rw [hget]
      simp [alSet]
    · rw [bumpAt_sum l ln o h1, hsum]
    · exact bumpAt_zero_tail l ln o L.toNat h1 hM' hz

/-- Walking a payload that satisfies the position discipline of `payloadPos`
(for path `P`, anchor `L`, no entry strictly above `L`): the walk succeeds,
the snapshot state is untouched, and the table stays a single row for `P`
whose sum grows by (added − removed). -/
theorem walk_payload_c12 (P : String) (L : Int) (diffs : List DiffPayloadLine) :
    ∀ (base : Int) (i : Nat) (t : AdjustmentTable) (c : CollectedSnapshotEntries) (k : Int),
    payloadPos L (base + i) diffs = true →
    (∀ pos : Int, pos < L → get_entry c P pos = none) →
    tableSums P L t k →
    ∃ t', processPayload P base i diffs t c = .ok (t', c) ∧
      tableSums P L t' (k + countAdded diffs - countRemoved diffs) := by
  induction diffs with
  | nil =>
    intro base i t c k _ _ hT
    refine ⟨t, rfl, ?_⟩
    rw [countAdded_nil, countRemoved_nil]
    simpa using hT
  | cons d rest ih =>
    intro base i t c k hpos hc hT
    cases d with
    | context =>
      rw [payloadPos] at hpos
      simp only [Bool.and_eq_true, decide_eq_true_eq] at hpos
      have h1 : 1 ≤ base + (i : Int) := hpos.1
      have hrest : payloadPos L (base + i + 1) rest = true := hpos.2
      have hadd := add_offset_of_eq t P (base + i) 0 h1
      have hT1 := tableSums_bump P L t k (base + i) 0 hT h1 (Or.inr rfl)
      rw [add_zero] at hT1
      have hrest' : payloadPos L (base + ((i + 1 : Nat) : Int)) rest = true := by
        have : base + ((i + 1 : Nat) : Int) = base + i + 1 := by push_cast; ring
        rw [this]
        exact hrest
      obtain ⟨t', hwalk, hT'⟩ := ih base (i + 1) _ c k hrest' hc hT1
      refine ⟨t', ?_, ?_⟩
      · rw [processPayload_cons]
        cases hge : get_entry c P (base + i) with
        | none => rw [hadd]; exact hwalk
        | some e0 => rw [hadd]; exact hwalk
      · rw [countAdded_context, countRemoved_context]
        exact hT'
    | added s =>
      rw [payloadPos] at hpos
      simp only [Bool.and_eq_true, decide_eq_true_eq] at hpos
      obtain ⟨⟨h1, hle⟩, hrest⟩ := hpos
      have hadd := add_offset_of_eq t P (base + i) 1 h1
      have hT1 := tableSums_bump P L t k (base + i) 1 hT h1 (Or.inl hle)
      have hrest' : payloadPos L (base - 1 + ((i + 1 : Nat) : Int)) rest = true := by
        have : base - 1 + ((i + 1 : Nat) : Int) = base + i := by push_cast; ring
        rw [this]
        exact hrest
      obtain ⟨t', hwalk, hT'⟩ := ih (base - 1) (i + 1) _ c (k + 1) hrest' hc hT1
      refine ⟨t', ?_, ?_⟩
      · rw [processPayload_cons]
        cases hge : get_entry c P (base + i) with
        | none => rw [hadd]; exact hwalk
        | some e0 => rw [hadd]; exact hwalk
      · rw [countAdded_added, countRemoved_added]
        have : k + 1 + countAdded rest - countRemoved rest
            = k + ((countAdded rest + 1 : Nat) : Int) - countRemoved rest := by
          push_cast
          ring
        rw [← this]
        exact hT'
    | removed s =>
      rw [payloadPos] at hpos
      simp only [Bool.and_eq_true, decide_eq_true_eq] at hpos
      obtain ⟨⟨h1, hlt⟩, hrest⟩ := hpos
      have hge : get_entry c P (base + i) = none := hc (base + i) hlt
      have hadd := add_offset_of_eq t P (base + i) (-1) h1
      have hT1 := tableSums_bump P L t k (base + i) (-1) hT h1 (Or.inl (by omega))
      have hrest' : payloadPos L (base + ((i + 1 : Nat) : Int)) rest = true := by
        have : base + ((i + 1 : Nat) : Int) = base + i + 1 := by push_cast; ring
        rw [this]
        exact hrest
      obtain ⟨t', hwalk, hT'⟩ := ih base (i + 1) _ c (k + -1) hrest' hc hT1
      refine ⟨t', ?_, ?_⟩
      · rw [processPayload_cons, hge, hadd]
        exact hwalk
      · rw [countAdded_removed, countRemoved_removed]
        have : k + -1 + countAdded rest - countRemoved rest
            = k + countAdded rest - ((countRemoved rest + 1 : Nat) : Int) := by
          push_cast
          ring
        rw [← this]
        exact hT'

/-- Hunk-level version of `walk_payload_c12`. -/
theorem walk_hunks_c12 (P : String) (L : Int) (hunks : List GitDiffHunk) :
    ∀ (t : AdjustmentTable) (c : CollectedSnapshotEntries) (k : Int),
    (∀ h ∈ hunks, h.path_minus = P ∧ payloadPos L h.initial_line_number h.diffs = true) →
    (∀ pos : Int, pos < L → get_entry c P pos = none) →
    tableSums P L t k →
    ∃ t', processHunks t c hunks = .ok (t', c) ∧
      tableSums P L t'
        (k + (hunks.map (fun h => (countAdded h.diffs : Int) - countRemoved h.diffs)).sum) := by
  induction hunks with
  | nil =>
    intro t c k _ _ hT
    refine ⟨t, rfl, ?_⟩
    simpa using hT
  | cons h rest ih =>
    intro t c k hall hc hT
    obtain ⟨hpath, hpos⟩ := hall h (List.mem_cons_self _ _)
    have hpos' : payloadPos L (h.initial_line_number + ((0 : Nat) : Int)) h.diffs = true := by
      simpa using hpos
    obtain ⟨t1, hwalk1, hT1⟩ :=
      walk_payload_c12 P L h.diffs h.initial_line_number 0 t c k hpos' hc hT
    obtain ⟨t', hwalk', hT'⟩ := ih t1 c _
      (fun h2 hm => hall h2 (List.mem_cons_of_mem _ hm)) hc hT1
    refine ⟨t', ?_, ?_⟩
    · rw [processHunks, hpath, hwalk1]
      exact hwalk'
    · rw [List.map_cons, List.sum_cons]
      have heq : k + (((countAdded h.diffs : Int) - countRemoved h.diffs)
          + (rest.map (fun h2 => (countAdded h2.diffs : Int) - countRemoved h2.diffs)).sum)
          = k + (countAdded h.diffs : Int) - countRemoved h.diffs
          + (rest.map (fun h2 => (countAdded h2.diffs : Int) - countRemoved h2.diffs)).sum := by
        ring
      rw [heq]
      exact hT'

/-! ## Assembly lemmas for the claim theorems -/

theorem adjust_line_numbers_eq (d s : List String) :
    adjust_line_numbers d s =
      (match parse_git_diff_hunks d with
       | .error e => .error e
       | .ok hunks =>
         match processHunks [] (collectSnapshotEntries s) hunks with
         | .error e => .error e
         | .ok (t, c1) =>
           match adjust_entry_line_numbers c1 t with
           | .error e => .error e
           | .ok c2 => .ok (to_formatted_snapshot_lines c2)) := by
  rfl

theorem collect_foldl_texts (sls : List SnapshotLine) (c : CollectedSnapshotEntries)
    (h : ∀ sl ∈ sls, ∃ s, sl = .text s) :
    sls.foldl collectStep c = ⟨c.snapshot_lines ++ sls.map some, c.index⟩ := by
  induction sls generalizing c with
  | nil =>
    cases c
    simp
  | cons sl rest ih =>
    obtain ⟨s, hs⟩ := h sl (List.mem_cons_self _ _)
    subst hs
    rw [List.foldl_cons, ih _ (fun sl2 hm => h sl2 (List.mem_cons_of_mem _ hm))]
    show (⟨c.snapshot_lines ++ [some (.text s)] ++ rest.map some, c.index⟩ :
        CollectedSnapshotEntries) = _
    rw [List.append_assoc]
    rfl

/-- Collecting a snapshot whose only entry-shaped line sits between two runs
of opaque lines. -/
theorem collect_shape (pre post : List String) (eline P suffix : String) (L : Int)
    (hpre : ∀ l ∈ pre, parse_snapshot_line l = .text l)
    (hpost : ∀ l ∈ post, parse_snapshot_line l = .text l)
    (hent : parse_snapshot_line eline = .entry ⟨P, L, suffix⟩) :
    collectSnapshotEntries (pre ++ eline :: post) =
      ⟨(pre.map (fun l => some (.text l))) ++
        some (.entry ⟨P, L, suffix⟩) :: (post.map (fun l => some (.text l))),
       [(P, [(L, pre.length)])]⟩ := by
  rw [collectSnapshotEntries, parse_snapshot_lines, List.map_append, List.map_cons,
    List.foldl_append, List.foldl_cons]
  have hpremap : pre.map parse_snapshot_line = pre.map (fun l => .text l) :=
    List.map_congr_left hpre
  have hpostmap : post.map parse_snapshot_line = post.map (fun l => .text l) :=
    List.map_congr_left hpost
  rw [hpremap, hpostmap, hent]
  rw [collect_foldl_texts (pre.map (fun l => .text l)) ⟨[], []⟩
    (by intro sl hm; obtain ⟨l, -, hl⟩ := List.mem_map.mp hm; exact ⟨l, hl.symm⟩)]
  have hsteplines : (collectStep
      ⟨[] ++ (pre.map (fun l => SnapshotLine.text l)).map some, []⟩
      (.entry ⟨P, L, suffix⟩)) =
      ⟨([] ++ (pre.map (fun l => SnapshotLine.text l)).map some) ++
        [some (.entry ⟨P, L, suffix⟩)], [(P, [(L, pre.length)])]⟩ := by
    rw [collectStep]
    congr 1
    show alSet [] P (alSet ((alGet ([] : List (String × List (Int × Nat))) P).getD [])
      L ([] ++ (pre.map (fun l => SnapshotLine.text l)).map some).length) = _
    simp [alGet, alSet]
  rw [hsteplines,
    collect_foldl_texts (post.map (fun l => .text l)) _
      (by intro sl hm; obtain ⟨l, -, hl⟩ := List.mem_map.mp hm; exact ⟨l, hl.symm⟩)]
  congr 1
  simp only [List.map_map, List.nil_append, List.append_assoc, List.singleton_append,
    Function.comp_def]

theorem set_middle {α : Type} (l1 : List α) (x v : α) (l2 : List α) :
    (l1 ++ x :: l2).set l1.length v = l1 ++ v :: l2 := by
  induction l1 with
  | nil => rw [List.nil_append, List.length_nil, List.set_cons_zero, List.nil_append]
  | cons a rest ih =>
    rw [List.cons_append, List.length_cons, List.set_cons_succ, ih, List.cons_append]

theorem to_formatted_shape (pre post : List String) (e : SnapshotEntry)
    (idx : List (String × List (Int × Nat))) :
    to_formatted_snapshot_lines
      ⟨(pre.map (fun l => some (.text l))) ++
        some (.entry e) :: (post.map (fun l => some (.text l))), idx⟩ =
      pre ++ format_snapshot_line (.entry e) :: post := by
  rw [to_formatted_snapshot_lines]
  show ((((pre.map (fun l => some (SnapshotLine.text l))) ++
      some (SnapshotLine.entry e) :: (post.map (fun l => some (SnapshotLine.text l)))).filterMap
      id).map format_snapshot_line) = _
  have htexts : ∀ (xs : List String),
      (((xs.map (fun l => some (SnapshotLine.text l))).filterMap id).map
        format_snapshot_line) = xs := by
    intro xs
    induction xs with
    | nil => rfl
    | cons a rest ih =>
      rw [List.map_cons, List.filterMap_cons]
      show (SnapshotLine.text a :: (rest.map (fun l => some (SnapshotLine.text l))).filterMap id).map
        format_snapshot_line = _
      rw [List.map_cons, ih]
      rfl
  rw [List.filterMap_append, List.filterMap_cons]
  show ((((pre.map (fun l => some (SnapshotLine.text l))).filterMap id) ++
    (SnapshotLine.entry e :: (post.map (fun l => some (SnapshotLine.text l))).filterMap id)).map
    format_snapshot_line) = _
  rw [List.map_append, List.map_cons]
  rw [htexts pre, htexts post]

/-- Relocation by a single-row table over a single-entry index, computed. -/
theorem adjust_singleton (P : String) (L : Int) (l : List Int) (n : Nat)
    (lines : List (Option SnapshotLine)) (suffix : String)
    (hn : lines.get? n = some (some (.entry ⟨P, L, suffix⟩)))
    (hacc : accumulated_getitem (pyAccumulate l) L = .ok l.sum) :
    adjust_entry_line_numbers ⟨lines, [(P, [(L, n)])]⟩ [(P, l)] =
      .ok ⟨lines.set n (some (.entry ⟨P, L + l.sum, suffix⟩)), [(P, [(L, n)])]⟩ := by
  rw [adjust_entry_line_numbers]
  have hltoffs : lines_and_total_offsets [(P, l)] = [(P, pyAccumulate l)] := rfl
  show (adjustAllPaths [(P, [(L, n)])] (lines_and_total_offsets [(P, l)]) lines).map _ = _
  rw [hltoffs, adjustAllPaths_cons]
  have halG : alGet [(P, [(L, n)])] P = some [(L, n)] := by simp [alGet]
  rw [halG]
  dsimp only
  rw [adjustPathEntries_cons, hn, hacc]
  rfl

theorem adjust_entry_nil (c : CollectedSnapshotEntries) :
    adjust_entry_line_numbers c [] = .ok c := by
  rw [adjust_entry_line_numbers]
  show (adjustAllPaths c.index [] c.snapshot_lines).map _ = _
  rw [adjustAllPaths]
  cases c
  rfl

/-! ## Table-shape and other-path frame lemmas for the walk -/

theorem except_map_ok {ε α β : Type} (f : α → β) (r : Except ε α) (b : β)
    (h : r.map f = .ok b) : ∃ a, r = .ok a ∧ b = f a := by
  cases r with
  | error e => simp [Except.map] at h
  | ok a =>
    simp only [Except.map, Except.ok.injEq] at h
    exact ⟨a, rfl, h.symm⟩

theorem add_offset_of_shape (t : AdjustmentTable) (p : String) (ln o : Int)
    (t1 : AdjustmentTable) (hok : add_offset_of t p ln o = .ok t1) :
    ∃ l, t1 = alSet t p l := by
  simp only [add_offset_of] at hok
  obtain ⟨l, -, hl⟩ := except_map_ok _ _ _ hok
  exact ⟨l, hl⟩

theorem alSet_keys_sub {κ α : Type} [DecidableEq κ] (t : List (κ × α)) (k : κ) (v : α)
    (q : κ) (h : q ∈ (alSet t k v).map Prod.fst) : q ∈ t.map Prod.fst ∨ q = k := by
  rw [alSet_map_fst] at h
  by_cases hm : k ∈ t.map Prod.fst
  · rw [if_pos hm] at h
    exact Or.inl h
  · rw [if_neg hm] at h
    rcases List.mem_append.mp h with h | h
    · exact Or.inl h
    · exact Or.inr (by simpa using h)

/-- Table facts of a payload walk: a nodup key list stays nodup, keys of
paths other than the walked one keep their rows, and every key of the final
table is an old key or the walked path. -/
theorem processPayload_table (path : String) (diffs : List DiffPayloadLine) :
    ∀ (base : Int) (i : Nat) (t : AdjustmentTable) (c : CollectedSnapshotEntries)
      (t' : AdjustmentTable) (c' : CollectedSnapshotEntries),
    processPayload path base i diffs t c = .ok (t', c') →
    ((t.map Prod.fst).Nodup → (t'.map Prod.fst).Nodup) ∧
    (∀ q, q ≠ path → alGet t' q = alGet t q) ∧
    (∀ q, q ∈ t'.map Prod.fst → q ∈ t.map Prod.fst ∨ q = path) := by
  induction diffs with
  | nil =>
    intro base i t c t' c' hok
    cases hok
    exact ⟨fun h => h, fun _ _ => rfl, fun q hq => Or.inl hq⟩
  | cons d rest ih =>
    intro base i t c t' c' hok
    rw [processPayload_cons] at hok
    have hstep : ∀ (o : Int) (t1 : AdjustmentTable) (c1 : CollectedSnapshotEntries),
        add_offset_of t path (base + i) o = .ok t1 →
        (∀ b2 i2, processPayload path b2 i2 rest t1 c1 = .ok (t', c') →
          ((t.map Prod.fst).Nodup → (t'.map Prod.fst).Nodup) ∧
          (∀ q, q ≠ path → alGet t' q = alGet t q) ∧
          (∀ q, q ∈ t'.map Prod.fst → q ∈ t.map Prod.fst ∨ q = path)) := by
      intro o t1 c1 hadd b2 i2 hrest
      obtain ⟨l, hl⟩ := add_offset_of_shape t path (base + i) o t1 hadd
      subst hl
      obtain ⟨ihN, ihG, ihK⟩ := ih b2 i2 _ c1 t' c' hrest
      refine ⟨?_, ?_, ?_⟩
      · intro hnd
        exact ihN (alSet_nodup_keys _ _ _ hnd)
      · intro q hq
        rw [ihG q hq, alGet_alSet_ne _ _ _ _ hq]
      · intro q hq
        rcases ihK q hq with hq | hq
        · exact alSet_keys_sub t path l q hq
        · exact Or.inr hq
    cases hge : get_entry c path (base + i) with
    | none =>
      rw [hge] at hok
      cases d with
      | context =>
        cases hadd : add_offset_of t path (base + i) 0 with
        | error e => rw [hadd] at hok; cases hok
        | ok t1 => rw [hadd] at hok; exact hstep 0 t1 c hadd _ _ hok
      | added sc =>
        cases hadd : add_offset_of t path (base + i) 1 with
        | error e => rw [hadd] at hok; cases hok
        | ok t1 => rw [hadd] at hok; exact hstep 1 t1 c hadd _ _ hok
      | removed sc =>
        cases hadd : add_offset_of t path (base + i) (-1) with
        | error e => rw [hadd] at hok; cases hok
        | ok t1 => rw [hadd] at hok; exact hstep (-1) t1 c hadd _ _ hok
    | some e0 =>
      rw [hge] at hok
      cases d with
      | context =>
        cases hadd : add_offset_of t path (base + i) 0 with
        | error e => rw [hadd] at hok; cases hok
        | ok t1 => rw [hadd] at hok; exact hstep 0 t1 c hadd _ _ hok
      | added sc =>
        cases hadd : add_offset_of t path (base + i) 1 with
        | error e => rw [hadd] at hok; cases hok
        | ok t1 => rw [hadd] at hok; exact hstep 1 t1 c hadd _ _ hok
      | removed sc =>
        cases hadd : add_offset_of t path (base + i) (-1) with
        | error e => rw [hadd] at hok; cases hok
        | ok t1 =>
          rw [hadd] at hok
          exact hstep (-1) t1 (delete_entry c path (base + i)) hadd _ _ hok

/-- Hunk-level table facts. -/
theorem processHunks_table (hunks : List GitDiffHunk) :
    ∀ (t : AdjustmentTable) (c : CollectedSnapshotEntries)
      (t' : AdjustmentTable) (c' : CollectedSnapshotEntries),
    processHunks t c hunks = .ok (t', c') →
    ((t.map Prod.fst).Nodup → (t'.map Prod.fst).Nodup) ∧
    (∀ q, (∀ h ∈ hunks, h.path_minus ≠ q) → alGet t' q = alGet t q) ∧
    (∀ q, q ∈ t'.map Prod.fst → q ∈ t.map Prod.fst ∨ ∃ h ∈ hunks, h.path_minus = q) := by
  induction hunks with
  | nil =>
    intro t c t' c' hok
    cases hok
    exact ⟨fun h => h, fun _ _ => rfl, fun q hq => Or.inl hq⟩
  | cons h rest ih =>
    intro t c t' c' hok
    rw [processHunks] at hok
    cases hstep : processPayload h.path_minus h.initial_line_number 0 h.diffs t c with
    | error e => rw [hstep] at hok; cases hok
    | ok r =>
      obtain ⟨t1, c1⟩ := r
      rw [hstep] at hok
      obtain ⟨hN1, hG1, hK1⟩ :=
        processPayload_table h.path_minus h.diffs h.initial_line_number 0 t c t1 c1 hstep
      obtain ⟨hN2, hG2, hK2⟩ := ih t1 c1 t' c' hok
      refine ⟨fun hnd => hN2 (hN1 hnd), ?_, ?_⟩
      · intro q hq
        rw [hG2 q (fun h2 hm => hq h2 (List.mem_cons_of_mem _ hm)),
          hG1 q (fun hc => hq h (List.mem_cons_self _ _) hc.symm)]
      · intro q hq
        rcases hK2 q hq with hq | ⟨h2, hm2, hp2⟩
        · rcases hK1 q hq with hq | hq
          · exact Or.inl hq
          · exact Or.inr ⟨h, List.mem_cons_self _ _, hq.symm⟩
        · exact Or.inr ⟨h2, List.mem_cons_of_mem _ hm2, hp2⟩

/-- A payload walk for one path leaves the index entries and slots of every
other path exactly as they were. -/
theorem processPayload_otherPath (path q : String) (hne : q ≠ path)
    (diffs : List DiffPayloadLine) :
    ∀ (base : Int) (i : Nat) (t : AdjustmentTable) (c : CollectedSnapshotEntries)
      (t' : AdjustmentTable) (c' : CollectedSnapshotEntries),
    processPayload path base i diffs t c = .ok (t', c') → slotSpec c → keysWF c →
    (∀ ln, idxGet c' q ln = idxGet c q ln) ∧
    (∀ ln j, idxGet c q ln = some j →
      c'.snapshot_lines.get? j = c.snapshot_lines.get? j) := by
  induction diffs with
  | nil =>
    intro base i t c t' c' hok _ _
    cases hok
    exact ⟨fun _ => rfl, fun _ _ _ => rfl⟩
  | cons d rest ih =>
    intro base i t c t' c' hok hs hWF
    rw [processPayload_cons] at hok
    cases hge : get_entry c path (base + i) with
    | none =>
      rw [hge] at hok
      cases d with
      | context =>
        cases hadd : add_offset_of t path (base + i) 0 with
        | error e => rw [hadd] at hok; cases hok
        | ok t1 => rw [hadd] at hok; exact ih _ _ _ _ _ _ hok hs hWF
      | added sc =>
        cases hadd : add_offset_of t path (base + i) 1 with
        | error e => rw [hadd] at hok; cases hok
        | ok t1 => rw [hadd] at hok; exact ih _ _ _ _ _ _ hok hs hWF
      | removed sc =>
        cases hadd : add_offset_of t path (base + i) (-1) with
        | error e => rw [hadd] at hok; cases hok
        | ok t1 => rw [hadd] at hok; exact ih _ _ _ _ _ _ hok hs hWF
    | some e0 =>
      rw [hge] at hok
      cases d with
      | context =>
        cases hadd : add_offset_of t path (base + i) 0 with
        | error e => rw [hadd] at hok; cases hok
        | ok t1 => rw [hadd] at hok; exact ih _ _ _ _ _ _ hok hs hWF
      | added sc =>
        cases hadd : add_offset_of t path (base + i) 1 with
        | error e => rw [hadd] at hok; cases hok
        | ok t1 => rw [hadd] at hok; exact ih _ _ _ _ _ _ hok hs hWF
      | removed sc =>
        cases hadd : add_offset_of t path (base + i) (-1) with
        | error e => rw [hadd] at hok; cases hok
        | ok t1 =>
          rw [hadd] at hok
          obtain ⟨hdS, hdWF, -, -, -, -, -⟩ := delete_entry_pres c path (base + i) hs hWF
          obtain ⟨ihI, ihL⟩ := ih _ _ _ _ _ _ hok hdS hdWF
          have hidel : ∀ ln, idxGet (delete_entry c path (base + i)) q ln = idxGet c q ln := by
            intro ln
            exact idxGet_delete_other c path (base + i) q ln (fun hc => hne hc.1)
          refine ⟨fun ln => by rw [ihI ln, hidel ln], ?_⟩
          intro ln j hj
          rw [ihL ln j (by rw [hidel ln]; exact hj)]
          cases ho : alGet c.index path with
          | none => rw [show delete_entry c path (base + i) = c by simp [delete_entry, ho]]
          | some dd =>
            cases hi : alGet dd (base + i) with
            | none => rw [show delete_entry c path (base + i) = c by simp [delete_entry, ho, hi]]
            | some s0 =>
              rw [delete_entry_of_idx_some c path (base + i) dd s0 ho hi]
              show (c.snapshot_lines.set s0 none).get? j = _
              have hids : idxGet c path (base + i) = some s0 := by
                rw [idxGet, ho, Option.some_bind, hi]
              have hjs : j ≠ s0 := by
                intro hc
                subst hc
                exact hne (idxGet_inj c hs hj hids).1
              rw [List.get?_set_ne _ _ (fun hc => hjs hc.symm)]

/-- Hunk-level other-path frame: hunks that never name path `q` leave `q`'s
index entries and slots untouched. -/
theorem processHunks_otherPath (q : String) (hunks : List GitDiffHunk) :
    ∀ (t : AdjustmentTable) (c : CollectedSnapshotEntries)
      (t' : AdjustmentTable) (c' : CollectedSnapshotEntries),
    processHunks t c hunks = .ok (t', c') → slotSpec c → keysWF c →
    (∀ h ∈ hunks, h.path_minus ≠ q) →
    (∀ ln, idxGet c' q ln = idxGet c q ln) ∧
    (∀ ln j, idxGet c q ln = some j →
      c'.snapshot_lines.get? j = c.snapshot_lines.get? j) := by
  induction hunks with
  | nil =>
    intro t c t' c' hok _ _ _
    cases hok
    exact ⟨fun _ => rfl, fun _ _ _ => rfl⟩
  | cons h rest ih =>
    intro t c t' c' hok hs hWF hnotq
    rw [processHunks] at hok
    cases hstep : processPayload h.path_minus h.initial_line_number 0 h.diffs t c with
    | error e => rw [hstep] at hok; cases hok
    | ok r =>
      obtain ⟨t1, c1⟩ := r
      rw [hstep] at hok
      have hneq : q ≠ h.path_minus :=
        fun hc => hnotq h (List.mem_cons_self _ _) hc.symm
      obtain ⟨h1I, h1L⟩ := processPayload_otherPath h.path_minus q hneq h.diffs
        h.initial_line_number 0 t c t1 c1 hstep hs hWF
      obtain ⟨hpS, hpWF, -, -, -, -, -⟩ :=
        processPayload_pres h.path_minus t1 c1 h.diffs h.initial_line_number 0 t c hstep hs hWF
      obtain ⟨ihI, ihL⟩ := ih t1 c1 t' c' hok hpS hpWF
        (fun h2 hm => hnotq h2 (List.mem_cons_of_mem _ hm))
      refine ⟨fun ln => by rw [ihI ln, h1I ln], ?_⟩
      intro ln j hj
      rw [ihL ln j (by rw [h1I ln]; exact hj), h1L ln j hj]

/-- A payload walk over a path with no tracked entries succeeds (as long as
line positions stay at 1 or above) and leaves the snapshot state unchanged. -/
theorem walk_payload_untouched (path : String) (diffs : List DiffPayloadLine) :
    ∀ (base : Int) (i : Nat) (t : AdjustmentTable) (c : CollectedSnapshotEntries),
    1 ≤ base + i →
    (∀ ln, get_entry c path ln = none) →
    ∃ t', processPayload path base i diffs t c = .ok (t', c) := by
  induction diffs with
  | nil =>
    intro base i t c _ _
    exact ⟨t, rfl⟩
  | cons d rest ih =>
    intro base i t c h1 hnone
    cases d with
    | context =>
      obtain ⟨t', hw⟩ := ih base (i + 1) (alSet t path (bumpAt ((alGet t path).getD []) (base + i) 0)) c
        (by push_cast; push_cast at h1; omega) hnone
      refine ⟨t', ?_⟩
      rw [processPayload_cons, hnone (base + i), add_offset_of_eq t path (base + i) 0 h1]
      exact hw
    | added sc =>
      obtain ⟨t', hw⟩ := ih (base - 1) (i + 1)
        (alSet t path (bumpAt ((alGet t path).getD []) (base + i) 1)) c
        (by push_cast; push_cast at h1; omega) hnone
      refine ⟨t', ?_⟩
      rw [processPayload_cons, hnone (base + i), add_offset_of_eq t path (base + i) 1 h1]
      exact hw
    | removed sc =>
      obtain ⟨t', hw⟩ := ih base (i + 1)
        (alSet t path (bumpAt ((alGet t path).getD []) (base + i) (-1))) c
        (by push_cast; push_cast at h1; omega) hnone
      refine ⟨t', ?_⟩
      rw [processPayload_cons, hnone (base + i), add_offset_of_eq t path (base + i) (-1) h1]
      exact hw

/-- Walking hunks whose paths have no tracked entries succeeds and leaves the
snapshot state unchanged, provided each hunk starts at line 1 or above. -/
theorem walk_hunks_untouched (hunks : List GitDiffHunk) :
    ∀ (t : AdjustmentTable) (c : CollectedSnapshotEntries),
    (∀ h ∈ hunks, 1 ≤ h.initial_line_number ∧
      ∀ ln, get_entry c h.path_minus ln = none) →
    ∃ t', processHunks t c hunks = .ok (t', c) := by
  induction hunks with
  | nil =>
    intro t c _
    exact ⟨t, rfl⟩
  | cons h rest ih =>
    intro t c hall
    obtain ⟨h1, hnone⟩ := hall h (List.mem_cons_self _ _)
    obtain ⟨t1, hw1⟩ := walk_payload_untouched h.path_minus h.diffs h.initial_line_number 0 t c
      (by simpa using h1) hnone
    obtain ⟨t', hw⟩ := ih t1 c (fun h2 hm => hall h2 (List.mem_cons_of_mem _ hm))
    refine ⟨t', ?_⟩
    rw [processHunks, hw1]
    exact hw

/-- The relocation loop skips every table row whose path has no index key. -/
theorem adjustAllPaths_skip (idx : List (String × List (Int × Nat)))
    (rows : List (String × List Int)) (lines : List (Option SnapshotLine))
    (h : ∀ pr ∈ rows, alGet idx pr.1 = none) :
    adjustAllPaths idx rows lines = .ok lines := by
  induction rows with
  | nil => rfl
  | cons pr rest ih =>
    obtain ⟨p, offs⟩ := pr
    rw [adjustAllPaths_cons, h (p, offs) (List.mem_cons_self _ _)]
    exact ih (fun pr2 hm => h pr2 (List.mem_cons_of_mem _ hm))

/-- The opaque lines are a sublist of the formatted output. -/
theorem filterTexts_sublist (lines : List (Option SnapshotLine)) :
    List.Sublist (filterTexts lines) ((lines.filterMap id).map format_snapshot_line) := by
  induction lines with
  | nil => exact List.Sublist.refl _
  | cons a rest ih =>
    cases a with
    | none =>
      show List.Sublist (filterTexts rest) ((rest.filterMap id).map format_snapshot_line)
      exact ih
    | some sl =>
      cases sl with
      | text s =>
        show List.Sublist (s :: filterTexts rest)
          (s :: (rest.filterMap id).map format_snapshot_line)
        exact List.Sublist.cons₂ s ih
      | entry e =>
        show List.Sublist (filterTexts rest)
          (format_snapshot_line (.entry e) :: (rest.filterMap id).map format_snapshot_line)
        exact List.Sublist.cons _ ih

theorem get_middle {α : Type} (l1 : List α) (x : α) (l2 : List α) :
    (l1 ++ x :: l2).get? l1.length = some x := by
  induction l1 with
  | nil => rfl
  | cons a rest ih =>
    rw [List.cons_append, List.length_cons]
    exact ih

theorem alSet_ne_nil {κ α : Type} [DecidableEq κ] (t : List (κ × α)) (k : κ) (v : α) :
    alSet t k v ≠ [] := by
  cases t with
  | nil => simp [alSet]
  | cons kv rest =>
    obtain ⟨k0, v0⟩ := kv
    by_cases h : k0 = k <;> simp [alSet, h]

/-- Every per-path dictionary held by a collected index is nonempty. -/
theorem collect_index_vals_ne_nil (sls : List SnapshotLine) :
    ∀ (c : CollectedSnapshotEntries),
    (∀ kv ∈ c.index, kv.2 ≠ []) →
    ∀ kv ∈ (sls.foldl collectStep c).index, kv.2 ≠ [] := by
  induction sls with
  | nil =>
    intro c hc
    exact hc
  | cons sl rest ih =>
    intro c hc
    rw [List.foldl_cons]
    refine ih (collectStep c sl) ?_
    intro kv hkv
    cases sl with
    | text s => exact hc kv hkv
    | entry e =>
      have hkv2 : kv ∈ alSet c.index e.path
          (alSet ((alGet c.index e.path).getD []) e.line_number c.snapshot_lines.length) := hkv
      rcases mem_alSet _ _ _ _ hkv2 with hm | hm
      · exact hc kv hm
      · rw [hm]
        exact alSet_ne_nil _ _ _

/-- A path that no parsed entry of the snapshot mentions has no index key and
no tracked entries in the collected snapshot. -/
theorem collect_path_absent (s : List String) (p : String)
    (h : ∀ e, SnapshotLine.entry e ∈ parse_snapshot_lines s → e.path ≠ p) :
    alGet (collectSnapshotEntries s).index p = none ∧
    ∀ ln, get_entry (collectSnapshotEntries s) p ln = none := by
  have hidx : alGet (collectSnapshotEntries s).index p = none := by
    cases hd : alGet (collectSnapshotEntries s).index p with
    | none => rfl
    | some d =>
      exfalso
      have hdne : d ≠ [] := by
        refine collect_index_vals_ne_nil (parse_snapshot_lines s) ⟨[], []⟩
          (by intro kv hkv; cases hkv) (p, d) ?_
        exact alGet_mem _ _ _ hd
      obtain ⟨⟨ln, slot⟩, hmem⟩ := List.exists_mem_of_ne_nil d hdne
      have hWF := keysWF_collect s
      have hds : alGet d ln = some slot :=
        alGet_of_mem_nodup d ln slot (hWF.2 (p, d) (alGet_mem _ _ _ hd)) hmem
      have hig : idxGet (collectSnapshotEntries s) p ln = some slot := by
        rw [idxGet, hd, Option.some_bind]
        exact hds
      obtain ⟨suf, hsuf⟩ := slotSpec_collect s p ln slot hig
      rw [collect_snapshot_lines] at hsuf
      have hmemL : SnapshotLine.entry ⟨p, ln, suf⟩ ∈ parse_snapshot_lines s := by
        have := List.get?_eq_some.mp hsuf
        obtain ⟨hlt, hget⟩ := this
        have : (parse_snapshot_lines s).get ⟨slot, by simpa using hlt⟩ = .entry ⟨p, ln, suf⟩ := by
          have hmap := hget
          rw [List.get_map] at hmap
          exact Option.some.inj hmap
        rw [← this]
        exact List.get_mem _ _ _
      exact h ⟨p, ln, suf⟩ hmemL rfl
  refine ⟨hidx, ?_⟩
  intro ln
  refine get_entry_none _ _ _ ?_
  rw [idxGet, hidx, Option.none_bind]

/-! ## Decimal digit lemmas: `toString n` on naturals -/

theorem digitChar_facts : ∀ k < 10, (Nat.digitChar k).isDigit = true ∧
    isPySpace (Nat.digitChar k) = false ∧ ¬Nat.digitChar k = '-' ∧ ¬Nat.digitChar k = '+' ∧
    ¬Nat.digitChar k = ',' ∧ ¬Nat.digitChar k = ':' ∧ ¬Nat.digitChar k = '\n' ∧
    (Nat.digitChar k).toNat - 48 = k := by decide

theorem natDigits_eq (n : Nat) : natDigits n =
    if n < 10 then [Nat.digitChar n] else natDigits (n / 10) ++ [Nat.digitChar (n % 10)] := by
  rw [natDigits]
  by_cases h : n < 10 <;> simp [h]

theorem natDigits_ne_nil (n : Nat) : natDigits n ≠ [] := by
  rw [natDigits_eq]
  by_cases h : n < 10 <;> simp [h]

theorem natDigits_mem (n : Nat) : ∀ c ∈ natDigits n, ∃ k, k < 10 ∧ c = Nat.digitChar k := by
  induction n using Nat.strong_induction_on with
  | _ n ih =>
    rw [natDigits_eq]
    by_cases h : n < 10
    · rw [if_pos h]
      intro c hc
      simp only [List.mem_singleton] at hc
      exact ⟨n, h, hc⟩
    · rw [if_neg h]
      intro c hc
      rcases List.mem_append.mp hc with hc | hc
      · exact ih (n / 10) (Nat.div_lt_self (by omega) (by omega)) c hc
      · simp only [List.mem_singleton] at hc
        exact ⟨n % 10, Nat.mod_lt _ (by omega), hc⟩

theorem toDigitsCore_eq : ∀ (fuel n : Nat) (ds : List Char), n < fuel →
    Nat.toDigitsCore 10 fuel n ds = natDigits n ++ ds := by
  intro fuel
  induction fuel with
  | zero =>
    intro n ds h
    omega
  | succ f ih =>
    intro n ds h
    rw [Nat.toDigitsCore]
    by_cases h10 : n / 10 = 0
    · rw [if_pos h10, natDigits_eq, if_pos (by omega), Nat.mod_eq_of_lt (by omega)]
      rfl
    · rw [if_neg h10, ih (n / 10) _ (by omega), natDigits_eq n, if_neg (by omega),
        List.append_assoc]
      rfl

theorem repr_data (n : Nat) : (Nat.repr n).data = natDigits n := by
  show (Nat.toDigits 10 n).asString.data = natDigits n
  rw [Nat.toDigits, toDigitsCore_eq (n + 1) n [] (by omega), List.append_nil]
  rfl

theorem toString_nat_data (n : Nat) : (toString n).data = natDigits n := repr_data n

theorem toString_int_ofNat (n : Nat) : toString ((n : Nat) : Int) = toString n := rfl

theorem digitsToNat_append_singleton (l : List Char) (c : Char) :
    digitsToNat (l ++ [c]) = 10 * digitsToNat l + (c.toNat - 48) := by
  rw [digitsToNat, digitsToNat, List.foldl_append]
  rfl

theorem digitsToNat_natDigits (n : Nat) : digitsToNat (natDigits n) = n := by
  induction n using Nat.strong_induction_on with
  | _ n ih =>
    rw [natDigits_eq]
    by_cases h : n < 10
    · rw [if_pos h]
      have hfact := (digitChar_facts n h).2.2.2.2.2.2.2
      show 10 * 0 + ((Nat.digitChar n).toNat - 48) = n
      omega
    · rw [if_neg h, digitsToNat_append_singleton,
        ih (n / 10) (Nat.div_lt_self (by omega) (by omega))]
      have hfact := (digitChar_facts (n % 10) (Nat.mod_lt _ (by omega))).2.2.2.2.2.2.2
      omega

theorem dropWhile_eq_self_of_all {α : Type} (p : α → Bool) (l : List α)
    (h : ∀ c ∈ l, p c = false) : l.dropWhile p = l := by
  cases l with
  | nil => rfl
  | cons a rest =>
    rw [List.dropWhile_cons, h a (List.mem_cons_self _ _)]
    simp

theorem takeWhile_append_all {α : Type} (p : α → Bool) (l1 l2 : List α)
    (h : ∀ c ∈ l1, p c = true) : (l1 ++ l2).takeWhile p = l1 ++ l2.takeWhile p := by
  induction l1 with
  | nil => simp
  | cons a rest ih =>
    rw [List.cons_append, List.takeWhile_cons, h a (List.mem_cons_self _ _)]
    show a :: (rest ++ l2).takeWhile p = a :: (rest ++ l2.takeWhile p)
    rw [ih (fun c hc => h c (List.mem_cons_of_mem _ hc))]

theorem takeWhile_nil_of_head_false {α : Type} (p : α → Bool) (a : α) (l : List α)
    (h : p a = false) : (a :: l).takeWhile p = [] := by
  rw [List.takeWhile_cons, h]
  rfl

theorem dropWhile_append_all {α : Type} (p : α → Bool) (l1 l2 : List α)
    (h : ∀ c ∈ l1, p c = true) : (l1 ++ l2).dropWhile p = l2.dropWhile p := by
  induction l1 with
  | nil => simp
  | cons a rest ih =>
    rw [List.cons_append, List.dropWhile_cons, h a (List.mem_cons_self _ _)]
    simp only [if_true]
    exact ih (fun c hc => h c (List.mem_cons_of_mem _ hc))

/-- `int(s)` on a pure digit string returns its value. -/
theorem pyInt_digits (cs : List Char) (hne : cs ≠ [])
    (h : ∀ c ∈ cs, ∃ k, k < 10 ∧ c = Nat.digitChar k) :
    pyInt cs.asString = .ok ((digitsToNat cs : Nat) : Int) := by
  have hdata : (cs.asString).data = cs := rfl
  have hnospace : ∀ c ∈ cs, isPySpace c = false := by
    intro c hc
    obtain ⟨k, hk, hck⟩ := h c hc
    rw [hck]
    exact ((digitChar_facts k hk).2.1)
  have hstrip : ((cs.dropWhile isPySpace).reverse.dropWhile isPySpace).reverse = cs := by
    rw [dropWhile_eq_self_of_all _ _ hnospace,
      dropWhile_eq_self_of_all _ _ (by intro c hc; exact hnospace c (List.mem_reverse.mp hc)),
      List.reverse_reverse]
  rw [pyInt]
  simp only [hdata, hstrip]
  cases hcs : cs with
  | nil => exact absurd hcs hne
  | cons c0 r =>
    obtain ⟨k0, hk0, hck0⟩ := h c0 (by rw [hcs]; exact List.mem_cons_self _ _)
    have hnm : ¬c0 = '-' := by rw [hck0]; exact (digitChar_facts k0 hk0).2.2.1
    have hnp : ¬c0 = '+' := by rw [hck0]; exact (digitChar_facts k0 hk0).2.2.2.1
    dsimp only
    rw [if_neg hnm, if_neg hnp]
    have hall : (c0 :: r).all Char.isDigit = true := by
      rw [List.all_eq_true]
      intro c hc
      obtain ⟨k, hk, hck⟩ := h c (by rw [hcs]; exact hc)
      rw [hck]
      exact (digitChar_facts k hk).1
    rw [if_pos ⟨by simp, hall⟩, one_mul]

/-- `parse_diff_current_initial_line_number` on a well-formed header prefix:
the digits after `@@ -` and before the comma parse to their value. -/
theorem parse_initial_of_canonical (n : Nat) (rest : String) :
    parse_diff_current_initial_line_number ("@@ -" ++ toString n ++ "," ++ rest) =
      .ok ((n : Nat) : Int) := by
  rw [parse_diff_current_initial_line_number]
  have hdata : ("@@ -" ++ toString n ++ "," ++ rest).data
      = ['@', '@', ' ', '-'] ++ (natDigits n ++ ',' :: rest.data) := by
    rw [String.data_append, String.data_append, String.data_append, toString_nat_data]
    simp
  rw [hdata, List.drop_append_of_le_length (by simp),
    show List.drop 4 ['@', '@', ' ', '-'] = [] from rfl, List.nil_append]
  have htake : (natDigits n ++ ',' :: rest.data).takeWhile (fun c => !(c == ',')) = natDigits n := by
    rw [takeWhile_append_all _ _ _ (by
      intro c hc
      obtain ⟨k, hk, hck⟩ := natDigits_mem n c hc
      rw [hck]
      have := (digitChar_facts k hk).2.2.2.2.1
      simpa using this)]
    rw [takeWhile_nil_of_head_false _ _ _ (by simp), List.append_nil]
  rw [htake]
  have := pyInt_digits (natDigits n) (natDigits_ne_nil n) (natDigits_mem n)
  rw [digitsToNat_natDigits] at this
  exact this

/-! ## Regex-match characterization: `findSplit` -/

theorem asString_data (s : String) : s.data.asString = s := by
  cases s
  rfl

theorem takeWhile_eq_self_of_all {α : Type} (p : α → Bool) (l : List α)
    (h : ∀ c ∈ l, p c = true) : l.takeWhile p = l := by
  induction l with
  | nil => rfl
  | cons a rest ih =>
    rw [List.takeWhile_cons, h a (List.mem_cons_self _ _)]
    show a :: rest.takeWhile p = a :: rest
    rw [ih (fun c hc => h c (List.mem_cons_of_mem _ hc))]

theorem drop_middle {α : Type} (l1 : List α) (x : α) (l2 : List α) :
    (l1 ++ x :: l2).drop (l1.length + 1) = l2 := by
  induction l1 with
  | nil => rfl
  | cons a rest ih =>
    rw [List.cons_append, List.length_cons]
    exact ih

theorem find_reverse_range (p : Nat → Bool) : ∀ (n i0 : Nat), i0 < n → p i0 = true →
    (∀ j, i0 < j → j < n → p j = false) →
    (List.range n).reverse.find? p = some i0 := by
  intro n
  induction n with
  | zero =>
    intro i0 h
    omega
  | succ m ih =>
    intro i0 hlt hp hmax
    rw [List.range_succ, List.reverse_append, List.reverse_singleton, List.singleton_append]
    by_cases him : i0 = m
    · subst him
      exact List.find?_cons_of_pos _ hp
    · have hpm : p m = false := hmax m (by omega) (by omega)
      rw [List.find?_cons_of_neg _ (by rw [hpm]; exact Bool.false_ne_true)]
      exact ih i0 (by omega) hp (fun j hj1 hj2 => hmax j hj1 (by omega))

/-- The greedy `(.+)` of `^(.+):(\d+)(.*)` splits at the last valid colon. -/
theorem findSplit_eq (cs : List Char) (i0 : Nat) (hi : i0 < cs.length)
    (hp : splitOk cs i0 = true)
    (hmax : ∀ j, i0 < j → j < cs.length → splitOk cs j = false) :
    findSplit cs = some i0 :=
  find_reverse_range (splitOk cs) cs.length i0 hi hp hmax

theorem splitOk_of_tail (cs S : List Char) (j u : Nat)
    (h1 : cs.get? j = S.get? u) (h2 : cs.get? (j + 1) = S.get? (u + 1))
    (h3 : colonDigitAt S u = false) : splitOk cs j = false := by
  rw [splitOk, h1, h2, Bool.and_assoc]
  rw [colonDigitAt] at h3
  rw [h3, Bool.and_false]

/-- Parsing a canonically formatted snapshot entry line recovers its parts:
the path is nonempty, already in `PurePath` normal form and newline-free, the
line number prints without sign or leading zeros (`toString n`), and the
suffix is newline-free, does not start with a digit and contains no
colon-digit pair for the greedy match to prefer. -/
theorem parse_canonical_entry (p : String) (n : Nat) (suf : String)
    (hpne : p.data ≠ []) (hpnorm : purePathNorm p = p)
    (hpnl : '\n' ∉ p.data) (hsnl : '\n' ∉ suf.data)
    (hhead : ∀ c ∈ suf.data.head?, c.isDigit = false)
    (hnosplit : noColonDigit suf.data = true) :
    parse_snapshot_line (p ++ ":" ++ toString n ++ suf) =
      .entry ⟨p, ((n : Nat) : Int), suf⟩ := by
  have hdata : (p ++ ":" ++ toString n ++ suf).data
      = p.data ++ ':' :: (natDigits n ++ suf.data) := by
    rw [String.data_append, String.data_append, String.data_append, toString_nat_data]
    simp
  have hDdig : ∀ c ∈ natDigits n, c.isDigit = true := by
    intro c hc
    obtain ⟨k, hk, hck⟩ := natDigits_mem n c hc
    rw [hck]
    exact (digitChar_facts k hk).1
  have hnonl : ∀ c ∈ p.data ++ ':' :: (natDigits n ++ suf.data), (c == '\n') = false := by
    intro c hc
    rcases List.mem_append.mp hc with hc | hc
    · simpa using fun hcn : c = '\n' => hpnl (hcn ▸ hc)
    · rcases List.mem_cons.mp hc with hc | hc
      · rw [hc]
        rfl
      · rcases List.mem_append.mp hc with hc | hc
        · obtain ⟨k, hk, hck⟩ := natDigits_mem n c hc
          rw [hck]
          simpa using (digitChar_facts k hk).2.2.2.2.2.2.1
        · simpa using fun hcn : c = '\n' => hsnl (hcn ▸ hc)
  have hrstrip : pyRstripNl (p ++ ":" ++ toString n ++ suf) = p ++ ":" ++ toString n ++ suf := by
    rw [pyRstripNl, hdata,
      dropWhile_eq_self_of_all _ _ (fun c hc => hnonl c (List.mem_reverse.mp hc)),
      List.reverse_reverse, ← hdata, asString_data]
  rw [parse_snapshot_line, hrstrip, hdata,
    takeWhile_eq_self_of_all _ _ (by
      intro c hc
      rw [hnonl c hc]
      rfl)]
  set cs := p.data ++ ':' :: (natDigits n ++ suf.data) with hcs
  have hlen : cs.length = p.data.length + 1 + (natDigits n).length + suf.data.length := by
    rw [hcs]
    simp only [List.length_append, List.length_cons]
    omega
  have hcolon : cs.get? p.data.length = some ':' := get_middle _ _ _
  have hafter : ∀ k, cs.get? (p.data.length + 1 + k) = (natDigits n ++ suf.data).get? k := by
    intro k
    rw [hcs, List.get?_append_right (by omega)]
    have : p.data.length + 1 + k - p.data.length = k + 1 := by omega
    rw [this]
    rfl
  obtain ⟨d0, D', hD⟩ : ∃ d0 D', natDigits n = d0 :: D' := by
    cases hD : natDigits n with
    | nil => exact absurd hD (natDigits_ne_nil n)
    | cons d0 D' => exact ⟨d0, D', rfl⟩
  have hplen : 0 < p.data.length := List.length_pos.mpr hpne
  have hsplit : splitOk cs p.data.length = true := by
    have h0 : cs.get? (p.data.length + 1) = some d0 := by
      have := hafter 0
      rw [Nat.add_zero] at this
      rw [this, hD]
      rfl
    rw [splitOk, hcolon, h0]
    show ((decide (1 ≤ p.data.length) && (some ':' == some ':')) && d0.isDigit) = true
    rw [hDdig d0 (by rw [hD]; exact List.mem_cons_self _ _),
      decide_eq_true (by omega : 1 ≤ p.data.length)]
    rfl
  have hmax : ∀ j, p.data.length < j → j < cs.length → splitOk cs j = false := by
    intro j hj1 hj2
    obtain ⟨m, hm⟩ : ∃ m, j = p.data.length + 1 + m := ⟨j - p.data.length - 1, by omega⟩
    subst hm
    by_cases hmD : m < (natDigits n).length
    · have hgj : cs.get? (p.data.length + 1 + m) = some ((natDigits n).get ⟨m, hmD⟩) := by
        rw [hafter m, List.get?_append hmD, List.get?_eq_get hmD]
      have hne : ¬((natDigits n).get ⟨m, hmD⟩ = ':') := by
        obtain ⟨k, hk, hck⟩ := natDigits_mem n _ (List.get_mem (natDigits n) m hmD)
        rw [hck]
        exact (digitChar_facts k hk).2.2.2.2.2.1
      rw [splitOk, hgj]
      have hA : ((some ((natDigits n).get ⟨m, hmD⟩) : Option Char) == some ':') = false := by
        simpa using hne
      rw [hA, Bool.and_false, Bool.false_and]
    · set u := m - (natDigits n).length with hu
      have hgu : cs.get? (p.data.length + 1 + m) = suf.data.get? u := by
        rw [hafter m, List.get?_append_right (by omega)]
      have hgu1 : cs.get? (p.data.length + 1 + m + 1) = suf.data.get? (u + 1) := by
        have : p.data.length + 1 + m + 1 = p.data.length + 1 + (m + 1) := by omega
        rw [this, hafter (m + 1), List.get?_append_right (by omega)]
        have : m + 1 - (natDigits n).length = u + 1 := by omega
        rw [this]
      have hucd : colonDigitAt suf.data u = false := by
        have hult : u < suf.data.length := by
          rw [hlen] at hj2
          omega
        rw [noColonDigit, List.all_eq_true] at hnosplit
        have := hnosplit u (List.mem_range.mpr hult)
        simpa using this
      exact splitOk_of_tail cs suf.data _ u hgu hgu1 hucd
  rw [findSplit_eq cs p.data.length (by omega) hsplit hmax]
  have htake : cs.take p.data.length = p.data := by
    rw [hcs]
    exact List.take_left _ _
  have hdrop : cs.drop (p.data.length + 1) = natDigits n ++ suf.data := drop_middle _ _ _
  have hds : (natDigits n ++ suf.data).takeWhile Char.isDigit = natDigits n := by
    rw [takeWhile_append_all _ _ _ hDdig]
    cases hS : suf.data with
    | nil => simp
    | cons c0 S' =>
      rw [takeWhile_nil_of_head_false _ _ _ (by
        refine hhead c0 ?_
        rw [hS]
        rfl), List.append_nil]
  have hrest : (natDigits n ++ suf.data).dropWhile Char.isDigit = suf.data := by
    rw [dropWhile_append_all _ _ _ hDdig]
    cases hS : suf.data with
    | nil => rfl
    | cons c0 S' =>
      rw [List.dropWhile_cons]
      have : c0.isDigit = false := by
        refine hhead c0 ?_
        rw [hS]
        rfl
      rw [this]
      simp
  dsimp only
  rw [htake, hdrop, hds, hrest, digitsToNat_natDigits, asString_data, hpnorm, asString_data]

/-- A line without the `path:digits` shape (and no trailing newline to strip)
parses to an opaque line holding exactly the original text. -/
theorem parse_nonmatching (l : String) (hm : matchesEntryShape l = false)
    (hr : pyRstripNl l = l) : parse_snapshot_line l = .text l := by
  rw [matchesEntryShape, hr] at hm
  rw [parse_snapshot_line, hr]
  cases hf : findSplit (l.data.takeWhile (fun c => !(c == '\n'))) with
  | none => rfl
  | some i =>
    rw [hf] at hm
    cases hm

/-- Formatting after parsing reproduces a canonical entry line verbatim. -/
theorem format_parse_canonical (p : String) (n : Nat) (suf : String)
    (hpne : p.data ≠ []) (hpnorm : purePathNorm p = p)
    (hpnl : '\n' ∉ p.data) (hsnl : '\n' ∉ suf.data)
    (hhead : ∀ c ∈ suf.data.head?, c.isDigit = false)
    (hnosplit : noColonDigit suf.data = true) :
    format_snapshot_line (parse_snapshot_line (p ++ ":" ++ toString n ++ suf)) =
      p ++ ":" ++ toString n ++ suf := by
  rw [parse_canonical_entry p n suf hpne hpnorm hpnl hsnl hhead hnosplit,
    format_snapshot_line]
  rfl

/-! ## Net offsets for pure-insertion / pure-deletion diffs -/

theorem net_sum_no_removed (hunks : List GitDiffHunk)
    (h : ∀ h2 ∈ hunks, countRemoved h2.diffs = 0) :
    (hunks.map (fun h2 => (countAdded h2.diffs : Int) - countRemoved h2.diffs)).sum
      = (((hunks.map (fun h2 => countAdded h2.diffs)).sum : Nat) : Int) := by
  induction hunks with
  | nil => rfl
  | cons a rest ih =>
    rw [List.map_cons, List.sum_cons, List.map_cons, List.sum_cons,
      h a (List.mem_cons_self _ _), ih (fun h2 hm => h h2 (List.mem_cons_of_mem _ hm))]
    push_cast
    ring

theorem net_sum_no_added (hunks : List GitDiffHunk)
    (h : ∀ h2 ∈ hunks, countAdded h2.diffs = 0) :
    (hunks.map (fun h2 => (countAdded h2.diffs : Int) - countRemoved h2.diffs)).sum
      = -(((hunks.map (fun h2 => countRemoved h2.diffs)).sum : Nat) : Int) := by
  induction hunks with
  | nil => rfl
  | cons a rest ih =>
    rw [List.map_cons, List.sum_cons, List.map_cons, List.sum_cons,
      h a (List.mem_cons_self _ _), ih (fun h2 hm => h h2 (List.mem_cons_of_mem _ hm))]
    push_cast
    ring

/-- End-to-end relocation of a snapshot with a single tracked entry by a diff
whose payload respects the position discipline of `payloadPos`: the entry's
line number moves by the diff's net line-count change. -/
theorem adjust_single_entry_main (pre post : List String) (eline P suffix : String) (L : Int)
    (d : List String) (hunks : List GitDiffHunk)
    (hpre : ∀ l ∈ pre, parse_snapshot_line l = .text l)
    (hpost : ∀ l ∈ post, parse_snapshot_line l = .text l)
    (hent : parse_snapshot_line eline = .entry ⟨P, L, suffix⟩)
    (hparse : parse_git_diff_hunks d = .ok hunks)
    (hall : ∀ h ∈ hunks, h.path_minus = P ∧ payloadPos L h.initial_line_number h.diffs = true)
    (hL : 1 ≤ L) :
    adjust_line_numbers d (pre ++ eline :: post) =
      .ok (pre ++ format_snapshot_line (.entry ⟨P,
        L + (hunks.map (fun h => (countAdded h.diffs : Int) - countRemoved h.diffs)).sum,
        suffix⟩) :: post) := by
  have hcol := collect_shape pre post eline P suffix L hpre hpost hent
  have hbelow : ∀ pos : Int, pos < L →
      get_entry (collectSnapshotEntries (pre ++ eline :: post)) P pos = none := by
    intro pos hpos
    refine get_entry_none _ _ _ ?_
    rw [hcol]
    show (alGet [(P, [(L, pre.length)])] P).bind (fun d2 => alGet d2 pos) = none
    rw [show alGet [(P, [(L, pre.length)])] P = some [(L, pre.length)] from by
      simp [alGet], Option.some_bind, alGet, if_neg (by omega : ¬(L = pos))]
    rfl
  obtain ⟨t', hwalk, hT⟩ := walk_hunks_c12 P L hunks []
    (collectSnapshotEntries (pre ++ eline :: post)) 0 hall hbelow (Or.inl ⟨rfl, rfl⟩)
  rw [zero_add] at hT
  rw [adjust_line_numbers_eq, hparse]
  dsimp only
  rw [hwalk]
  dsimp only
  have hn : (pre.map (fun l => some (SnapshotLine.text l)) ++
      some (.entry ⟨P, L, suffix⟩) :: post.map (fun l => some (SnapshotLine.text l))).get?
        pre.length = some (some (.entry ⟨P, L, suffix⟩)) := by
    have := get_middle (pre.map (fun l => some (SnapshotLine.text l)))
      (some (SnapshotLine.entry ⟨P, L, suffix⟩)) (post.map (fun l => some (SnapshotLine.text l)))
    rw [List.length_map] at this
    exact this
  rcases hT with ⟨ht', hK0⟩ | ⟨l, ht', hlne, hlsum, hlz⟩
  · subst ht'
    rw [adjust_entry_nil]
    dsimp only
    rw [hcol, hK0, add_zero,
      to_formatted_shape pre post ⟨P, L, suffix⟩ [(P, [(L, pre.length)])]]
  · subst ht'
    have hacc : accumulated_getitem (pyAccumulate l) L = .ok l.sum :=
      accumulated_getitem_total l L hlne hL hlz
    rw [hcol, adjust_singleton P L l pre.length _ suffix hn hacc]
    dsimp only
    have hset := set_middle (pre.map (fun l2 => some (SnapshotLine.text l2)))
      (some (SnapshotLine.entry ⟨P, L, suffix⟩))
      (some (SnapshotLine.entry ⟨P, L + l.sum, suffix⟩))
      (post.map (fun l2 => some (SnapshotLine.text l2)))
    rw [List.length_map] at hset
    rw [hset, hlsum,
      to_formatted_shape pre post ⟨P, L + (hunks.map
        (fun h => (countAdded h.diffs : Int) - countRemoved h.diffs)).sum, suffix⟩
        [(P, [(L, pre.length)])]]

/-- Successful reconciliation decomposes into its three stages. -/
theorem adjust_pipeline (d s out : List String) (hunks : List GitDiffHunk)
    (hparse : parse_git_diff_hunks d = .ok hunks)
    (hok : adjust_line_numbers d s = .ok out) :
    ∃ t1 c1 c2,
      processHunks [] (collectSnapshotEntries s) hunks = .ok (t1, c1) ∧
      adjust_entry_line_numbers c1 t1 = .ok c2 ∧
      out = to_formatted_snapshot_lines c2 := by
  rw [adjust_line_numbers_eq, hparse] at hok
  dsimp only at hok
  cases hph : processHunks [] (collectSnapshotEntries s) hunks with
  | error e =>
    rw [hph] at hok
    cases hok
  | ok r =>
    obtain ⟨t1, c1⟩ := r
    rw [hph] at hok
    dsimp only at hok
    cases hae : adjust_entry_line_numbers c1 t1 with
    | error e =>
      rw [hae] at hok
      cases hok
    | ok c2 =>
      rw [hae] at hok
      dsimp only at hok
      cases hok
      exact ⟨t1, c1, c2, rfl, hae, rfl⟩

/-! ## The claim theorems -/

/-- C1: pure insertion shifts downstream entries.  For a snapshot whose only
tracked entry is for path `P` at line `L` (every other line is opaque) and a
diff whose hunks all name `P`, only add or keep lines, and whose payload
positions stay at or above 1 with every insertion strictly above `L`
(`payloadPos`), `adjust_line_numbers` reproduces the snapshot with that
entry's line number moved to `L + k`, `k` the total number of added lines,
path and suffix unchanged. -/
theorem claim_C1 (pre post : List String) (eline P suffix : String) (L : Int)
    (d : List String) (hunks : List GitDiffHunk) (k : Nat)
    (hpre : ∀ l ∈ pre, parse_snapshot_line l = .text l)
    (hpost : ∀ l ∈ post, parse_snapshot_line l = .text l)
    (hent : parse_snapshot_line eline = .entry ⟨P, L, suffix⟩)
    (hparse : parse_git_diff_hunks d = .ok hunks)
    (hall : ∀ h ∈ hunks, h.path_minus = P ∧ payloadPos L h.initial_line_number h.diffs = true
      ∧ countRemoved h.diffs = 0)
    (hk : (hunks.map (fun h => countAdded h.diffs)).sum = k)
    (hL : 1 ≤ L) :
    adjust_line_numbers d (pre ++ eline :: post) =
      .ok (pre ++ format_snapshot_line (.entry ⟨P, L + (k : Int), suffix⟩) :: post) := by
  have h := adjust_single_entry_main pre post eline P suffix L d hunks hpre hpost hent hparse
    (fun h2 hm => ⟨(hall h2 hm).1, (hall h2 hm).2.1⟩) hL
  rw [net_sum_no_removed hunks (fun h2 hm => (hall h2 hm).2.2), hk] at h
  exact h

/-- C2: pure deletion shifts upstream.  Analogous to C1 with only removed or
kept lines, every removal strictly above `L` (so never the anchor itself):
the entry moves to `L − k`, `k` the total number of removed lines.  The
second conjunct is the saturation rule of `AccumulatedOffsets.__getitem__`:
a line past the recorded range receives the final cumulative total. -/
theorem claim_C2 (pre post : List String) (eline P suffix : String) (L : Int)
    (d : List String) (hunks : List GitDiffHunk) (k : Nat)
    (hpre : ∀ l ∈ pre, parse_snapshot_line l = .text l)
    (hpost : ∀ l ∈ post, parse_snapshot_line l = .text l)
    (hent : parse_snapshot_line eline = .entry ⟨P, L, suffix⟩)
    (hparse : parse_git_diff_hunks d = .ok hunks)
    (hall : ∀ h ∈ hunks, h.path_minus = P ∧ payloadPos L h.initial_line_number h.diffs = true
      ∧ countAdded h.diffs = 0)
    (hk : (hunks.map (fun h => countRemoved h.diffs)).sum = k)
    (hL : 1 ≤ L) :
    adjust_line_numbers d (pre ++ eline :: post) =
      .ok (pre ++ format_snapshot_line (.entry ⟨P, L - (k : Int), suffix⟩) :: post) ∧
    (∀ (offs : List Int) (ln : Int), offs ≠ [] → (offs.length : Int) ≤ ln - 1 →
      accumulated_getitem (pyAccumulate offs) ln = .ok offs.sum) := by
  constructor
  · have h := adjust_single_entry_main pre post eline P suffix L d hunks hpre hpost hent hparse
      (fun h2 hm => ⟨(hall h2 hm).1, (hall h2 hm).2.1⟩) hL
    rw [net_sum_no_added hunks (fun h2 hm => (hall h2 hm).2.2), hk] at h
    rw [sub_eq_add_neg]
    exact h
  · intro offs ln h1 h2
    exact accumulated_getitem_saturates offs ln h1 h2

/-- C5 as stated is false: a hunk header without the comma-delimited count
makes `parse_diff_current_initial_line_number` raise `ValueError` instead of
returning the leading integer (`int(" 5 +6 @@")` is not a valid literal). -/
theorem claim_C5_counterexample :
    parse_diff_current_initial_line_number "@@ -5 +6 @@" =
      .error (.valueError "invalid literal for int with base 10: 5 +6 @@") := by
  decide

/-- C5, amended: on headers that do carry the comma-delimited count the
function returns the integer between `@@ -` and the comma. -/
theorem claim_C5 (n : Nat) (rest : String) :
    parse_diff_current_initial_line_number ("@@ -" ++ toString n ++ "," ++ rest) =
      .ok ((n : Nat) : Int) :=
  parse_initial_of_canonical n rest

/-- C6 as stated is false: parsing keeps only the numeric value of the line
number, so leading zeros are lost and `a:007:m` re-serializes as `a:7:m`. -/
theorem claim_C6_counterexample :
    format_snapshot_line (parse_snapshot_line "a:007:m") ≠ "a:007:m" := by
  decide

/-- C6, amended: re-serializing after parsing reproduces the line
byte-for-byte for canonical entry lines — nonempty `PurePath`-normal
newline-free path, line number printed without sign or leading zeros, and a
newline-free suffix that does not begin with a digit and contains no
colon-digit pair — and for every non-matching line with no trailing newline
(those come back verbatim as opaque lines). -/
theorem claim_C6 :
    (∀ (p : String) (n : Nat) (suf : String),
      p.data ≠ [] → purePathNorm p = p → '\n' ∉ p.data → '\n' ∉ suf.data →
      (∀ c ∈ suf.data.head?, c.isDigit = false) → noColonDigit suf.data = true →
      format_snapshot_line (parse_snapshot_line (p ++ ":" ++ toString n ++ suf)) =
        p ++ ":" ++ toString n ++ suf) ∧
    (∀ l : String, matchesEntryShape l = false → pyRstripNl l = l →
      format_snapshot_line (parse_snapshot_line l) = l) := by
  constructor
  · intro p n suf h1 h2 h3 h4 h5 h6
    exact format_parse_canonical p n suf h1 h2 h3 h4 h5 h6
  · intro l h1 h2
    rw [parse_nonmatching l h1 h2, format_snapshot_line]

/-- C9: `adjust_line_numbers` is not total over well-formed diffs.  A hunk
header `@@ -0,0 +1,1 @@` (as git emits for newly created files) whose first
payload line is an addition makes `add_offset_of` compute list index −1 on
the path's empty offset list, raising `IndexError` and aborting the
reconciliation; the second conjunct isolates the failing
`AdjustmentTable.add_offset_of` call (path row empty, line number 0). -/
theorem claim_C9 :
    adjust_line_numbers ["--- a/f", "+++ b/f", "@@ -0,0 +1,1 @@", "+x"] [] =
      .error .indexError ∧
    add_offset_of [] "f" 0 1 = .error .indexError := by
  constructor
  · decide
  · decide

/-- C3: deleting the anchor line removes the entry.  If a hunk for path `P`
marks old line `L` as removed and the snapshot index tracks an entry for
`(P, L)` at slot `s0`, then after a successful reconciliation that slot is
tombstoned (so `to_formatted_snapshot_lines` drops the entry from the
output), while every entry of `P` still indexed after the walk is relocated
by its accumulated offset. -/
theorem claim_C3 (s d out : List String) (P : String) (L : Int)
    (hunks : List GitDiffHunk) (s0 : Nat)
    (hparse : parse_git_diff_hunks d = .ok hunks)
    (hidx : idxGet (collectSnapshotEntries s) P L = some s0)
    (hev : ∃ h ∈ hunks, h.path_minus = P ∧ ∃ i, i < h.diffs.length ∧
      isRemovedLine (h.diffs.getD i .context) = true ∧
      oldLineAt h.initial_line_number h.diffs i = L)
    (hok : adjust_line_numbers d s = .ok out) :
    ∃ t1 c1 c2,
      processHunks [] (collectSnapshotEntries s) hunks = .ok (t1, c1) ∧
      adjust_entry_line_numbers c1 t1 = .ok c2 ∧
      out = to_formatted_snapshot_lines c2 ∧
      c2.snapshot_lines.get? s0 = some none ∧
      (∀ ln slot row, idxGet c1 P ln = some slot → alGet t1 P = some row →
        ∃ suf off, accumulated_getitem (pyAccumulate row) ln = .ok off ∧
          c1.snapshot_lines.get? slot = some (some (.entry ⟨P, ln, suf⟩)) ∧
          c2.snapshot_lines.get? slot = some (some (.entry ⟨P, ln + off, suf⟩))) := by
  obtain ⟨t1, c1, c2, hph, hae, hout⟩ := adjust_pipeline d s out hunks hparse hok
  have hs0 := slotSpec_collect s
  have hWF0 := keysWF_collect s
  have hc1tomb : c1.snapshot_lines.get? s0 = some none :=
    processHunks_hits P L s0 t1 c1 hunks [] (collectSnapshotEntries s) hph hs0 hWF0
      (Or.inl hidx) hev
  obtain ⟨hs1, hWF1, -, -, -, -, -⟩ :=
    processHunks_pres t1 c1 hunks [] (collectSnapshotEntries s) hph hs0 hWF0
  have htnd : (t1.map Prod.fst).Nodup :=
    (processHunks_table hunks [] (collectSnapshotEntries s) t1 c1 hph).1 List.nodup_nil
  obtain ⟨-, hMain, -, -, hNone, -, -⟩ := adjust_entry_spec c1 t1 c2 hae hs1 hWF1 htnd
  refine ⟨t1, c1, c2, hph, hae, hout, hNone s0 hc1tomb, ?_⟩
  intro ln slot row hidx1 hrow
  exact hMain P ln slot row hidx1 hrow

/-- C8 as stated is false at the byte level: an entry whose path is not in
`PurePath` normal form is re-serialized with the normalized path even when
the diff is empty, so it is not byte-identical before and after. -/
theorem claim_C8_counterexample :
    adjust_line_numbers [] ["./b:7:y"] = .ok ["b:7:y"] ∧
    adjust_line_numbers [] ["./b:7:y"] ≠ .ok ["./b:7:y"] := by
  constructor
  · decide
  · decide

/-- C8, amended (frame property): after a successful reconciliation the
opaque snapshot lines survive as exactly the opaque lines of the result, in
order, and form a sublist of the printed output; and every tracked entry
whose path is named by no hunk keeps its slot contents (path, line number
and suffix) bit-for-bit at the `SnapshotLine` level. -/
theorem claim_C8 (s d out : List String) (hunks : List GitDiffHunk)
    (hparse : parse_git_diff_hunks d = .ok hunks)
    (hok : adjust_line_numbers d s = .ok out) :
    ∃ t1 c1 c2,
      processHunks [] (collectSnapshotEntries s) hunks = .ok (t1, c1) ∧
      adjust_entry_line_numbers c1 t1 = .ok c2 ∧
      out = to_formatted_snapshot_lines c2 ∧
      filterTexts c2.snapshot_lines = filterTexts ((parse_snapshot_lines s).map some) ∧
      List.Sublist (filterTexts ((parse_snapshot_lines s).map some)) out ∧
      (∀ p, (∀ h ∈ hunks, h.path_minus ≠ p) →
        ∀ ln slot, idxGet (collectSnapshotEntries s) p ln = some slot →
          c2.snapshot_lines.get? slot =
            (collectSnapshotEntries s).snapshot_lines.get? slot) := by
  obtain ⟨t1, c1, c2, hph, hae, hout⟩ := adjust_pipeline d s out hunks hparse hok
  have hs0 := slotSpec_collect s
  have hWF0 := keysWF_collect s
  obtain ⟨hs1, hWF1, hSub1, -, -, hTexts1, -⟩ :=
    processHunks_pres t1 c1 hunks [] (collectSnapshotEntries s) hph hs0 hWF0
  have htnd : (t1.map Prod.fst).Nodup :=
    (processHunks_table hunks [] (collectSnapshotEntries s) t1 c1 hph).1 List.nodup_nil
  obtain ⟨-, -, hNoRow, -, -, hTexts2, -⟩ := adjust_entry_spec c1 t1 c2 hae hs1 hWF1 htnd
  have htexts : filterTexts c2.snapshot_lines = filterTexts ((parse_snapshot_lines s).map some) := by
    rw [hTexts2, hTexts1, collect_snapshot_lines]
  refine ⟨t1, c1, c2, hph, hae, hout, htexts, ?_, ?_⟩
  · rw [← htexts, hout]
    exact filterTexts_sublist c2.snapshot_lines
  · intro p hnot ln slot hidx
    obtain ⟨hI, hLn⟩ := processHunks_otherPath p hunks [] (collectSnapshotEntries s) t1 c1
      hph hs0 hWF0 hnot
    have hidx1 : idxGet c1 p ln = some slot := by
      rw [hI ln]
      exact hidx
    have hrowNone : alGet t1 p = none := by
      rw [(processHunks_table hunks [] (collectSnapshotEntries s) t1 c1 hph).2.1 p hnot]
      rfl
    rw [hNoRow p ln slot hidx1 hrowNone, hLn ln slot hidx]

/-- C10: duplicate `(path, line_number)` keys.  The collected index points a
key at precisely the last entry with that key (and at nothing else), so an
earlier duplicate is never the indexed slot; after any successful
reconciliation the earlier duplicate's slot still holds the identical entry
(same path, original line number, same suffix), which the output formatter
then emits unchanged. -/
theorem claim_C10 (s d out : List String) (hunks : List GitDiffHunk)
    (j : Nat) (e : SnapshotEntry)
    (hline : (parse_snapshot_lines s).get? j = some (.entry e))
    (hdup : ∃ m, j < m ∧ ∃ suf, (parse_snapshot_lines s).get? m =
      some (.entry ⟨e.path, e.line_number, suf⟩))
    (hparse : parse_git_diff_hunks d = .ok hunks)
    (hok : adjust_line_numbers d s = .ok out) :
    idxGet (collectSnapshotEntries s) e.path e.line_number ≠ some j ∧
    (∀ j', idxGet (collectSnapshotEntries s) e.path e.line_number = some j' ↔
      ((∃ suf, (parse_snapshot_lines s).get? j' = some (.entry ⟨e.path, e.line_number, suf⟩)) ∧
       ∀ m, j' < m → ∀ suf, (parse_snapshot_lines s).get? m ≠
         some (.entry ⟨e.path, e.line_number, suf⟩))) ∧
    ∃ t1 c1 c2,
      processHunks [] (collectSnapshotEntries s) hunks = .ok (t1, c1) ∧
      adjust_entry_line_numbers c1 t1 = .ok c2 ∧
      out = to_formatted_snapshot_lines c2 ∧
      c2.snapshot_lines.get? j = some (some (.entry e)) := by
  have hiff : ∀ j', idxGet (collectSnapshotEntries s) e.path e.line_number = some j' ↔
      ((∃ suf, (parse_snapshot_lines s).get? j' = some (.entry ⟨e.path, e.line_number, suf⟩)) ∧
       ∀ m, j' < m → ∀ suf, (parse_snapshot_lines s).get? m ≠
         some (.entry ⟨e.path, e.line_number, suf⟩)) := by
    intro j'
    exact collect_idxGet_last (parse_snapshot_lines s) e.path e.line_number j'
  have hnotj : idxGet (collectSnapshotEntries s) e.path e.line_number ≠ some j := by
    intro hc
    obtain ⟨-, hmaxj⟩ := (hiff j).mp hc
    obtain ⟨m, hjm, suf, hsm⟩ := hdup
    exact hmaxj m hjm suf hsm
  have hs0 := slotSpec_collect s
  have hWF0 := keysWF_collect s
  have hfree : ∀ q lm, idxGet (collectSnapshotEntries s) q lm ≠ some j := by
    intro q lm hc
    obtain ⟨suf, hsuf⟩ := hs0 q lm j hc
    rw [collect_snapshot_lines, List.get?_map, hline] at hsuf
    have he : SnapshotLine.entry e = SnapshotLine.entry ⟨q, lm, suf⟩ := by
      have := Option.some.inj (Option.some.inj hsuf)
      exact this
    have he2 : e = ⟨q, lm, suf⟩ := by
      cases he
      rfl
    refine hnotj ?_
    rw [he2]
    exact hc
  obtain ⟨t1, c1, c2, hph, hae, hout⟩ := adjust_pipeline d s out hunks hparse hok
  obtain ⟨hs1, hWF1, hSub1, -, hFrame1, -, -⟩ :=
    processHunks_pres t1 c1 hunks [] (collectSnapshotEntries s) hph hs0 hWF0
  have htnd : (t1.map Prod.fst).Nodup :=
    (processHunks_table hunks [] (collectSnapshotEntries s) t1 c1 hph).1 List.nodup_nil
  obtain ⟨-, -, -, hFrame2, -, -, -⟩ := adjust_entry_spec c1 t1 c2 hae hs1 hWF1 htnd
  have hfree1 : ∀ q lm, idxGet c1 q lm ≠ some j := by
    intro q lm hc
    exact hfree q lm (hSub1 q lm j hc)
  have hc0j : (collectSnapshotEntries s).snapshot_lines.get? j = some (some (.entry e)) := by
    rw [collect_snapshot_lines, List.get?_map, hline]
    rfl
  refine ⟨hnotj, hiff, t1, c1, c2, hph, hae, hout, ?_⟩
  rw [hFrame2 j hfree1, hFrame1 j hfree]
  exact hc0j

/-- Printing the collected snapshot of round-trip-stable lines reproduces the
input lines. -/
theorem to_formatted_collect (s : List String)
    (hcanon : ∀ l ∈ s, format_snapshot_line (parse_snapshot_line l) = l) :
    to_formatted_snapshot_lines (collectSnapshotEntries s) = s := by
  rw [to_formatted_snapshot_lines, collect_snapshot_lines]
  have hfm : ((parse_snapshot_lines s).map some).filterMap id = parse_snapshot_lines s := by
    induction parse_snapshot_lines s with
    | nil => rfl
    | cons a rest ih =>
      rw [List.map_cons, List.filterMap_cons]
      show a :: (rest.map some).filterMap id = a :: rest
      rw [ih]
  rw [hfm, parse_snapshot_lines, List.map_map]
  have : s.map (format_snapshot_line ∘ parse_snapshot_line) = s.map id :=
    List.map_congr_left (fun l hl => hcanon l hl)
  rw [this, List.map_id]

/-- C7 as stated is false at the byte level: reconciling against an empty
diff re-serializes entries canonically, so a line with leading zeros in its
line number comes back changed. -/
theorem claim_C7_counterexample :
    adjust_line_numbers [] ["a:05:x"] = .ok ["a:5:x"] ∧
    adjust_line_numbers [] ["a:05:x"] ≠ .ok ["a:05:x"] := by
  constructor
  · decide
  · decide

/-- C7, amended: for a snapshot whose lines are all round-trip stable under
parse/format, reconciling against the empty diff — or against any diff whose
hunks start at line 1 or above and touch only paths for which the snapshot
has no entries — returns the snapshot byte-identical. -/
theorem claim_C7 (s : List String)
    (hcanon : ∀ l ∈ s, format_snapshot_line (parse_snapshot_line l) = l) :
    adjust_line_numbers [] s = .ok s ∧
    (∀ (d : List String) (hunks : List GitDiffHunk),
      parse_git_diff_hunks d = .ok hunks →
      (∀ h ∈ hunks, 1 ≤ h.initial_line_number ∧
        ∀ e : SnapshotEntry, SnapshotLine.entry e ∈ parse_snapshot_lines s →
          e.path ≠ h.path_minus) →
      adjust_line_numbers d s = .ok s) := by
  have hfmt := to_formatted_collect s hcanon
  constructor
  · rw [adjust_line_numbers_eq,
      show parse_git_diff_hunks [] = (.ok [] : PyResult (List GitDiffHunk)) from rfl]
    dsimp only
    rw [show processHunks [] (collectSnapshotEntries s) [] =
      (.ok ([], collectSnapshotEntries s) :
        PyResult (AdjustmentTable × CollectedSnapshotEntries)) from rfl]
    dsimp only
    rw [adjust_entry_nil]
    dsimp only
    rw [hfmt]
  · intro d hunks hparse hall
    have habs : ∀ h ∈ hunks, 1 ≤ h.initial_line_number ∧
        ∀ ln, get_entry (collectSnapshotEntries s) h.path_minus ln = none := by
      intro h hm
      exact ⟨(hall h hm).1,
        (collect_path_absent s h.path_minus (fun e he => (hall h hm).2 e he)).2⟩
    obtain ⟨t1, hw⟩ := walk_hunks_untouched hunks [] (collectSnapshotEntries s) habs
    have hskip : adjust_entry_line_numbers (collectSnapshotEntries s) t1 =
        .ok (collectSnapshotEntries s) := by
      rw [adjust_entry_line_numbers]
      have hrows : ∀ pr ∈ lines_and_total_offsets t1,
          alGet (collectSnapshotEntries s).index pr.1 = none := by
        intro pr hpr
        have hkey : pr.1 ∈ (lines_and_total_offsets t1).map Prod.fst :=
          List.mem_map_of_mem Prod.fst hpr
        rw [lines_and_total_offsets_keys] at hkey
        rcases (processHunks_table hunks [] (collectSnapshotEntries s) t1
            (collectSnapshotEntries s) hw).2.2 pr.1 hkey with hk | ⟨h2, hm2, hp2⟩
        · cases hk
        · have habs2 := (collect_path_absent s h2.path_minus
            (fun e he => (hall h2 hm2).2 e he)).1
          rw [hp2] at habs2
          exact habs2
      rw [adjustAllPaths_skip (collectSnapshotEntries s).index (lines_and_total_offsets t1)
        (collectSnapshotEntries s).snapshot_lines hrows]
      rfl
    rw [adjust_line_numbers_eq, hparse]
    dsimp only
    rw [hw]
    dsimp only
    rw [hskip]
    dsimp only
    rw [hfmt]

theorem startsW_nil (l : List Char) : startsW [] l = true := by
  cases l <;> rfl

theorem startsW_cons (a b : Char) (l1 l2 : List Char) :
    startsW (a :: l1) (b :: l2) = ((a == b) && startsW l1 l2) := rfl

/-- Reduction of the loop body on a line whose rstripped text starts with
`@@ `. -/
theorem hunkStep_at_header (st : HunkState) (line : String) (tl : List Char)
    (htl : (pyRstripNl line).data = '@' :: '@' :: ' ' :: tl) :
    hunkStep st line =
      (match (if ({ st with is_empty := false } : HunkState).diffs = []
          then (.ok { st with is_empty := false } : PyResult HunkState)
          else match st.path_minus, st.path_plus, st.initial with
            | none, _, _ => .error (.valueError "Malformed diff hunk: missing --- line")
            | some _, none, _ => .error (.valueError "Malformed diff hunk: missing +++ line")
            | some _, some _, none => .error (.valueError "Malformed diff hunk: missing @@ line")
            | some pm, some pp, some ini =>
              .ok { st with is_empty := false, acc := st.acc ++ [⟨pm, pp, ini, st.diffs⟩], diffs := [] }) with
       | .error e => .error e
       | .ok s1 =>
         match parse_diff_current_initial_line_number ('@' :: '@' :: ' ' :: tl).asString with
         | .error e => .error e
         | .ok n => .ok { s1 with initial := some n }) := by
  have hat : startsW "@@ ".data ('@' :: '@' :: ' ' :: tl) = true := by
    show startsW ('@' :: '@' :: ' ' :: []) ('@' :: '@' :: ' ' :: tl) = true
    rw [startsW_cons, startsW_cons, startsW_cons, startsW_nil]
    rfl
  rw [hunkStep, htl,
    if_neg (fun hc => Bool.false_ne_true ((show startsW "--- ".data
      ('@' :: '@' :: ' ' :: tl) = false from rfl) ▸ hc)),
    if_neg (fun hc => Bool.false_ne_true ((show startsW "+++ ".data
      ('@' :: '@' :: ' ' :: tl) = false from rfl) ▸ hc)),
    if_pos hat]
  rfl

/-- C4: hunk-parser failure semantics.  Empty input parses to zero hunks
without error; at end of input a pending (non-empty-input) state missing its
old path, new path or initial line number makes the final flush raise a
`ValueError` rather than skip the hunk; a new `@@ ` header arriving while
payload lines are pending likewise raises if any of the three components is
missing; and a new `--- ` header arriving while an old path is already set
raises if the new path or the initial line number was never established. -/
theorem claim_C4 :
    parse_git_diff_hunks [] = .ok [] ∧
    (∀ st : HunkState, st.is_empty = false →
      st.path_minus = none ∨ st.path_plus = none ∨ st.initial = none →
      ∃ msg, hunkFinish st = .error (.valueError msg)) ∧
    (∀ (st : HunkState) (line : String),
      startsW "@@ ".data (pyRstripNl line).data = true → st.diffs ≠ [] →
      st.path_minus = none ∨ st.path_plus = none ∨ st.initial = none →
      ∃ msg, hunkStep st line = .error (.valueError msg)) ∧
    (∀ (st : HunkState) (line : String) (pm : String),
      startsW "--- ".data (pyRstripNl line).data = true → st.path_minus = some pm →
      st.path_plus = none ∨ st.initial = none →
      ∃ msg, hunkStep st line = .error (.valueError msg)) := by
  refine ⟨rfl, ?_, ?_, ?_⟩
  · intro st hempty hmiss
    rw [hunkFinish, if_neg (by rw [hempty]; exact Bool.false_ne_true)]
    cases hpm : st.path_minus with
    | none => exact ⟨"Malformed diff hunk: missing --- line", rfl⟩
    | some pm =>
      cases hpp : st.path_plus with
      | none => exact ⟨"Malformed diff hunk: missing +++ line", rfl⟩
      | some pp =>
        cases hini : st.initial with
        | none => exact ⟨"Malformed diff hunk: missing @@ line", rfl⟩
        | some ini =>
          rcases hmiss with h | h | h
          · rw [hpm] at h
            cases h
          · rw [hpp] at h
            cases h
          · rw [hini] at h
            cases h
  · intro st line hat hdiffs hmiss
    obtain ⟨tl, htl0⟩ : ∃ t, "@@ ".data ++ t = (pyRstripNl line).data :=
      List.isPrefixOf_iff_prefix.mp hat
    have htl : (pyRstripNl line).data = '@' :: '@' :: ' ' :: tl := by
      rw [← htl0]
      rfl
    rw [hunkStep_at_header st line tl htl,
      if_neg (show ¬({ st with is_empty := false } : HunkState).diffs = [] from hdiffs)]
    cases hpm : st.path_minus with
    | none => exact ⟨"Malformed diff hunk: missing --- line", rfl⟩
    | some pm =>
      cases hpp : st.path_plus with
      | none => exact ⟨"Malformed diff hunk: missing +++ line", rfl⟩
      | some pp =>
        cases hini : st.initial with
        | none => exact ⟨"Malformed diff hunk: missing @@ line", rfl⟩
        | some ini =>
          rcases hmiss with h | h | h
          · rw [hpm] at h
            cases h
          · rw [hpp] at h
            cases h
          · rw [hini] at h
            cases h
  · intro st line pm hdash hpm hmiss
    obtain ⟨tl, htl0⟩ : ∃ t, "--- ".data ++ t = (pyRstripNl line).data :=
      List.isPrefixOf_iff_prefix.mp hdash
    have htl : (pyRstripNl line).data = '-' :: '-' :: '-' :: ' ' :: tl := by
      rw [← htl0]
      rfl
    have hdash2 : startsW "--- ".data ('-' :: '-' :: '-' :: ' ' :: tl) = true := by
      show startsW ('-' :: '-' :: '-' :: ' ' :: []) ('-' :: '-' :: '-' :: ' ' :: tl) = true
      rw [startsW_cons, startsW_cons, startsW_cons, startsW_cons, startsW_nil]
      rfl
    obtain ⟨pm0, pp0, ini0, diffs0, ie0, acc0⟩ := st
    have hpm0 : pm0 = some pm := hpm
    subst hpm0
    rcases hmiss with h | h
    · have hpp0 : pp0 = none := h
      subst hpp0
      refine ⟨"Malformed diff hunk: missing +++ line", ?_⟩
      rw [hunkStep, htl, if_pos hdash2]
    · have hini0 : ini0 = none := h
      subst hini0
      cases pp0 with
      | none =>
        refine ⟨"Malformed diff hunk: missing +++ line", ?_⟩
        rw [hunkStep, htl, if_pos hdash2]
      | some pp =>
        refine ⟨"Malformed diff hunk: missing @@ line", ?_⟩
        rw [hunkStep, htl, if_pos hdash2]

/-! ## Witnesses: the claim theorems applied at concrete inputs -/

theorem claim_C1_witness :
    adjust_line_numbers
      ["--- a/example/base.py", "+++ b/example/base.py", "@@ -2,6 +2,7 @@",
       " x", " y", " z", "+new", " w", " v", " u"]
      ["example/base.py:5: error: msg", "Found 1 error"] =
      .ok ["example/base.py:6: error: msg", "Found 1 error"] := by
  have h := claim_C1 [] ["Found 1 error"] "example/base.py:5: error: msg" "example/base.py"
    ": error: msg" 5
    ["--- a/example/base.py", "+++ b/example/base.py", "@@ -2,6 +2,7 @@",
     " x", " y", " z", "+new", " w", " v", " u"]
    [⟨"example/base.py", "example/base.py", 2,
      [.context, .context, .context, .added "new", .context, .context, .context]⟩] 1
    (by decide) (by decide) (by decide) (by decide) (by decide) (by decide) (by decide)
  exact h.trans (by decide)

theorem claim_C2_witness :
    adjust_line_numbers
      ["--- a/example/base.py", "+++ b/example/base.py", "@@ -2,3 +2,2 @@",
       " x", "-y", " z"]
      ["example/base.py:5: error: msg"] = .ok ["example/base.py:4: error: msg"] ∧
    accumulated_getitem (pyAccumulate [1, 0]) 5 = .ok (1 : Int) := by
  have h := claim_C2 [] [] "example/base.py:5: error: msg" "example/base.py"
    ": error: msg" 5
    ["--- a/example/base.py", "+++ b/example/base.py", "@@ -2,3 +2,2 @@", " x", "-y", " z"]
    [⟨"example/base.py", "example/base.py", 2, [.context, .removed "y", .context]⟩] 1
    (by decide) (by decide) (by decide) (by decide) (by decide) (by decide) (by decide)
  refine ⟨h.1.trans (by decide), ?_⟩
  have h2 := h.2 [1, 0] 5 (by decide) (by decide)
  exact h2.trans (by decide)

theorem claim_C3_witness :
    ∃ t1 c1 c2,
      processHunks [] (collectSnapshotEntries ["a:3:x"])
        [⟨"a", "a", 3, [.removed "z"]⟩] = .ok (t1, c1) ∧
      adjust_entry_line_numbers c1 t1 = .ok c2 ∧
      ([] : List String) = to_formatted_snapshot_lines c2 ∧
      c2.snapshot_lines.get? 0 = some none ∧
      (∀ ln slot row, idxGet c1 "a" ln = some slot → alGet t1 "a" = some row →
        ∃ suf off, accumulated_getitem (pyAccumulate row) ln = .ok off ∧
          c1.snapshot_lines.get? slot = some (some (.entry ⟨"a", ln, suf⟩)) ∧
          c2.snapshot_lines.get? slot = some (some (.entry ⟨"a", ln + off, suf⟩))) :=
  claim_C3 ["a:3:x"] ["--- a/a", "+++ b/a", "@@ -3,1 +3,0 @@", "-z"] [] "a" 3
    [⟨"a", "a", 3, [.removed "z"]⟩] 0
    (by decide) (by decide)
    ⟨⟨"a", "a", 3, [.removed "z"]⟩, by decide, by decide, 0, by decide, by decide, by decide⟩
    (by decide)

theorem claim_C4_witness :
    parse_git_diff_hunks [] = .ok [] ∧
    (∃ msg, hunkFinish ⟨some "a", none, none, [.context], false, []⟩ =
      .error (.valueError msg)) ∧
    (∃ msg, hunkStep ⟨none, none, none, [.context], false, []⟩ "@@ -1,1 +1,1 @@" =
      .error (.valueError msg)) ∧
    (∃ msg, hunkStep ⟨some "a", none, none, [], false, []⟩ "--- a/b" =
      .error (.valueError msg)) :=
  ⟨claim_C4.1,
   claim_C4.2.1 ⟨some "a", none, none, [.context], false, []⟩ (by decide) (by decide),
   claim_C4.2.2.1 ⟨none, none, none, [.context], false, []⟩ "@@ -1,1 +1,1 @@"
     (by decide) (by decide) (by decide),
   claim_C4.2.2.2 ⟨some "a", none, none, [], false, []⟩ "--- a/b" "a"
     (by decide) (by decide) (by decide)⟩

theorem claim_C6_witness :
    format_snapshot_line (parse_snapshot_line ("src/a.py" ++ ":" ++ toString 12 ++ ": error")) =
      "src/a.py" ++ ":" ++ toString 12 ++ ": error" ∧
    format_snapshot_line (parse_snapshot_line "Found 1 error") = "Found 1 error" :=
  ⟨claim_C6.1 "src/a.py" 12 ": error" (by decide) (by decide) (by decide) (by decide)
     (by
       intro c hc
       rw [Option.mem_def] at hc
       have hc2 : (some ':' : Option Char) = some c := hc
       have hc3 : c = ':' := (Option.some.inj hc2).symm
       subst hc3
       decide)
     (by decide),
   claim_C6.2 "Found 1 error" (by decide) (by decide)⟩

theorem claim_C7_witness :
    adjust_line_numbers [] ["lib.py:3: err"] = .ok ["lib.py:3: err"] ∧
    adjust_line_numbers ["--- a/other.py", "+++ b/other.py", "@@ -1,1 +1,1 @@", "-a", "+b"]
      ["lib.py:3: err"] = .ok ["lib.py:3: err"] := by
  have h := claim_C7 ["lib.py:3: err"] (by decide)
  refine ⟨h.1, h.2 ["--- a/other.py", "+++ b/other.py", "@@ -1,1 +1,1 @@", "-a", "+b"]
    [⟨"other.py", "other.py", 1, [.removed "a", .added "b"]⟩] (by decide) ?_⟩
  intro h2 hm
  have hm2 : h2 = ⟨"other.py", "other.py", 1, [.removed "a", .added "b"]⟩ :=
    List.mem_singleton.mp hm
  subst hm2
  refine ⟨by decide, ?_⟩
  intro e he
  rw [show parse_snapshot_lines ["lib.py:3: err"] =
    [.entry ⟨"lib.py", 3, ": err"⟩] from rfl, List.mem_singleton] at he
  have he2 : e = ⟨"lib.py", 3, ": err"⟩ := by
    cases he
    rfl
  subst he2
  decide

theorem claim_C8_witness :
    ∃ t1 c1 c2,
      processHunks [] (collectSnapshotEntries ["note", "lib.py:3: err"])
        [⟨"m.py", "m.py", 1, [.removed "a", .added "b"]⟩] = .ok (t1, c1) ∧
      adjust_entry_line_numbers c1 t1 = .ok c2 ∧
      ["note", "lib.py:3: err"] = to_formatted_snapshot_lines c2 ∧
      filterTexts c2.snapshot_lines =
        filterTexts ((parse_snapshot_lines ["note", "lib.py:3: err"]).map some) ∧
      List.Sublist (filterTexts ((parse_snapshot_lines ["note", "lib.py:3: err"]).map some))
        ["note", "lib.py:3: err"] ∧
      (∀ p, (∀ h ∈ [(⟨"m.py", "m.py", 1, [.removed "a", .added "b"]⟩ : GitDiffHunk)],
          h.path_minus ≠ p) →
        ∀ ln slot, idxGet (collectSnapshotEntries ["note", "lib.py:3: err"]) p ln = some slot →
          c2.snapshot_lines.get? slot =
            (collectSnapshotEntries ["note", "lib.py:3: err"]).snapshot_lines.get? slot) :=
  claim_C8 ["note", "lib.py:3: err"]
    ["--- a/m.py", "+++ b/m.py", "@@ -1,1 +1,1 @@", "-a", "+b"]
    ["note", "lib.py:3: err"]
    [⟨"m.py", "m.py", 1, [.removed "a", .added "b"]⟩]
    (by decide) (by decide)

theorem claim_C10_witness :
    idxGet (collectSnapshotEntries ["a:3:x", "a:3:y"]) "a" 3 ≠ some 0 ∧
    (∀ j', idxGet (collectSnapshotEntries ["a:3:x", "a:3:y"]) "a" 3 = some j' ↔
      ((∃ suf, (parse_snapshot_lines ["a:3:x", "a:3:y"]).get? j' =
        some (.entry ⟨"a", 3, suf⟩)) ∧
       ∀ m, j' < m → ∀ suf, (parse_snapshot_lines ["a:3:x", "a:3:y"]).get? m ≠
         some (.entry ⟨"a", 3, suf⟩))) ∧
    ∃ t1 c1 c2,
      processHunks [] (collectSnapshotEntries ["a:3:x", "a:3:y"])
        [⟨"a", "a", 3, [.removed "z"]⟩] = .ok (t1, c1) ∧
      adjust_entry_line_numbers c1 t1 = .ok c2 ∧
      ["a:3:x"] = to_formatted_snapshot_lines c2 ∧
      c2.snapshot_lines.get? 0 = some (some (.entry ⟨"a", 3, ":x"⟩)) :=
  claim_C10 ["a:3:x", "a:3:y"] ["--- a/a", "+++ b/a", "@@ -3,1 +3,0 @@", "-z"] ["a:3:x"]
    [⟨"a", "a", 3, [.removed "z"]⟩] 0 ⟨"a", 3, ":x"⟩
    (by decide) ⟨1, by decide, ":y", by decide⟩ (by decide) (by decide)

end RNLE
